import Mathlib

/-!
Verification of the content-strategy repository's survey-feedback URL pipeline,
redirect-rule parser, front-matter pruning and include expansion.

Python strings are modelled as `List Char` (with `String` wrappers keeping the
source names).  The pieces of `urllib.parse` that the scripts call
(`urlsplit`, `urlunsplit`, `urljoin`) are embedded following CPython's
`urllib/parse.py`; `ValueError` paths of `urlsplit` (unbalanced brackets in a
netloc) are not modelled since no claim exercises them.
-/

/-- The whitespace set of Python's `str.strip` / `str.isspace`. -/
def isPyWs (c : Char) : Bool :=
  c = ' ' || c = '\t' || c = '\n' || c = '\r' || c = '\x0b' || c = '\x0c' ||
  ('\x1c' ≤ c && c ≤ '\x1f') || c = '\x85' || c = '\xa0' || c = '\u1680' ||
  ('\u2000' ≤ c && c ≤ '\u200a') || c = '\u2028' || c = '\u2029' ||
  c = '\u202f' || c = '\u205f' || c = '\u3000'

/-- Python `str.strip()` on a character list. -/
def pyStripL (l : List Char) : List Char :=
  ((l.dropWhile isPyWs).reverse.dropWhile isPyWs).reverse

/-- `"https:"` as a character list. -/
def httpsColon : List Char := ['h', 't', 't', 'p', 's', ':']

/-- `"http:"` as a character list. -/
def httpColon : List Char := ['h', 't', 't', 'p', ':']

/-- `re.sub(r"^(https?:)/*", r"\1//", u)`: if the string starts with `http:` or
`https:` (the alternation prefers the `https:` form when it fits), the scheme
marker plus any run of slashes after it is replaced by the marker plus `//`. -/
def schemeFixL (l : List Char) : List Char :=
  if httpsColon.isPrefixOf l then
    httpsColon ++ '/' :: '/' :: ((l.drop 6).dropWhile (· = '/'))
  else if httpColon.isPrefixOf l then
    httpColon ++ '/' :: '/' :: ((l.drop 5).dropWhile (· = '/'))
  else l

/-- The bytes CPython's `urlsplit` deletes anywhere in the URL. -/
def isUnsafeUrlChar (c : Char) : Bool := c = '\t' || c = '\r' || c = '\n'

/-- Leading C0-control-or-space characters stripped by CPython's `urlsplit`. -/
def isC0OrSpace (c : Char) : Bool := c ≤ ' '

/-- CPython `scheme_chars`: letters, digits, `+`, `-`, `.` (ASCII). -/
def isSchemeChar (c : Char) : Bool :=
  c.isAlpha || c.isDigit || c = '+' || c = '-' || c = '.'

/-- Result of `urlsplit`. -/
structure SplitUrl where
  scheme : List Char
  netloc : List Char
  path : List Char
  query : List Char
  fragment : List Char

/-- Scheme detection of `urlsplit`: a colon at position `i > 0`, first
character an (ASCII) letter, all characters before the colon scheme
characters; the scheme is lowercased. -/
def detectScheme (u : List Char) : List Char × List Char :=
  let pre := u.takeWhile (· ≠ ':')
  match u.dropWhile (· ≠ ':') with
  | ':' :: rest =>
    match pre with
    | [] => ([], u)
    | c :: _ =>
      if c.isAlpha && pre.all isSchemeChar then (pre.map Char.toLower, rest)
      else ([], u)
  | _ => ([], u)

/-- `_splitnetloc`: when the remainder begins with `//`, the netloc runs to the
first `/`, `?` or `#`. -/
def splitNetlocL (u : List Char) : List Char × List Char :=
  match u with
  | a :: b :: rest =>
    if a = '/' ∧ b = '/' then
      (rest.takeWhile (fun c => c ≠ '/' && c ≠ '?' && c ≠ '#'),
       rest.dropWhile (fun c => c ≠ '/' && c ≠ '?' && c ≠ '#'))
    else ([], a :: b :: rest)
  | _ => ([], u)

/-- CPython `urlsplit(url, scheme=defaultScheme)` (allow_fragments true). -/
def urlsplitL (defaultScheme : List Char) (url : List Char) : SplitUrl :=
  let u1 := (url.filter (fun c => !isUnsafeUrlChar c)).dropWhile isC0OrSpace
  let sr := detectScheme u1
  let scheme := if sr.1.isEmpty then defaultScheme else sr.1
  let nr := splitNetlocL sr.2
  let u3 := nr.2
  let path0 := u3.takeWhile (· ≠ '#')
  let fragment := (u3.dropWhile (· ≠ '#')).drop 1
  let path := path0.takeWhile (· ≠ '?')
  let query := (path0.dropWhile (· ≠ '?')).drop 1
  ⟨scheme, nr.1, path, query, fragment⟩

/-- CPython `urlunsplit`. -/
def urlunsplitL (scheme netloc path query fragment : List Char) : List Char :=
  let url1 :=
    if netloc ≠ [] ∨ path.take 2 = ['/', '/'] then
      '/' :: '/' :: netloc ++
        (match path with
         | [] => ([] : List Char)
         | c :: _ => if c ≠ '/' then '/' :: path else path)
    else path
  let url2 := if scheme ≠ [] then scheme ++ ':' :: url1 else url1
  let url3 := if query ≠ [] then url2 ++ '?' :: query else url2
  if fragment ≠ [] then url3 ++ '#' :: fragment else url3

/-- `re.sub(r"/{2,}", "/", path)`: collapse runs of slashes to one slash. -/
def collapseSlashesL : List Char → List Char
  | [] => []
  | [c] => [c]
  | a :: b :: rest =>
    if a = '/' && b = '/' then collapseSlashesL (b :: rest)
    else a :: collapseSlashesL (b :: rest)

/-- The path post-processing of `normalize_url`: `path = parsed.path or "/"`,
append a trailing slash when missing, collapse duplicate slashes. -/
def normPath (path : List Char) : List Char :=
  let path0 := if path.isEmpty then ['/'] else path
  let path1 := if path0.getLast? = some '/' then path0 else path0 ++ ['/']
  collapseSlashesL path1

/-- `process_survey_feedback.normalize_url` on an actual string (the
`isinstance` guard for non-string input is modelled by `normalize_url_any`). -/
def normalizeUrlL (url : List Char) : Option (List Char) :=
  let u0 := pyStripL url
  if u0.isEmpty then none
  else
    let p := urlsplitL [] (schemeFixL u0)
    let path2 := normPath p.path
    if !p.scheme.isEmpty && !p.netloc.isEmpty then
      some (urlunsplitL p.scheme p.netloc path2 [] [])
    else
      some (if path2.head? = some '/' then path2 else '/' :: path2)

/-- `normalize_url` as a `String` function. -/
def normalize_url (url : String) : Option String :=
  (normalizeUrlL url.data).map List.asString

/-! ### Character-level facts -/

theorem char_le_toNat {a b : Char} (h : a ≤ b) : a.toNat ≤ b.toNat := h

theorem uint32_le_toNat {a b : UInt32} (h : a ≤ b) : a.toNat ≤ b.toNat := h

theorem isPyWs_false_of_print {c : Char} (h1 : 33 ≤ c.toNat) (h2 : c.toNat ≤ 126) :
    isPyWs c = false := by
  by_contra h
  simp only [isPyWs, Bool.or_eq_true, Bool.and_eq_true, decide_eq_true_eq,
    Bool.not_eq_false] at h
  rcases h with ((((((((((((((h|h)|h)|h)|h)|h)|⟨h3,h4⟩)|h)|h)|h)|⟨h3,h4⟩)|h)|h)|h)|h)|h <;>
    first
      | (subst h; exact absurd h1 (by decide))
      | (subst h; exact absurd h2 (by decide))
      | exact Nat.lt_irrefl _
          (Nat.lt_of_lt_of_le (Nat.lt_of_le_of_lt (char_le_toNat h4) (by decide)) h1)
      | exact Nat.lt_irrefl _
          (Nat.lt_of_le_of_lt h2 (Nat.lt_of_lt_of_le (by decide) (char_le_toNat h3)))

theorem isC0OrSpace_false_of_print {c : Char} (h1 : 33 ≤ c.toNat) :
    isC0OrSpace c = false := by
  simp only [isC0OrSpace, decide_eq_false_iff_not]
  intro hle
  exact absurd (Nat.le_trans h1 (char_le_toNat hle)) (by decide)

theorem toNat_range_of_isAlpha {c : Char} (h : c.isAlpha = true) :
    (65 ≤ c.toNat ∧ c.toNat ≤ 90) ∨ (97 ≤ c.toNat ∧ c.toNat ≤ 122) := by
  simp only [Char.isAlpha, Char.isUpper, Char.isLower, Bool.or_eq_true, Bool.and_eq_true,
    decide_eq_true_eq] at h
  rcases h with ⟨h3, h4⟩ | ⟨h3, h4⟩
  · have a := uint32_le_toNat h3; have b := uint32_le_toNat h4
    rw [(by decide : (65 : UInt32).toNat = 65)] at a
    rw [(by decide : (90 : UInt32).toNat = 90)] at b
    exact Or.inl ⟨a, b⟩
  · have a := uint32_le_toNat h3; have b := uint32_le_toNat h4
    rw [(by decide : (97 : UInt32).toNat = 97)] at a
    rw [(by decide : (122 : UInt32).toNat = 122)] at b
    exact Or.inr ⟨a, b⟩

theorem toNat_range_of_isDigit {c : Char} (h : c.isDigit = true) :
    48 ≤ c.toNat ∧ c.toNat ≤ 57 := by
  simp only [Char.isDigit, Bool.and_eq_true, decide_eq_true_eq] at h
  have a := uint32_le_toNat h.1; have b := uint32_le_toNat h.2
  rw [(by decide : (48 : UInt32).toNat = 48)] at a
  rw [(by decide : (57 : UInt32).toNat = 57)] at b
  exact ⟨a, b⟩

theorem schemeChar_print {c : Char} (h : isSchemeChar c = true) :
    33 ≤ c.toNat ∧ c.toNat ≤ 126 := by
  simp only [isSchemeChar, Bool.or_eq_true, decide_eq_true_eq] at h
  rcases h with (((h|h)|h)|h)|h
  · rcases toNat_range_of_isAlpha h with ⟨a, b⟩ | ⟨a, b⟩ <;> omega
  · have := toNat_range_of_isDigit h; omega
  · subst h; decide
  · subst h; decide
  · subst h; decide

theorem schemeChar_not_unsafe {c : Char} (h : isSchemeChar c = true) :
    isUnsafeUrlChar c = false := by
  by_contra hb
  simp only [Bool.not_eq_false, isUnsafeUrlChar, Bool.or_eq_true, decide_eq_true_eq] at hb
  rcases hb with (rfl | rfl) | rfl <;> exact absurd h (by decide)

theorem schemeChar_ne {c : Char} (h : isSchemeChar c = true) :
    c ≠ ':' ∧ c ≠ '/' ∧ c ≠ '#' ∧ c ≠ '?' ∧ isUnsafeUrlChar c = false := by
  refine ⟨?_, ?_, ?_, ?_, schemeChar_not_unsafe h⟩ <;>
    (intro hc; subst hc; exact absurd h (by decide))

theorem toLower_eq_self_of_not_upper {c : Char} (h : ¬(65 ≤ c.toNat ∧ c.toNat ≤ 90)) :
    c.toLower = c := by
  show (if c.toNat ≥ 65 ∧ c.toNat ≤ 90 then Char.ofNat (c.toNat + 32) else c) = c
  rw [if_neg (fun hh => h ⟨hh.1, hh.2⟩)]

/-- Facts about `Char.toLower` on scheme characters, by enumeration of the
uppercase range. -/
theorem toLower_schemeChar_facts {c : Char} (h : isSchemeChar c = true) :
    isSchemeChar c.toLower = true ∧ c.toLower.toLower = c.toLower ∧
      (c.isAlpha = true → c.toLower.isAlpha = true) ∧
      ¬(65 ≤ c.toLower.toNat ∧ c.toLower.toNat ≤ 90) := by
  by_cases hu : 65 ≤ c.toNat ∧ c.toNat ≤ 90
  · obtain ⟨hn1, hn2⟩ := hu
    obtain ⟨n, hn⟩ : ∃ n, c.toNat = n := ⟨_, rfl⟩
    have hc : Char.ofNat n = c := by rw [← hn]; exact Char.ofNat_toNat c
    rw [hn] at hn1 hn2
    subst hc
    interval_cases n <;> exact ⟨by decide, by decide, fun _ => by decide, by decide⟩
  · have he : c.toLower = c := toLower_eq_self_of_not_upper hu
    rw [he]
    exact ⟨h, he, fun ha => ha, hu⟩

/-! ### List helper lemmas -/

theorem takeWhile_append_all {p : Char → Bool} {xs : List Char} (ys : List Char)
    (h : ∀ c ∈ xs, p c = true) :
    (xs ++ ys).takeWhile p = xs ++ ys.takeWhile p := by
  induction xs with
  | nil => simp
  | cons a t ih =>
    simp only [List.cons_append, List.takeWhile_cons, h a (List.mem_cons_self a t), if_true]
    rw [ih (fun c hc => h c (List.mem_cons_of_mem a hc))]

theorem dropWhile_append_all {p : Char → Bool} {xs : List Char} (ys : List Char)
    (h : ∀ c ∈ xs, p c = true) :
    (xs ++ ys).dropWhile p = ys.dropWhile p := by
  induction xs with
  | nil => simp
  | cons a t ih =>
    simp only [List.cons_append, List.dropWhile_cons, h a (List.mem_cons_self a t), if_true]
    exact ih (fun c hc => h c (List.mem_cons_of_mem a hc))

theorem dropWhile_head_false {p : Char → Bool} (l : List Char) :
    ∀ c ∈ (l.dropWhile p).head?, p c = false := by
  induction l with
  | nil => intro c hc; simp at hc
  | cons a t ih =>
    intro c hc
    rw [List.dropWhile_cons] at hc
    by_cases hp : p a = true
    · rw [if_pos hp] at hc
      exact ih c hc
    · rw [if_neg hp] at hc
      simp only [List.head?_cons, Option.mem_def, Option.some.injEq] at hc
      subst hc
      exact Bool.not_eq_true _ ▸ hp

theorem dropWhile_eq_self_of_head {p : Char → Bool} {l : List Char}
    (h : ∀ c ∈ l.head?, p c = false) : l.dropWhile p = l := by
  cases l with
  | nil => rfl
  | cons a t =>
    rw [List.dropWhile_cons, h a (by simp)]
    simp

theorem pyStripL_eq_self {l : List Char}
    (h1 : ∀ c ∈ l.head?, isPyWs c = false) (h2 : ∀ c ∈ l.getLast?, isPyWs c = false) :
    pyStripL l = l := by
  unfold pyStripL
  rw [dropWhile_eq_self_of_head h1]
  rw [dropWhile_eq_self_of_head (by simpa using h2)]
  exact List.reverse_reverse l

theorem pyStripL_nil_of_all {l : List Char} (h : ∀ c ∈ l, isPyWs c = true) :
    pyStripL l = [] := by
  unfold pyStripL
  rw [List.dropWhile_eq_nil_iff.mpr h]
  rfl

theorem isPrefixOf_iff_exists {xs ys : List Char} :
    xs.isPrefixOf ys = true ↔ ∃ t, ys = xs ++ t := by
  induction xs generalizing ys with
  | nil => simp [List.isPrefixOf]
  | cons a t ih =>
    cases ys with
    | nil => simp [List.isPrefixOf]
    | cons b u =>
      simp only [List.isPrefixOf, Bool.and_eq_true, beq_iff_eq, ih, List.cons_append,
        List.cons.injEq]
      constructor
      · rintro ⟨rfl, s, rfl⟩
        exact ⟨s, rfl, rfl⟩
      · rintro ⟨s, rfl, rfl⟩
        exact ⟨rfl, s, rfl⟩

theorem append_colon_inj {xs ys r t : List Char}
    (hx : ∀ c ∈ xs, c ≠ ':') (hy : ∀ c ∈ ys, c ≠ ':')
    (h : xs ++ ':' :: r = ys ++ ':' :: t) : xs = ys ∧ r = t := by
  induction xs generalizing ys with
  | nil =>
    cases ys with
    | nil => simpa using h
    | cons b u =>
      simp only [List.nil_append, List.cons_append, List.cons.injEq] at h
      exact absurd h.1.symm (hy b (List.mem_cons_self b u))
  | cons a s ih =>
    cases ys with
    | nil =>
      simp only [List.nil_append, List.cons_append, List.cons.injEq] at h
      exact absurd h.1 (hx a (List.mem_cons_self a s))
    | cons b u =>
      simp only [List.cons_append, List.cons.injEq] at h
      obtain ⟨rfl, h2⟩ := h
      obtain ⟨he, hr⟩ := ih (fun c hc => hx c (List.mem_cons_of_mem a hc))
        (fun c hc => hy c (List.mem_cons_of_mem a hc)) h2
      exact ⟨by rw [he], hr⟩

/-! ### Facts about `collapseSlashesL` -/

/-- Adjacent characters are never both `/`. -/
def SlashP (a b : Char) : Prop := ¬(a = '/' ∧ b = '/')

theorem collapse_head? : ∀ l : List Char, (collapseSlashesL l).head? = l.head?
  | [] => rfl
  | [_] => rfl
  | a :: b :: rest => by
    rw [collapseSlashesL]
    split
    · next hab =>
      rw [collapse_head? (b :: rest)]
      simp only [Bool.and_eq_true, decide_eq_true_eq] at hab
      rw [hab.1, hab.2]
      rfl
    · simp

theorem collapse_getLast? : ∀ l : List Char, (collapseSlashesL l).getLast? = l.getLast?
  | [] => rfl
  | [_] => rfl
  | a :: b :: rest => by
    rw [collapseSlashesL]
    split
    · rw [collapse_getLast? (b :: rest), List.getLast?_cons_cons]
    · have hne : collapseSlashesL (b :: rest) ≠ [] := by
        intro hh
        have := collapse_head? (b :: rest)
        rw [hh] at this
        simp at this
      cases hcl : collapseSlashesL (b :: rest) with
      | nil => exact absurd hcl hne
      | cons x xs =>
        rw [List.getLast?_cons_cons, ← hcl, collapse_getLast? (b :: rest)]
        rw [List.getLast?_cons_cons]

theorem collapse_sublist : ∀ l : List Char, (collapseSlashesL l).Sublist l
  | [] => List.Sublist.refl []
  | [c] => List.Sublist.refl [c]
  | a :: b :: rest => by
    rw [collapseSlashesL]
    split
    · exact List.Sublist.cons a (collapse_sublist (b :: rest))
    · exact List.Sublist.cons₂ a (collapse_sublist (b :: rest))

theorem collapse_chain' : ∀ l : List Char, (collapseSlashesL l).Chain' SlashP
  | [] => List.chain'_nil
  | [c] => List.chain'_singleton c
  | a :: b :: rest => by
    rw [collapseSlashesL]
    split
    · exact collapse_chain' (b :: rest)
    · next hab =>
      rw [List.chain'_cons']
      refine ⟨?_, collapse_chain' (b :: rest)⟩
      intro y hy
      rw [collapse_head? (b :: rest)] at hy
      simp only [List.head?_cons, Option.mem_def, Option.some.injEq] at hy
      subst hy
      intro ⟨ha, hb⟩
      simp [ha, hb] at hab

theorem collapse_eq_self : ∀ l : List Char, l.Chain' SlashP → collapseSlashesL l = l
  | [], _ => rfl
  | [_], _ => rfl
  | a :: b :: rest, h => by
    rw [List.chain'_cons] at h
    rw [collapseSlashesL]
    split
    · next hab =>
      simp only [Bool.and_eq_true, decide_eq_true_eq] at hab
      exact absurd hab h.1
    · rw [collapse_eq_self (b :: rest) h.2]

/-! ### Output shape of `normalize_url` -/

/-- A canonical path as produced by `normalize_url`: starts and ends with a
slash, no doubled slash, and none of `#`, `?`, tab, CR, LF. -/
structure CleanPath (p : List Char) : Prop where
  hd : p.head? = some '/'
  lst : p.getLast? = some '/'
  chain : p.Chain' SlashP
  chars : ∀ c ∈ p, c ≠ '#' ∧ c ≠ '?' ∧ isUnsafeUrlChar c = false

/-- Shape of every `some` result of `normalizeUrlL`: either a bare clean path,
or `scheme://netloc` followed by a clean path, with a lowercase nonempty
scheme and a nonempty netloc free of `/`, `?`, `#`. -/
def NormOut (s : List Char) : Prop :=
  CleanPath s ∨
  ∃ scheme netloc path,
    s = scheme ++ ':' :: '/' :: '/' :: (netloc ++ path) ∧
    scheme ≠ [] ∧
    (∀ c ∈ scheme.head?, c.isAlpha = true) ∧
    (∀ c ∈ scheme, isSchemeChar c = true ∧ ¬(65 ≤ c.toNat ∧ c.toNat ≤ 90)) ∧
    netloc ≠ [] ∧
    (∀ c ∈ netloc, c ≠ '/' ∧ c ≠ '?' ∧ c ≠ '#' ∧ isUnsafeUrlChar c = false) ∧
    CleanPath path

theorem normPath_of_isEmpty {path : List Char} (h : path.isEmpty = true) :
    normPath path = ['/'] := by
  rw [List.isEmpty_iff] at h
  subst h
  decide

theorem normPath_getLast (path : List Char) : (normPath path).getLast? = some '/' := by
  by_cases he : path.isEmpty = true
  · rw [normPath_of_isEmpty he]
    decide
  · simp only [normPath, if_neg he]
    rw [collapse_getLast?]
    split
    · next hg => exact hg
    · rw [List.getLast?_concat]

theorem normPath_ne_nil (path : List Char) : normPath path ≠ [] := by
  intro hh
  have := normPath_getLast path
  rw [hh] at this
  simp at this

theorem normPath_chain (path : List Char) : (normPath path).Chain' SlashP := by
  by_cases he : path.isEmpty = true
  · rw [normPath_of_isEmpty he]
    exact List.chain'_singleton _
  · simp only [normPath, if_neg he]
    exact collapse_chain' _

theorem normPath_chars {path : List Char}
    (h : ∀ c ∈ path, c ≠ '#' ∧ c ≠ '?' ∧ isUnsafeUrlChar c = false) :
    ∀ c ∈ normPath path, c ≠ '#' ∧ c ≠ '?' ∧ isUnsafeUrlChar c = false := by
  intro c hc
  by_cases he : path.isEmpty = true
  · rw [normPath_of_isEmpty he] at hc
    simp only [List.mem_singleton] at hc
    subst hc
    exact ⟨by decide, by decide, by decide⟩
  · simp only [normPath, if_neg he] at hc
    have hc1 := (collapse_sublist _).mem hc
    split at hc1
    · exact h c hc1
    · rcases List.mem_append.mp hc1 with hc2 | hc2
      · exact h c hc2
      · simp only [List.mem_singleton] at hc2
        subst hc2
        exact ⟨by decide, by decide, by decide⟩

theorem normPath_head {path : List Char} (hne : ¬path.isEmpty = true) :
    (normPath path).head? = path.head? := by
  simp only [normPath, if_neg hne]
  rw [collapse_head?]
  split
  · rfl
  · cases path with
    | nil => simp at hne
    | cons a t => rw [List.cons_append, List.head?_cons, List.head?_cons]

/-- On a clean path, `normPath` is the identity. -/
theorem normPath_eq_self {p : List Char} (h : CleanPath p) : normPath p = p := by
  have hne : ¬p.isEmpty = true := by
    cases p with
    | nil =>
      have := h.hd
      simp at this
    | cons a t => simp
  simp only [normPath, if_neg hne, if_pos h.lst]
  exact collapse_eq_self p h.chain

/-! ### Case analyses for the `urlsplit` components -/

theorem ite_isEmpty_self (l : List Char) :
    (if l.isEmpty = true then ([] : List Char) else l) = l := by
  split
  · next h =>
    rw [List.isEmpty_iff] at h
    rw [h]
  · rfl

theorem takeWhile_head? {p : Char → Bool} {l : List Char} :
    ∀ c ∈ (l.takeWhile p).head?, l.head? = some c := by
  intro c hc
  cases l with
  | nil => simp at hc
  | cons a t =>
    rw [List.takeWhile_cons] at hc
    split at hc
    · simp only [List.head?_cons, Option.mem_def, Option.some.injEq] at hc
      rw [hc]
      rfl
    · simp at hc

theorem detectScheme_cases (u : List Char) :
    detectScheme u = ([], u) ∨
    ∃ pre rest, u = pre ++ ':' :: rest ∧ pre ≠ [] ∧
      (∀ c ∈ pre, isSchemeChar c = true) ∧ (∀ c ∈ pre.head?, c.isAlpha = true) ∧
      detectScheme u = (pre.map Char.toLower, rest) := by
  cases hd : u.dropWhile (· ≠ ':') with
  | nil =>
    left
    unfold detectScheme
    rw [hd]
  | cons c0 rest =>
    have hc0 : c0 = ':' := by
      have h2 := dropWhile_head_false (p := (· ≠ ':')) u c0 (by rw [hd]; simp)
      simpa using h2
    subst hc0
    cases hp : u.takeWhile (· ≠ ':') with
    | nil =>
      left
      unfold detectScheme
      rw [hd, hp]
      rfl
    | cons a t =>
      by_cases hcond : (a.isAlpha && (a :: t).all isSchemeChar) = true
      · obtain ⟨hca, hct⟩ : a.isAlpha = true ∧ (a :: t).all isSchemeChar = true := by
          simpa using hcond
        right
        refine ⟨a :: t, rest, ?_, by simp, ?_, ?_, ?_⟩
        · rw [← hp, ← hd]
          exact (List.takeWhile_append_dropWhile _ _).symm
        · intro c hc
          exact List.all_eq_true.mp hct c hc
        · intro c hc
          simp only [List.head?_cons, Option.mem_def, Option.some.injEq] at hc
          subst hc
          exact hca
        · unfold detectScheme
          rw [hd, hp]
          simp only [hcond, if_true]
      · left
        unfold detectScheme
        rw [hd, hp]
        show (if (a.isAlpha && (a :: t).all isSchemeChar) = true
          then (List.map Char.toLower (a :: t), rest) else ([], u)) = ([], u)
        rw [if_neg hcond]

theorem splitNetloc_cases (u : List Char) :
    splitNetlocL u = ([], u) ∨
    ∃ rest, u = '/' :: '/' :: rest ∧
      splitNetlocL u = (rest.takeWhile (fun c => c ≠ '/' && c ≠ '?' && c ≠ '#'),
                        rest.dropWhile (fun c => c ≠ '/' && c ≠ '?' && c ≠ '#')) := by
  match u with
  | [] => exact Or.inl rfl
  | [c] => exact Or.inl rfl
  | a :: b :: rest =>
    by_cases hab : a = '/' ∧ b = '/'
    · right
      obtain ⟨rfl, rfl⟩ := hab
      refine ⟨rest, rfl, ?_⟩
      simp [splitNetlocL]
    · left
      simp only [splitNetlocL]
      rw [if_neg hab]

/-- Structural facts about `urlsplit` with empty default scheme: the path is
free of `#`, `?` and unsafe bytes; a nonempty scheme is wellformed and
lowercase; a nonempty netloc is free of `/`, `?`, `#` and unsafe bytes, and
forces the path to begin with `/` (when nonempty). -/
theorem urlsplitL_nil_shape (url : List Char) :
    (∀ c ∈ (urlsplitL [] url).path, c ≠ '#' ∧ c ≠ '?' ∧ isUnsafeUrlChar c = false) ∧
    ((urlsplitL [] url).scheme ≠ [] →
      (∀ c ∈ (urlsplitL [] url).scheme.head?, c.isAlpha = true) ∧
      (∀ c ∈ (urlsplitL [] url).scheme,
        isSchemeChar c = true ∧ ¬(65 ≤ c.toNat ∧ c.toNat ≤ 90))) ∧
    ((urlsplitL [] url).netloc ≠ [] →
      (∀ c ∈ (urlsplitL [] url).netloc,
        c ≠ '/' ∧ c ≠ '?' ∧ c ≠ '#' ∧ isUnsafeUrlChar c = false) ∧
      (∀ c ∈ (urlsplitL [] url).path.head?, c = '/')) := by
  simp only [urlsplitL, ite_isEmpty_self]
  set u1 := (url.filter (fun c => !isUnsafeUrlChar c)).dropWhile isC0OrSpace with hu1
  have hu1unsafe : ∀ c ∈ u1, isUnsafeUrlChar c = false := by
    intro c hc
    have hmem := (List.dropWhile_sublist _).mem hc
    have := List.of_mem_filter hmem
    simpa using this
  have hsub2 : ∀ c ∈ (detectScheme u1).2, c ∈ u1 := by
    rcases detectScheme_cases u1 with hcase | ⟨pre, rest, hequ, _, _, _, hcase⟩ <;> rw [hcase]
    · exact fun c hc => hc
    · intro c hc
      rw [hequ]
      exact List.mem_append.mpr (Or.inr (List.mem_cons_of_mem _ hc))
  have hscheme : (detectScheme u1).1 ≠ [] →
      (∀ c ∈ (detectScheme u1).1.head?, c.isAlpha = true) ∧
      (∀ c ∈ (detectScheme u1).1,
        isSchemeChar c = true ∧ ¬(65 ≤ c.toNat ∧ c.toNat ≤ 90)) := by
    intro hs
    rcases detectScheme_cases u1 with hcase | ⟨pre, rest, hequ, hpre, hchars, hhead, hcase⟩
    · rw [hcase] at hs
      simp at hs
    · rw [hcase]
      simp only
      constructor
      · intro c hc
        cases pre with
        | nil => simp at hc
        | cons a t =>
          simp only [List.map_cons, List.head?_cons, Option.mem_def,
            Option.some.injEq] at hc
          subst hc
          have ha := hhead a (by simp)
          have hsc := hchars a (List.mem_cons_self a t)
          exact (toLower_schemeChar_facts hsc).2.2.1 ha
      · intro c hc
        rw [List.mem_map] at hc
        obtain ⟨d, hd, rfl⟩ := hc
        have hsc := hchars d hd
        exact ⟨(toLower_schemeChar_facts hsc).1, (toLower_schemeChar_facts hsc).2.2.2⟩
  rcases splitNetloc_cases (detectScheme u1).2 with hnl | ⟨rest, hrest, hnl⟩
  · rw [hnl]
    refine ⟨?_, hscheme, ?_⟩
    · intro c hc
      have h1 : c ≠ '?' := by simpa using List.mem_takeWhile_imp hc
      have hc2 : c ∈ (detectScheme u1).2.takeWhile (· ≠ '#') :=
        (List.takeWhile_sublist _).mem hc
      have h2 : c ≠ '#' := by simpa using List.mem_takeWhile_imp hc2
      have hc3 : c ∈ (detectScheme u1).2 := (List.takeWhile_sublist _).mem hc2
      exact ⟨h2, h1, hu1unsafe c (hsub2 c hc3)⟩
    · intro hn
      simp at hn
  · rw [hnl]
    simp only
    have hrestmem : ∀ c ∈ rest, c ∈ u1 := by
      intro c hc
      apply hsub2
      rw [hrest]
      exact List.mem_cons_of_mem _ (List.mem_cons_of_mem _ hc)
    refine ⟨?_, hscheme, ?_⟩
    · intro c hc
      have h1 : c ≠ '?' := by simpa using List.mem_takeWhile_imp hc
      have hc2 := (List.takeWhile_sublist _).mem hc
      have h2 : c ≠ '#' := by simpa using List.mem_takeWhile_imp hc2
      have hc3 := (List.takeWhile_sublist _).mem hc2
      have hc4 := (List.dropWhile_sublist _).mem hc3
      exact ⟨h2, h1, hu1unsafe c (hrestmem c hc4)⟩
    · intro _
      constructor
      · intro c hc
        have hpred := List.mem_takeWhile_imp hc
        simp only [Bool.and_eq_true, decide_eq_true_eq] at hpred
        have hc2 := (List.takeWhile_sublist _).mem hc
        exact ⟨hpred.1.1, hpred.1.2, hpred.2, hu1unsafe c (hrestmem c hc2)⟩
      · intro c hc
        have hc2 := takeWhile_head? c hc
        have hc3 := takeWhile_head? c hc2
        have hfail := dropWhile_head_false
          (p := (fun c => c ≠ '/' && c ≠ '?' && c ≠ '#')) rest c hc3
        simp only [Bool.and_eq_false_iff, decide_eq_false_iff_not, not_not] at hfail
        have hcp : c ∈ ((rest.dropWhile
            (fun c => c ≠ '/' && c ≠ '?' && c ≠ '#')).takeWhile (· ≠ '#')).takeWhile
            (· ≠ '?') := List.mem_of_mem_head? hc
        have h1 : c ≠ '?' := by simpa using List.mem_takeWhile_imp hcp
        have h2 : c ≠ '#' := by
          simpa using List.mem_takeWhile_imp ((List.takeWhile_sublist _).mem hcp)
        rcases hfail with (hfail | hfail) | hfail
        · exact hfail
        · exact absurd hfail h1
        · exact absurd hfail h2

/-- `urlunsplit` on a nonempty scheme, nonempty netloc, `/`-initial path and
empty query and fragment produces `scheme://netloc<path>`. -/
theorem urlunsplit_canonical {scheme netloc path : List Char}
    (hs : scheme ≠ []) (hn : netloc ≠ []) (hp : path.head? = some '/') :
    urlunsplitL scheme netloc path [] [] =
      scheme ++ ':' :: '/' :: '/' :: (netloc ++ path) := by
  obtain ⟨r, rfl⟩ : ∃ r, path = '/' :: r := by
    cases path with
    | nil => simp at hp
    | cons a t =>
      simp only [List.head?_cons, Option.some.injEq] at hp
      exact ⟨t, by rw [hp]⟩
  simp only [urlunsplitL]
  rw [if_pos (Or.inl hn)]
  rw [if_neg (by simp : ¬('/' : Char) ≠ '/')]
  rw [if_pos hs]
  rw [if_neg (by simp : ¬([] : List Char) ≠ [])]
  rw [if_neg (by simp : ¬([] : List Char) ≠ [])]
  simp

/-- Every `some` result of `normalize_url` has canonical shape. -/
theorem normalizeUrlL_shape {u s : List Char} (h : normalizeUrlL u = some s) :
    NormOut s := by
  simp only [normalizeUrlL] at h
  split at h
  · exact absurd h (by simp)
  · obtain ⟨hpath, hscheme, hnetloc⟩ := urlsplitL_nil_shape (schemeFixL (pyStripL u))
    set q := urlsplitL [] (schemeFixL (pyStripL u)) with hq
    split at h
    · next hcond =>
      have hcond' : q.scheme.isEmpty = false ∧ q.netloc.isEmpty = false := by
        simpa only [Bool.and_eq_true, Bool.not_eq_true'] using hcond
      have hs : q.scheme ≠ [] := by
        intro hh
        rw [hh] at hcond'
        simp at hcond'
      have hn : q.netloc ≠ [] := by
        intro hh
        rw [hh] at hcond'
        simp at hcond'
      have hphead : (normPath q.path).head? = some '/' := by
        by_cases he : q.path.isEmpty = true
        · rw [normPath_of_isEmpty he]
          rfl
        · rw [normPath_head he]
          cases hh : q.path.head? with
          | none =>
            rw [List.head?_eq_none_iff] at hh
            rw [hh] at he
            simp at he
          | some c =>
            have hcs := (hnetloc hn).2 c (Option.mem_def.mpr hh)
            rw [hcs]
      injection h with h
      subst h
      right
      refine ⟨q.scheme, q.netloc, normPath q.path,
        urlunsplit_canonical hs hn hphead, hs, (hscheme hs).1, (hscheme hs).2, hn,
        (hnetloc hn).1, ?_⟩
      exact ⟨hphead, normPath_getLast _, normPath_chain _, normPath_chars hpath⟩
    · injection h with h
      subst h
      left
      have hlast : (normPath q.path).getLast? = some '/' := normPath_getLast _
      have hchain := normPath_chain q.path
      have hchars := normPath_chars hpath
      split
      · next hhd =>
        exact ⟨hhd, hlast, hchain, hchars⟩
      · next hhd =>
        have hnn : normPath q.path ≠ [] := normPath_ne_nil _
        refine ⟨rfl, ?_, ?_, ?_⟩
        · cases hcl : normPath q.path with
          | nil => exact absurd hcl hnn
          | cons x xs =>
            rw [List.getLast?_cons_cons, ← hcl, hlast]
        · rw [List.chain'_cons']
          refine ⟨?_, hchain⟩
          intro y hy
          intro ⟨_, hy2⟩
          subst hy2
          exact hhd (Option.mem_def.mp hy)
        · intro c hc
          rcases List.mem_cons.mp hc with rfl | hc2
          · exact ⟨by decide, by decide, by decide⟩
          · exact hchars c hc2

/-! ### Canonical forms are fixed points -/

theorem detectScheme_of_head_not_alpha {u : List Char}
    (h : ∀ c ∈ u.head?, c.isAlpha = false) : detectScheme u = ([], u) := by
  rcases detectScheme_cases u with hcase | ⟨pre, rest, hequ, hpre, _, hhead, hcase⟩
  · exact hcase
  · cases pre with
    | nil => exact absurd rfl hpre
    | cons a t =>
      have ha := hhead a (by simp)
      have ha2 := h a (by rw [hequ]; simp)
      rw [ha] at ha2
      exact absurd ha2 (by simp)

theorem cleanPath_ne_nil {s : List Char} (h : CleanPath s) : s ≠ [] := by
  intro hh
  have := h.hd
  rw [hh] at this
  simp at this

theorem cleanPath_cons {s : List Char} (h : CleanPath s) : ∃ r, s = '/' :: r := by
  cases s with
  | nil => exact absurd rfl (cleanPath_ne_nil h)
  | cons a t =>
    have := h.hd
    simp only [List.head?_cons, Option.some.injEq] at this
    exact ⟨t, by rw [this]⟩

/-- `urlsplit` of a bare clean path: no scheme, no netloc, the path itself. -/
theorem urlsplitL_cleanpath {s : List Char} (h : CleanPath s) :
    urlsplitL [] s = ⟨[], [], s, [], []⟩ := by
  obtain ⟨r, rfl⟩ := cleanPath_cons h
  have hfilter : ('/' :: r).filter (fun c => !isUnsafeUrlChar c) = '/' :: r := by
    rw [List.filter_eq_self]
    intro c hc
    simp [(h.chars c hc).2.2]
  have hdrop : ('/' :: r).dropWhile isC0OrSpace = '/' :: r :=
    dropWhile_eq_self_of_head (by intro c hc; simp at hc; subst hc; decide)
  have hds : detectScheme ('/' :: r) = ([], '/' :: r) :=
    detectScheme_of_head_not_alpha (by intro c hc; simp at hc; subst hc; decide)
  have hnl : splitNetlocL ('/' :: r) = ([], '/' :: r) := by
    rcases splitNetloc_cases ('/' :: r) with hcase | ⟨rest, hequ, hcase⟩
    · exact hcase
    · exfalso
      have hchain := h.chain
      rw [hequ] at hchain
      rw [List.chain'_cons] at hchain
      exact hchain.1 ⟨rfl, rfl⟩
  have hhash : ('/' :: r).takeWhile (· ≠ '#') = '/' :: r := by
    rw [List.takeWhile_eq_self_iff]
    intro c hc
    simpa using (h.chars c hc).1
  have hhash2 : ('/' :: r).dropWhile (· ≠ '#') = [] := by
    rw [List.dropWhile_eq_nil_iff]
    intro c hc
    simpa using (h.chars c hc).1
  have hquery : ('/' :: r).takeWhile (· ≠ '?') = '/' :: r := by
    rw [List.takeWhile_eq_self_iff]
    intro c hc
    simpa using (h.chars c hc).2.1
  have hquery2 : ('/' :: r).dropWhile (· ≠ '?') = [] := by
    rw [List.dropWhile_eq_nil_iff]
    intro c hc
    simpa using (h.chars c hc).2.1
  simp only [urlsplitL, hfilter, hdrop, hds, ite_isEmpty_self, hnl, hhash, hhash2,
    hquery, hquery2]
  rfl

/-- `urlsplit` of `scheme://netloc<path>` in canonical form recovers the
components. -/
theorem urlsplitL_canonical {scheme netloc path : List Char}
    (hs : scheme ≠ [])
    (hsc : ∀ c ∈ scheme, isSchemeChar c = true ∧ ¬(65 ≤ c.toNat ∧ c.toNat ≤ 90))
    (hsh : ∀ c ∈ scheme.head?, c.isAlpha = true)
    (hn : ∀ c ∈ netloc, c ≠ '/' ∧ c ≠ '?' ∧ c ≠ '#' ∧ isUnsafeUrlChar c = false)
    (hnn : netloc ≠ [])
    (hp : CleanPath path) :
    urlsplitL [] (scheme ++ ':' :: '/' :: '/' :: (netloc ++ path)) =
      ⟨scheme, netloc, path, [], []⟩ := by
  obtain ⟨pr, hpr⟩ := cleanPath_cons hp
  obtain ⟨a, t, rfl⟩ : ∃ a t, scheme = a :: t := by
    cases scheme with
    | nil => exact absurd rfl hs
    | cons a t => exact ⟨a, t, rfl⟩
  have ha : a.isAlpha = true := hsh a (by simp)
  have hfilter : ((a :: t) ++ ':' :: '/' :: '/' :: (netloc ++ path)).filter
      (fun c => !isUnsafeUrlChar c)
      = (a :: t) ++ ':' :: '/' :: '/' :: (netloc ++ path) := by
    rw [List.filter_eq_self]
    intro c hc
    simp only [Bool.not_eq_true']
    rcases List.mem_append.mp hc with hc1 | hc1
    · exact schemeChar_not_unsafe (hsc c hc1).1
    · rcases List.mem_cons.mp hc1 with rfl | hc2
      · decide
      · rcases List.mem_cons.mp hc2 with rfl | hc3
        · decide
        · rcases List.mem_cons.mp hc3 with rfl | hc4
          · decide
          · rcases List.mem_append.mp hc4 with hc5 | hc5
            · exact (hn c hc5).2.2.2
            · exact (hp.chars c hc5).2.2
  have hdrop : ((a :: t) ++ ':' :: '/' :: '/' :: (netloc ++ path)).dropWhile isC0OrSpace
      = (a :: t) ++ ':' :: '/' :: '/' :: (netloc ++ path) := by
    apply dropWhile_eq_self_of_head
    intro c hc
    simp only [List.cons_append, List.head?_cons, Option.mem_def, Option.some.injEq] at hc
    subst hc
    apply isC0OrSpace_false_of_print
    rcases toNat_range_of_isAlpha ha with ⟨h1, _⟩ | ⟨h1, _⟩ <;> omega
  have htake : ((a :: t) ++ ':' :: '/' :: '/' :: (netloc ++ path)).takeWhile (· ≠ ':')
      = a :: t := by
    rw [takeWhile_append_all _ (fun c hc => by
      simpa using (schemeChar_ne (hsc c hc).1).1)]
    rw [List.takeWhile_cons_of_neg (by simp)]
    simp
  have hdw : ((a :: t) ++ ':' :: '/' :: '/' :: (netloc ++ path)).dropWhile (· ≠ ':')
      = ':' :: '/' :: '/' :: (netloc ++ path) := by
    rw [dropWhile_append_all _ (fun c hc => by
      simpa using (schemeChar_ne (hsc c hc).1).1)]
    rw [List.dropWhile_cons_of_neg (by simp)]
  have hmaplower : (a :: t).map Char.toLower = a :: t := by
    have hmc : ∀ c ∈ a :: t, Char.toLower c = c := fun c hc =>
      toLower_eq_self_of_not_upper (hsc c hc).2
    calc (a :: t).map Char.toLower = (a :: t).map id := List.map_congr_left hmc
    _ = a :: t := List.map_id _
  have hds : detectScheme ((a :: t) ++ ':' :: '/' :: '/' :: (netloc ++ path))
      = (a :: t, '/' :: '/' :: (netloc ++ path)) := by
    unfold detectScheme
    rw [hdw, htake]
    have hcond : (a.isAlpha && (a :: t).all isSchemeChar) = true := by
      rw [ha]
      simp only [Bool.true_and]
      rw [List.all_eq_true]
      exact fun c hc => (hsc c hc).1
    simp only [hcond, if_true, hmaplower]
  have hnetpath : ∀ c ∈ netloc, (fun c => c ≠ '/' && c ≠ '?' && c ≠ '#') c = true := by
    intro c hc
    have hcp := hn c hc
    simp [hcp.1, hcp.2.1, hcp.2.2.1]
  have hnl : splitNetlocL ('/' :: '/' :: (netloc ++ path)) = (netloc, path) := by
    show (if ('/' : Char) = '/' ∧ ('/' : Char) = '/' then
        ((netloc ++ path).takeWhile (fun c => c ≠ '/' && c ≠ '?' && c ≠ '#'),
         (netloc ++ path).dropWhile (fun c => c ≠ '/' && c ≠ '?' && c ≠ '#'))
      else ([], '/' :: '/' :: (netloc ++ path))) = (netloc, path)
    rw [if_pos ⟨rfl, rfl⟩]
    rw [takeWhile_append_all _ hnetpath, dropWhile_append_all _ hnetpath, hpr]
    rw [List.takeWhile_cons_of_neg (by simp), List.dropWhile_cons_of_neg (by simp)]
    rw [← hpr]
    simp
  have hhash : path.takeWhile (· ≠ '#') = path := by
    rw [List.takeWhile_eq_self_iff]
    intro c hc
    simpa using (hp.chars c hc).1
  have hhash2 : path.dropWhile (· ≠ '#') = [] := by
    rw [List.dropWhile_eq_nil_iff]
    intro c hc
    simpa using (hp.chars c hc).1
  have hquery : path.takeWhile (· ≠ '?') = path := by
    rw [List.takeWhile_eq_self_iff]
    intro c hc
    simpa using (hp.chars c hc).2.1
  have hquery2 : path.dropWhile (· ≠ '?') = [] := by
    rw [List.dropWhile_eq_nil_iff]
    intro c hc
    simpa using (hp.chars c hc).2.1
  simp only [urlsplitL, hfilter, hdrop, hds, ite_isEmpty_self, hnl, hhash, hhash2,
    hquery, hquery2]
  rfl

/-- Canonical outputs are fixed points of `normalize_url`. -/
theorem normOut_fixed {s : List Char} (h : NormOut s) : normalizeUrlL s = some s := by
  rcases h with hcp | ⟨scheme, netloc, path, rfl, hs, hsh, hsc, hn, hnchars, hp⟩
  · obtain ⟨r, rfl⟩ := cleanPath_cons hcp
    have hstrip : pyStripL ('/' :: r) = '/' :: r := by
      apply pyStripL_eq_self
      · intro c hc
        simp only [List.head?_cons, Option.mem_def, Option.some.injEq] at hc
        subst hc
        decide
      · intro c hc
        rw [hcp.lst] at hc
        simp only [Option.mem_def, Option.some.injEq] at hc
        subst hc
        decide
    have hnot1 : ¬(httpsColon.isPrefixOf ('/' :: r) = true) := by
      intro hpre
      obtain ⟨t2, ht⟩ := isPrefixOf_iff_exists.mp hpre
      simp [httpsColon] at ht
    have hnot2 : ¬(httpColon.isPrefixOf ('/' :: r) = true) := by
      intro hpre
      obtain ⟨t2, ht⟩ := isPrefixOf_iff_exists.mp hpre
      simp [httpColon] at ht
    have hfix : schemeFixL ('/' :: r) = '/' :: r := by
      unfold schemeFixL
      rw [if_neg hnot1, if_neg hnot2]
    simp only [normalizeUrlL, hstrip, hfix, urlsplitL_cleanpath hcp,
      List.isEmpty_cons, normPath_eq_self hcp]
    simp [hcp.hd]
  · obtain ⟨pr, hpr⟩ := cleanPath_cons hp
    obtain ⟨a, t, rfl⟩ : ∃ a t, scheme = a :: t := by
      cases scheme with
      | nil => exact absurd rfl hs
      | cons a t => exact ⟨a, t, rfl⟩
    obtain ⟨n0, nt, rfl⟩ : ∃ n0 nt, netloc = n0 :: nt := by
      cases netloc with
      | nil => exact absurd rfl hn
      | cons n0 nt => exact ⟨n0, nt, rfl⟩
    have ha : a.isAlpha = true := hsh a (by simp)
    have hcolon_scheme : ∀ c ∈ a :: t, c ≠ ':' := fun c hc =>
      (schemeChar_ne (hsc c hc).1).1
    have hpathne : path ≠ [] := cleanPath_ne_nil hp
    have hstrip : pyStripL ((a :: t) ++ ':' :: '/' :: '/' :: ((n0 :: nt) ++ path))
        = (a :: t) ++ ':' :: '/' :: '/' :: ((n0 :: nt) ++ path) := by
      apply pyStripL_eq_self
      · intro c hc
        simp only [List.cons_append, List.head?_cons, Option.mem_def,
          Option.some.injEq] at hc
        subst hc
        apply isPyWs_false_of_print
        · rcases toNat_range_of_isAlpha ha with ⟨h1, _⟩ | ⟨h1, _⟩ <;> omega
        · rcases toNat_range_of_isAlpha ha with ⟨_, h2⟩ | ⟨_, h2⟩ <;> omega
      · intro c hc
        have he : (':' :: '/' :: '/' :: ((n0 :: nt) ++ path))
            = [':', '/', '/'] ++ ((n0 :: nt) ++ path) := rfl
        rw [List.getLast?_append_of_ne_nil _ (by simp), he,
          List.getLast?_append_of_ne_nil _ (by simp [hpathne]),
          List.getLast?_append_of_ne_nil _ hpathne, hp.lst] at hc
        simp only [Option.mem_def, Option.some.injEq] at hc
        subst hc
        decide
    have hfix : schemeFixL ((a :: t) ++ ':' :: '/' :: '/' :: ((n0 :: nt) ++ path))
        = (a :: t) ++ ':' :: '/' :: '/' :: ((n0 :: nt) ++ path) := by
      have hn0slash : n0 ≠ '/' := (hnchars n0 (by simp)).1
      have hdw2 : (('/' :: '/' :: ((n0 :: nt) ++ path)).dropWhile (· = '/'))
          = (n0 :: nt) ++ path := by
        rw [List.dropWhile_cons_of_pos (by simp), List.dropWhile_cons_of_pos (by simp)]
        rw [List.cons_append, List.dropWhile_cons_of_neg (by simpa using hn0slash)]
      by_cases h5 : a :: t = ['h', 't', 't', 'p', 's']
      · rw [h5]
        unfold schemeFixL
        rw [if_pos (show httpsColon.isPrefixOf
            (['h', 't', 't', 'p', 's'] ++ ':' :: '/' :: '/' :: ((n0 :: nt) ++ path)) = true
          from isPrefixOf_iff_exists.mpr ⟨'/' :: '/' :: ((n0 :: nt) ++ path), rfl⟩)]
        show httpsColon ++ '/' :: '/' ::
            (('/' :: '/' :: ((n0 :: nt) ++ path)).dropWhile (· = '/'))
          = ['h', 't', 't', 'p', 's'] ++ ':' :: '/' :: '/' :: ((n0 :: nt) ++ path)
        rw [hdw2]
        rfl
      · by_cases h4 : a :: t = ['h', 't', 't', 'p']
        · rw [h4]
          have hnot1 : ¬(httpsColon.isPrefixOf
              (['h', 't', 't', 'p'] ++ ':' :: '/' :: '/' :: ((n0 :: nt) ++ path)) = true) := by
            intro hpre
            obtain ⟨t2, ht⟩ := isPrefixOf_iff_exists.mp hpre
            simp [httpsColon] at ht
          unfold schemeFixL
          rw [if_neg hnot1]
          rw [if_pos (show httpColon.isPrefixOf
              (['h', 't', 't', 'p'] ++ ':' :: '/' :: '/' :: ((n0 :: nt) ++ path)) = true
            from isPrefixOf_iff_exists.mpr ⟨'/' :: '/' :: ((n0 :: nt) ++ path), rfl⟩)]
          show httpColon ++ '/' :: '/' ::
              (('/' :: '/' :: ((n0 :: nt) ++ path)).dropWhile (· = '/'))
            = ['h', 't', 't', 'p'] ++ ':' :: '/' :: '/' :: ((n0 :: nt) ++ path)
          rw [hdw2]
          rfl
        · have hnot1 : ¬(httpsColon.isPrefixOf
              ((a :: t) ++ ':' :: '/' :: '/' :: ((n0 :: nt) ++ path)) = true) := by
            intro hpre
            obtain ⟨t2, ht⟩ := isPrefixOf_iff_exists.mp hpre
            have := append_colon_inj hcolon_scheme (by decide)
              (ht.trans (by rfl : httpsColon ++ t2 = ['h', 't', 't', 'p', 's'] ++ ':' :: t2))
            exact h5 this.1
          have hnot2 : ¬(httpColon.isPrefixOf
              ((a :: t) ++ ':' :: '/' :: '/' :: ((n0 :: nt) ++ path)) = true) := by
            intro hpre
            obtain ⟨t2, ht⟩ := isPrefixOf_iff_exists.mp hpre
            have := append_colon_inj hcolon_scheme (by decide)
              (ht.trans (by rfl : httpColon ++ t2 = ['h', 't', 't', 'p'] ++ ':' :: t2))
            exact h4 this.1
          unfold schemeFixL
          rw [if_neg hnot1, if_neg hnot2]
    have hsplit := urlsplitL_canonical hs hsc hsh hnchars hn hp
    simp only [normalizeUrlL, hstrip, hfix, hsplit]
    rw [if_neg (by simp)]
    rw [if_pos (by simp)]
    rw [normPath_eq_self hp]
    rw [urlunsplit_canonical hs hn hp.hd]

theorem normalizeUrlL_idem (u : List Char) :
    (normalizeUrlL u).bind normalizeUrlL = normalizeUrlL u := by
  cases h : normalizeUrlL u with
  | none => rfl
  | some s =>
    show normalizeUrlL s = some s
    exact normOut_fixed (normalizeUrlL_shape h)

theorem data_asString (l : List Char) : (List.asString l).data = l := rfl

/-- C1: the URL normalizer is idempotent: for every input string `u`,
normalizing the result of `normalize_url` returns the same string, i.e.
`normalize_url <$> normalize_url u` collapses: whenever
`normalize_url u = some v`, also `normalize_url v = some v`. -/
theorem c1_normalize_url_idempotent (u : String) :
    (normalize_url u).bind normalize_url = normalize_url u := by
  unfold normalize_url
  cases h : normalizeUrlL u.data with
  | none => rfl
  | some s =>
    show (normalizeUrlL (List.asString s).data).map List.asString
      = some (List.asString s)
    rw [data_asString, normOut_fixed (normalizeUrlL_shape h)]
    rfl

/-! ### `urllib.parse.urljoin` (used by `ensure_absolute_and_normalize`) -/

/-- CPython `uses_relative`. -/
def usesRelative : List (List Char) :=
  [[], "ftp".data, "http".data, "gopher".data, "nntp".data, "imap".data,
   "wais".data, "file".data, "https".data, "shttp".data, "mms".data,
   "prospero".data, "rtsp".data, "rtsps".data, "rtspu".data, "sftp".data,
   "svn".data, "svn+ssh".data, "ws".data, "wss".data]

/-- CPython `uses_netloc`. -/
def usesNetloc : List (List Char) :=
  [[], "ftp".data, "http".data, "gopher".data, "nntp".data, "telnet".data,
   "imap".data, "wais".data, "file".data, "mms".data, "https".data, "shttp".data,
   "snews".data, "prospero".data, "rtsp".data, "rtsps".data, "rtspu".data,
   "rsync".data,
   "svn".data, "svn+ssh".data, "sftp".data, "nfs".data, "git".data,
   "git+ssh".data, "ws".data, "wss".data]

/-- CPython `uses_params`. -/
def usesParams : List (List Char) :=
  [[], "ftp".data, "hdl".data, "prospero".data, "http".data, "imap".data,
   "https".data, "shttp".data, "rtsp".data, "rtsps".data, "rtspu".data,
   "sip".data, "sips".data, "mms".data, "sftp".data, "tel".data]

/-- Python `str.split(sep)` on a single-character separator. -/
def splitChar (sep : Char) : List Char → List (List Char)
  | [] => [[]]
  | c :: rest =>
    let r := splitChar sep rest
    if c = sep then [] :: r
    else
      match r with
      | [] => [[c]]
      | h :: t => (c :: h) :: t

/-- `sep.join(parts)` for a single-character separator. -/
def joinChar (sep : Char) : List (List Char) → List Char
  | [] => []
  | [x] => x
  | x :: y :: rest => x ++ sep :: joinChar sep (y :: rest)

/-- CPython `_splitparams`. -/
def splitparamsL (url : List Char) : List Char × List Char :=
  if ('/' : Char) ∈ url then
    let bRev := url.reverse.takeWhile (· ≠ '/')
    let b := bRev.reverse
    let a := url.take (url.length - b.length)
    if (';' : Char) ∈ b then
      (a ++ b.takeWhile (· ≠ ';'), (b.dropWhile (· ≠ ';')).drop 1)
    else (url, [])
  else
    if (';' : Char) ∈ url then
      (url.takeWhile (· ≠ ';'), (url.dropWhile (· ≠ ';')).drop 1)
    else (url.dropLast, url)

/-- Result of `urlparse` (adds `params` to `urlsplit`). -/
structure ParseUrl where
  scheme : List Char
  netloc : List Char
  path : List Char
  params : List Char
  query : List Char
  fragment : List Char

/-- CPython `urlparse(url, scheme=ds)`. -/
def urlparseL (ds : List Char) (url : List Char) : ParseUrl :=
  let s := urlsplitL ds url
  if s.scheme ∈ usesParams ∧ (';' : Char) ∈ s.path then
    let pp := splitparamsL s.path
    ⟨s.scheme, s.netloc, pp.1, pp.2, s.query, s.fragment⟩
  else ⟨s.scheme, s.netloc, s.path, [], s.query, s.fragment⟩

/-- CPython `urlunparse`. -/
def urlunparseL (scheme netloc url params query fragment : List Char) : List Char :=
  let url2 := if params ≠ [] then url ++ ';' :: params else url
  urlunsplitL scheme netloc url2 query fragment

/-- `segments[1:-1] = filter(None, segments[1:-1])`. -/
def filterMiddle (l : List (List Char)) : List (List Char) :=
  match l with
  | [] => []
  | [x] => [x]
  | x :: y :: rest =>
    x :: ((y :: rest).dropLast.filter (fun s => !s.isEmpty) ++ [(y :: rest).getLastD []])

/-- CPython `urljoin` (allow_fragments true). -/
def urljoinL (base url : List Char) : List Char :=
  if base = [] then url
  else if url = [] then base
  else
    let b := urlparseL [] base
    let r := urlparseL b.scheme url
    if r.scheme ≠ b.scheme ∨ r.scheme ∉ usesRelative then url
    else if r.scheme ∈ usesNetloc ∧ r.netloc ≠ [] then
      urlunparseL r.scheme r.netloc r.path r.params r.query r.fragment
    else
      let netloc := if r.scheme ∈ usesNetloc then b.netloc else r.netloc
      if r.path = [] ∧ r.params = [] then
        let query := if r.query = [] then b.query else r.query
        urlunparseL r.scheme netloc b.path b.params query r.fragment
      else
        let baseParts0 := splitChar '/' b.path
        let baseParts :=
          if baseParts0.getLast? ≠ some [] then baseParts0.dropLast else baseParts0
        let segments :=
          if r.path.head? = some '/' then splitChar '/' r.path
          else filterMiddle (baseParts ++ splitChar '/' r.path)
        let resolved := segments.foldl (fun acc seg =>
          if seg = ['.', '.'] then acc.dropLast
          else if seg = ['.'] then acc
          else acc ++ [seg]) []
        let resolved2 :=
          if segments.getLast? = some ['.'] ∨ segments.getLast? = some ['.', '.'] then
            resolved ++ [[]]
          else resolved
        let joined := joinChar '/' resolved2
        urlunparseL r.scheme netloc (if joined = [] then ['/'] else joined)
          r.params r.query r.fragment

/-- The fixed base host of the survey-feedback script. -/
def baseUrlL : List Char := "https://docs.nginx.com".data

/-- `process_survey_feedback.ensure_absolute_and_normalize` on a string. -/
def ensureAbsoluteL (url : List Char) : Option (List Char) :=
  let u0 := pyStripL url
  if u0.isEmpty then none
  else
    let u := schemeFixL u0
    let p := urlsplitL [] u
    if p.scheme ≠ [] ∧ p.netloc ≠ [] then normalizeUrlL u
    else normalizeUrlL (urljoinL baseUrlL u)

/-- `ensure_absolute_and_normalize` as a `String` function (fixed base URL). -/
def ensure_absolute_and_normalize (url : String) : Option String :=
  (ensureAbsoluteL url.data).map List.asString

/-! ### C8: absent results for non-string and blank input -/

/-- The `isinstance(url, str)` guard of `normalize_url`: a non-string argument
is modelled as `none` and yields `None`. -/
def normalize_url_any (x : Option String) : Option String :=
  match x with
  | none => none
  | some s => normalize_url s

/-- The `isinstance(url, str)` guard of `ensure_absolute_and_normalize`. -/
def ensure_absolute_and_normalize_any (x : Option String) : Option String :=
  match x with
  | none => none
  | some s => ensure_absolute_and_normalize s

/-- C8: for every non-string input and for every empty or whitespace-only
string input, both `normalize_url` and `ensure_absolute_and_normalize`
return the defined absent result `None` rather than raising. -/
theorem c8_blank_input_absent (x : Option String)
    (h : x = none ∨ ∃ s, x = some s ∧ ∀ c ∈ s.data, isPyWs c = true) :
    normalize_url_any x = none ∧ ensure_absolute_and_normalize_any x = none := by
  rcases h with rfl | ⟨s, rfl, hws⟩
  · exact ⟨rfl, rfl⟩
  · have hnil : pyStripL s.data = [] := pyStripL_nil_of_all hws
    constructor
    · show (normalizeUrlL s.data).map List.asString = none
      simp only [normalizeUrlL, hnil]
      rfl
    · show (ensureAbsoluteL s.data).map List.asString = none
      simp only [ensureAbsoluteL, hnil]
      rfl

theorem c8_blank_input_absent_witness :
    normalize_url_any (some (" \t ")) = none ∧
    ensure_absolute_and_normalize_any (some (" \t ")) = none :=
  c8_blank_input_absent (some (" \t ")) (Or.inr ⟨(" \t "), rfl, by decide⟩)

/-! ### nginx variable stripping and the mapping applier -/

/-- The literal `$is_args$args`. -/
def isArgsTok : List Char := "$is_args$args".data

/-- `re.sub(r"\$is_args\$args", "", u)`: delete every occurrence of the
literal token, scanning left to right without overlap (the occurrence is
matched as an explicit 13-character pattern so the function is structurally
recursive). -/
def removeIsArgs : List Char → List Char
  | '$' :: 'i' :: 's' :: '_' :: 'a' :: 'r' :: 'g' :: 's' ::
      '$' :: 'a' :: 'r' :: 'g' :: 's' :: rest => removeIsArgs rest
  | c :: rest => c :: removeIsArgs rest
  | [] => []

/-- The character class `[A-Za-z0-9_]` of the nginx-variable pattern. -/
def isWordChar (c : Char) : Bool := c.isAlpha || c.isDigit || c = '_'

/-- One-pass scanner for `re.sub(r"\$[A-Za-z0-9_]+", "", u)`: mode 0 copies,
mode 1 has just seen `$` (emitted only if no word character follows), mode 2
is inside a variable name being deleted. -/
def rmVarsAux : Nat → List Char → List Char
  | 0, [] => []
  | 1, [] => ['$']
  | _, [] => []
  | 0, c :: rest => if c = '$' then rmVarsAux 1 rest else c :: rmVarsAux 0 rest
  | 1, c :: rest =>
    if isWordChar c then rmVarsAux 2 rest
    else '$' :: (if c = '$' then rmVarsAux 1 rest else c :: rmVarsAux 0 rest)
  | _ + 2, c :: rest =>
    if isWordChar c then rmVarsAux 2 rest
    else if c = '$' then rmVarsAux 1 rest
    else c :: rmVarsAux 0 rest

/-- `re.sub(r"\$[A-Za-z0-9_]+", "", u)`: delete every `$` followed by a
maximal nonempty run of word characters. -/
def removeNginxVars (l : List Char) : List Char := rmVarsAux 0 l

/-- Python `str.strip(q)` for a single character. -/
def stripQuoteChar (q : Char) (l : List Char) : List Char :=
  ((l.dropWhile (· = q)).reverse.dropWhile (· = q)).reverse

/-- `process_survey_feedback.sanitize_nginx_target` (string case). -/
def sanitizeNginxTargetL (raw : List Char) : List Char :=
  let s := stripQuoteChar '\'' (stripQuoteChar '"' (pyStripL raw))
  collapseSlashesL (removeNginxVars (removeIsArgs s))

/-- `process_survey_feedback.strip_nginx_vars_from_url` (string case). -/
def stripNginxVarsL (u : List Char) : List Char :=
  let cleaned := collapseSlashesL (removeNginxVars (removeIsArgs u))
  match ensureAbsoluteL cleaned with
  | some r => if r.isEmpty then cleaned else r
  | none => cleaned

/-- `strip_nginx_vars_from_url` as a `String` function. -/
def strip_nginx_vars_from_url (u : String) : String :=
  List.asString (stripNginxVarsL u.data)

/-- Python `url.replace(old, rep, 1)` when `old` is nonempty: replace the
leftmost occurrence. -/
def replaceFirstAux (pat rep : List Char) : List Char → List Char
  | [] => []
  | c :: rest =>
    if pat.isPrefixOf (c :: rest) then rep ++ (c :: rest).drop pat.length
    else c :: replaceFirstAux pat rep rest

/-- Python `url.replace(old, rep, 1)`. -/
def replaceFirstL (pat rep l : List Char) : List Char :=
  if pat = [] then rep ++ l else replaceFirstAux pat rep l

/-- `map_one` from `apply_redirect_mappings_in_place` (string case): rewrite
with the first rule whose `old` is a string prefix of the URL, then strip
nginx variables; unmatched URLs are passed through
`strip_nginx_vars_from_url` as well. -/
def map_one' (mappings : List (String × String)) (url : String) : String :=
  match mappings.find? (fun p => p.1.data.isPrefixOf url.data) with
  | some p =>
    let mapped := List.asString (replaceFirstL p.1.data p.2.data url.data)
    let m2 := strip_nginx_vars_from_url mapped
    if m2 = ("") then mapped else m2
  | none =>
    let s := strip_nginx_vars_from_url url
    if s = ("") then url else s

/-- C2 counterexample: with the rule table exactly as the claim states it
(path-form old/new values), no rule is a string prefix of the absolute input
URL, so the applier does not produce `https://host/x/c/`; the URL comes back
unchanged. -/
theorem c2_counterexample :
    map_one' [(("/a/b/"), ("/x/")), (("/a/"), ("/y/"))] ("https://host/a/b/c/")
      = ("https://host/a/b/c/") ∧
    map_one' [(("/a/b/"), ("/x/")), (("/a/"), ("/y/"))] ("https://host/a/b/c/")
      ≠ ("https://host/x/c/") := by
  constructor
  · rfl
  · decide

/-- C2 (amended): with the old paths given in the absolute form the rule
loader actually produces (absolute URLs on the URL's host), the applier
chooses the longer-prefix `/a/b/` rule first and produces
`https://host/x/c/`. -/
theorem c2_longest_match_applies :
    map_one' [(("https://host/a/b/"), ("https://host/x/")),
              (("https://host/a/"), ("https://host/y/"))]
      ("https://host/a/b/c/") = ("https://host/x/c/") := by
  rfl

/-- C3 counterexample: with an empty rule table (so no rule matches), the
bare path `/a/` is not returned unchanged: the fall-through re-normalization
rewrites it to an absolute URL. -/
theorem c3_counterexample :
    map_one' [] ("/a/") = ("https://docs.nginx.com/a/") ∧
    map_one' [] ("/a/") ≠ ("/a/") := by
  constructor
  · rfl
  · decide

/-- C3 (amended): if no rule's `old_path` is a string prefix of the URL and
the URL is already a fixed point of the fall-through normalization
`strip_nginx_vars_from_url` (as the pipeline guarantees by normalizing before
mapping), `map_one` returns the URL unchanged. -/
theorem c3_no_match_unchanged (ms : List (String × String)) (url : String)
    (hnm : ∀ p ∈ ms, p.1.data.isPrefixOf url.data = false)
    (hfix : strip_nginx_vars_from_url url = url) :
    map_one' ms url = url := by
  unfold map_one'
  rw [List.find?_eq_none.mpr (fun p hp => by simp [hnm p hp])]
  simp only [hfix]
  split <;> rfl

theorem c3_no_match_unchanged_witness :
    map_one' [(("https://docs.nginx.com/b/"), ("https://docs.nginx.com/c/"))]
      ("https://docs.nginx.com/a/") = ("https://docs.nginx.com/a/") :=
  c3_no_match_unchanged [(("https://docs.nginx.com/b/"), ("https://docs.nginx.com/c/"))]
    ("https://docs.nginx.com/a/") (by decide) (by decide)

/-! ### The nginx-style redirect-rule loader -/

/-- The capture `(?P<old>/[^\s\{]*)`: a slash followed by the maximal run of
characters that are neither whitespace nor `{`. -/
def capOld (l : List Char) : Option (List Char) :=
  match l with
  | '/' :: rest => some ('/' :: rest.takeWhile (fun c => !isPyWs c && c ≠ '{'))
  | _ => none

/-- `re.match(r"location\b(?:\s+[^\s]+)?\s+(?P<old>/[^\s\{]*)", line, re.IGNORECASE)`,
returning the `old` capture.  The optional greedy group `(?:\s+[^\s]+)?` is
tried first; because `\s` and `[^\s]` are disjoint classes the engine's
backtracking reduces to: try `ws+ token ws+ capture`, else `ws+ capture`. -/
def matchLocOld (line : List Char) : Option (List Char) :=
  if (line.take 8).map Char.toLower = ("location".data) ∧ 8 ≤ line.length then
    let rest := line.drop 8
    if rest.head?.all (fun c => !isWordChar c) then
      let ws1 := rest.takeWhile isPyWs
      let r1 := rest.dropWhile isPyWs
      if ws1.isEmpty then none
      else
        let tok := r1.takeWhile (fun c => !isPyWs c)
        let r2 := r1.dropWhile (fun c => !isPyWs c)
        let ws2 := r2.takeWhile isPyWs
        let r3 := r2.dropWhile isPyWs
        match (if !tok.isEmpty && !ws2.isEmpty then capOld r3 else none) with
        | some old => some old
        | none => capOld r1
    else none
  else none

/-- One anchored attempt of `return\s+\d{3}\s+([^;]+);` (case-insensitive on
the literal).  The second `\s+` and `([^;]+)` overlap on whitespace, so when
the text after the whitespace run starts with `;` the engine backtracks and
captures the last whitespace character. -/
def matchReturnAt (l : List Char) : Option (List Char) :=
  if (l.take 6).map Char.toLower = ("return".data) ∧ 6 ≤ l.length then
    let r1 := l.drop 6
    let ws1 := r1.takeWhile isPyWs
    let r2 := r1.dropWhile isPyWs
    if ws1.isEmpty then none
    else
      match r2 with
      | d1 :: d2 :: d3 :: r3 =>
        if d1.isDigit && d2.isDigit && d3.isDigit then
          let w := r3.takeWhile isPyWs
          let r4 := r3.dropWhile isPyWs
          if w.isEmpty then none
          else
            let grp := r4.takeWhile (· ≠ ';')
            match r4.dropWhile (· ≠ ';') with
            | ';' :: _ =>
              if grp.isEmpty then
                if 2 ≤ w.length then some [w.getLastD ' '] else none
              else some grp
            | _ => none
        else none
      | _ => none
  else none

/-- `re.search` for the return pattern: leftmost matching start. -/
def findReturn : List Char → Option (List Char)
  | [] => none
  | c :: rest =>
    match matchReturnAt (c :: rest) with
    | some g => some g
    | none => findReturn rest

/-- `re.match(r"(?P<old>/\S+)\s+(?P<new>/\S+)", line)`. -/
def matchTwoPaths (line : List Char) : Option (List Char × List Char) :=
  match line with
  | '/' :: rest =>
    let tok := rest.takeWhile (fun c => !isPyWs c)
    let r1 := rest.dropWhile (fun c => !isPyWs c)
    if tok.isEmpty then none
    else
      let ws := r1.takeWhile isPyWs
      let r2 := r1.dropWhile isPyWs
      if ws.isEmpty then none
      else
        match r2 with
        | '/' :: rest2 =>
          let tok2 := rest2.takeWhile (fun c => !isPyWs c)
          if tok2.isEmpty then none else some ('/' :: tok, '/' :: tok2)
        | _ => none
  | _ => none

/-- The inner scan of `load_redirects_from_nginx`: starting at line `i + 1`,
walk forward until a line whose stripped form starts with `location `
(no target found) or a line containing a return directive (target found);
returns the found stripped target and the remaining lines from the stopping
position `j`. -/
def scanReturn : List String → Option (List Char) × List String
  | [] => (none, [])
  | l :: ls =>
    let inner := pyStripL l.data
    if ("location ".data).isPrefixOf inner then (none, l :: ls)
    else
      match findReturn inner with
      | some g => (some (pyStripL g), l :: ls)
      | none => scanReturn ls

/-- Truthiness of an optional string: `None` and `""` are falsy. -/
def truthyOpt : Option (List Char) → Bool
  | some l => !l.isEmpty
  | none => false

/-- The while-loop of `load_redirects_from_nginx`, producing the raw mapping
list.  The loop index `i` only moves forward, so the recursion is presented
with a step-count fuel; `lines.length + 1` steps always suffice. -/
def loadLoop : Nat → List String → List (List Char × List Char)
  | 0, _ => []
  | _ + 1, [] => []
  | fuel + 1, line :: rest =>
    let l := pyStripL line.data
    if l.isEmpty || l.head? = some '#' then loadLoop fuel rest
    else
      match matchLocOld l with
      | some old0 =>
        let old := pyStripL old0
        (match findReturn l with
         | some raw =>
           let sanitized := sanitizeNginxTargetL (pyStripL raw)
           let oldN := ensureAbsoluteL old
           let tgtN := ensureAbsoluteL sanitized
           if truthyOpt oldN && truthyOpt tgtN then
             (oldN.getD [], tgtN.getD []) :: loadLoop fuel rest
           else loadLoop fuel rest
         | none =>
           let sr := scanReturn rest
           match sr.1 with
           | some tgt =>
             let sanitized := sanitizeNginxTargetL tgt
             let oldN := ensureAbsoluteL old
             let tgtN := ensureAbsoluteL sanitized
             if truthyOpt oldN && truthyOpt tgtN then
               (oldN.getD [], tgtN.getD []) :: loadLoop fuel sr.2
             else loadLoop fuel sr.2
           | none => loadLoop fuel sr.2)
      | none =>
        match matchTwoPaths l with
        | some pq =>
          let oldN := ensureAbsoluteL pq.1
          let newN := ensureAbsoluteL (sanitizeNginxTargetL pq.2)
          if truthyOpt oldN && truthyOpt newN then
            (oldN.getD [], newN.getD []) :: loadLoop fuel rest
          else loadLoop fuel rest
        | none => loadLoop fuel rest

/-- Deduplication keeping the first mapping per old path (`seen` dict),
with the `if old and new` truthiness re-check of the source. -/
def dedupAux (seen : List (List Char)) :
    List (List Char × List Char) → List (List Char × List Char)
  | [] => []
  | (o, n) :: rest =>
    if o.isEmpty || n.isEmpty || o ∈ seen then dedupAux seen rest
    else (o, n) :: dedupAux (o :: seen) rest

/-- Stable insertion (descending by length of the old path); equal lengths
keep their earlier-first order, matching Python's stable
`sort(key=len, reverse=True)`. -/
def insertByLenDesc (p : List Char × List Char) :
    List (List Char × List Char) → List (List Char × List Char)
  | [] => [p]
  | q :: rest =>
    if p.1.length ≤ q.1.length then q :: insertByLenDesc p rest
    else p :: q :: rest

/-- Stable sort by descending old-path length. -/
def sortByLenDesc (l : List (List Char × List Char)) :
    List (List Char × List Char) :=
  l.foldl (fun acc p => insertByLenDesc p acc) []

/-- The parser from the file's lines to the final ordered rule table. -/
def load_redirects_lines (lines : List String) : List (List Char × List Char) :=
  sortByLenDesc (dedupAux [] (loadLoop (lines.length + 1) lines))

/-- `load_redirects_from_nginx`, with the filesystem as a function from path
to optional file lines; returns the rule table and the log messages (the
per-rule sample logging is elided). -/
def load_redirects_from_nginx (fs : String → Option (List String)) (path : String) :
    List (String × String) × List String :=
  match fs path with
  | none => ([], [("Redirect file not found: ") ++ path])
  | some lines =>
    let rules := (load_redirects_lines lines).map
      (fun p => (List.asString p.1, List.asString p.2))
    (rules, [("Loaded ") ++ toString rules.length ++ (" redirect mappings from ") ++ path])

/-! ### C9: missing redirect file -/

/-- C9: for every path that the filesystem does not resolve to an existing
file, `load_redirects_from_nginx` logs a "Redirect file not found" warning and
returns an empty rule table, rather than failing. -/
theorem c9_missing_file_warning_empty (fs : String → Option (List String))
    (path : String) (h : fs path = none) :
    load_redirects_from_nginx fs path =
      ([], [("Redirect file not found: ") ++ path]) := by
  simp only [load_redirects_from_nginx, h]

theorem c9_missing_file_warning_empty_witness :
    load_redirects_from_nginx (fun _ => none) ("redirects.conf") =
      ([], [("Redirect file not found: redirects.conf")]) :=
  c9_missing_file_warning_empty (fun _ => none) ("redirects.conf") rfl

/-! ### Whitespace-freedom of the parser captures -/

/-- No Python whitespace anywhere in the list. -/
def NoWs (l : List Char) : Prop := ∀ c ∈ l, isPyWs c = false

theorem isPyWs_of_unsafe_char {c : Char} (h : isUnsafeUrlChar c = true) :
    isPyWs c = true := by
  simp only [isUnsafeUrlChar, Bool.or_eq_true, decide_eq_true_eq] at h
  rcases h with (rfl | rfl) | rfl <;> decide

theorem noWs_unsafe {l : List Char} (h : NoWs l) :
    ∀ c ∈ l, isUnsafeUrlChar c = false := by
  intro c hc
  by_contra hb
  rw [Bool.not_eq_false] at hb
  have hcontra := h c hc
  rw [isPyWs_of_unsafe_char hb] at hcontra
  exact absurd hcontra (by simp)

theorem noWs_sublist {l m : List Char} (hs : l.Sublist m) (h : NoWs m) : NoWs l :=
  fun c hc => h c (hs.mem hc)

theorem noWs_append {l m : List Char} (h1 : NoWs l) (h2 : NoWs m) : NoWs (l ++ m) := by
  intro c hc
  rcases List.mem_append.mp hc with hc | hc
  · exact h1 c hc
  · exact h2 c hc

theorem noWs_cons {c : Char} {l : List Char} (h1 : isPyWs c = false) (h2 : NoWs l) :
    NoWs (c :: l) := by
  intro d hd
  rcases List.mem_cons.mp hd with rfl | hd
  · exact h1
  · exact h2 d hd

theorem pyStripL_eq_self_of_noWs {l : List Char} (h : NoWs l) : pyStripL l = l :=
  pyStripL_eq_self
    (fun c hc => h c (List.mem_of_mem_head? hc))
    (fun c hc => h c (List.mem_of_getLast?_eq_some (Option.mem_def.mp hc)))

theorem capOld_shape {l o : List Char} (h : capOld l = some o) :
    o.head? = some '/' ∧ NoWs o := by
  unfold capOld at h
  split at h
  · injection h with h
    subst h
    refine ⟨rfl, noWs_cons (by decide) ?_⟩
    intro c hc
    have := List.mem_takeWhile_imp hc
    simp only [Bool.and_eq_true, Bool.not_eq_true'] at this
    exact this.1
  · exact absurd h (by simp)

theorem matchLocOld_shape {l o : List Char} (h : matchLocOld l = some o) :
    o.head? = some '/' ∧ NoWs o := by
  simp only [matchLocOld] at h
  split at h
  · split at h
    · split at h
      · exact absurd h (by simp)
      · split at h
        · next hcap =>
          injection h with h
          subst h
          split at hcap
          · exact capOld_shape hcap
          · exact absurd hcap (by simp)
        · exact capOld_shape h
    · exact absurd h (by simp)
  · exact absurd h (by simp)

theorem matchTwoPaths_shape {l : List Char} {pq : List Char × List Char}
    (h : matchTwoPaths l = some pq) :
    pq.1.head? = some '/' ∧ NoWs pq.1 := by
  simp only [matchTwoPaths] at h
  split at h
  · split at h
    · exact absurd h (by simp)
    · split at h
      · exact absurd h (by simp)
      · split at h
        · split at h
          · exact absurd h (by simp)
          · injection h with h
            subst h
            refine ⟨rfl, noWs_cons (by decide) ?_⟩
            intro c hc
            have := List.mem_takeWhile_imp hc
            simpa using this
        · exact absurd h (by simp)
  · exact absurd h (by simp)

/-! ### Character provenance through `urlsplit` / `urlparse` / `urljoin` -/

theorem splitNetloc_mem {v : List Char} :
    (∀ c ∈ (splitNetlocL v).1, c ∈ v) ∧ (∀ c ∈ (splitNetlocL v).2, c ∈ v) := by
  rcases splitNetloc_cases v with hc | ⟨rest, hrest, hc⟩ <;> rw [hc]
  · exact ⟨fun c hc => by simp at hc, fun c hc => hc⟩
  · constructor
    · intro c hcm
      rw [hrest]
      exact List.mem_cons_of_mem _ (List.mem_cons_of_mem _ ((List.takeWhile_sublist _).mem hcm))
    · intro c hcm
      rw [hrest]
      exact List.mem_cons_of_mem _ (List.mem_cons_of_mem _ ((List.dropWhile_sublist _).mem hcm))

theorem detectScheme_snd_mem {v : List Char} : ∀ c ∈ (detectScheme v).2, c ∈ v := by
  rcases detectScheme_cases v with hc | ⟨pre, rest, hequ, _, _, _, hc⟩ <;> rw [hc]
  · exact fun c hcm => hcm
  · intro c hcm
    rw [hequ]
    exact List.mem_append.mpr (Or.inr (List.mem_cons_of_mem _ hcm))

theorem urlsplit_mem_fields {ds url : List Char} :
    (∀ c ∈ (urlsplitL ds url).netloc, c ∈ url) ∧
    (∀ c ∈ (urlsplitL ds url).path, c ∈ url) ∧
    (∀ c ∈ (urlsplitL ds url).query, c ∈ url) ∧
    (∀ c ∈ (urlsplitL ds url).fragment, c ∈ url) := by
  simp only [urlsplitL]
  set u1 := (url.filter (fun c => !isUnsafeUrlChar c)).dropWhile isC0OrSpace with hu1
  have hmem1 : ∀ c ∈ u1, c ∈ url := by
    intro c hc
    exact (List.filter_sublist _).mem ((List.dropWhile_sublist _).mem hc)
  have hmem2 : ∀ c ∈ (detectScheme u1).2, c ∈ url :=
    fun c hc => hmem1 c (detectScheme_snd_mem c hc)
  have hmem3 : ∀ c ∈ (splitNetlocL (detectScheme u1).2).2, c ∈ url :=
    fun c hc => hmem2 c (splitNetloc_mem.2 c hc)
  refine ⟨?_, ?_, ?_, ?_⟩
  · exact fun c hc => hmem2 c (splitNetloc_mem.1 c hc)
  · intro c hc
    exact hmem3 c ((List.takeWhile_sublist _).mem ((List.takeWhile_sublist _).mem hc))
  · intro c hc
    exact hmem3 c ((List.takeWhile_sublist _).mem
      ((List.dropWhile_sublist _).mem ((List.drop_sublist _ _).mem hc)))
  · intro c hc
    exact hmem3 c ((List.dropWhile_sublist _).mem ((List.drop_sublist _ _).mem hc))

theorem splitparams_mem {p : List Char} :
    (∀ c ∈ (splitparamsL p).1, c ∈ p) ∧ (∀ c ∈ (splitparamsL p).2, c ∈ p) := by
  have hbmem : ∀ c ∈ (p.reverse.takeWhile (· ≠ '/')).reverse, c ∈ p := by
    intro c hc
    rw [List.mem_reverse] at hc
    have := (List.takeWhile_sublist _).mem hc
    rwa [List.mem_reverse] at this
  simp only [splitparamsL]
  split
  · split
    · constructor
      · intro c hc
        rcases List.mem_append.mp hc with hc | hc
        · exact (List.take_sublist _ _).mem hc
        · exact hbmem c ((List.takeWhile_sublist _).mem hc)
      · intro c hc
        exact hbmem c ((List.dropWhile_sublist _).mem ((List.drop_sublist _ _).mem hc))
    · exact ⟨fun c hc => hc, fun c hc => by simp at hc⟩
  · split
    · constructor
      · intro c hc
        exact (List.takeWhile_sublist _).mem hc
      · intro c hc
        exact (List.dropWhile_sublist _).mem ((List.drop_sublist _ _).mem hc)
    · exact ⟨fun c hc => (List.dropLast_sublist _).mem hc, fun c hc => hc⟩

theorem urlparse_mem_fields {ds url : List Char} :
    (∀ c ∈ (urlparseL ds url).netloc, c ∈ url) ∧
    (∀ c ∈ (urlparseL ds url).path, c ∈ url) ∧
    (∀ c ∈ (urlparseL ds url).params, c ∈ url) ∧
    (∀ c ∈ (urlparseL ds url).query, c ∈ url) ∧
    (∀ c ∈ (urlparseL ds url).fragment, c ∈ url) := by
  obtain ⟨h1, h2, h3, h4⟩ := @urlsplit_mem_fields ds url
  simp only [urlparseL]
  split
  · exact ⟨h1, fun c hc => h2 c (splitparams_mem.1 c hc),
      fun c hc => h2 c (splitparams_mem.2 c hc), h3, h4⟩
  · exact ⟨h1, h2, fun c hc => by simp at hc, h3, h4⟩

theorem urlparse_noWs {ds url : List Char} (h : NoWs url) :
    NoWs (urlparseL ds url).netloc ∧ NoWs (urlparseL ds url).path ∧
    NoWs (urlparseL ds url).params ∧ NoWs (urlparseL ds url).query ∧
    NoWs (urlparseL ds url).fragment := by
  obtain ⟨h1, h2, h3, h4, h5⟩ := @urlparse_mem_fields ds url
  exact ⟨fun c hc => h c (h1 c hc), fun c hc => h c (h2 c hc),
    fun c hc => h c (h3 c hc), fun c hc => h c (h4 c hc), fun c hc => h c (h5 c hc)⟩

theorem splitChar_ne_nil {sep : Char} : ∀ l : List Char, splitChar sep l ≠ [] := by
  intro l
  match l with
  | [] => simp [splitChar]
  | c :: rest =>
    simp only [splitChar]
    split
    · simp
    · split <;> simp

theorem splitChar_mem {sep : Char} : ∀ {l : List Char}, ∀ pt ∈ splitChar sep l,
    ∀ c ∈ pt, c ∈ l
  | [], pt, hpt, c, hc => by
    simp only [splitChar, List.mem_singleton] at hpt
    subst hpt
    simp at hc
  | a :: rest, pt, hpt, c, hc => by
    simp only [splitChar] at hpt
    split at hpt
    · rcases List.mem_cons.mp hpt with rfl | hpt2
      · simp at hc
      · exact List.mem_cons_of_mem _ (splitChar_mem pt hpt2 c hc)
    · revert hpt
      split
      · next heq =>
        intro hpt
        exact absurd heq (splitChar_ne_nil rest)
      · next h0 t0 heq =>
        intro hpt
        rcases List.mem_cons.mp hpt with rfl | hpt2
        · rcases List.mem_cons.mp hc with rfl | hc2
          · exact List.mem_cons_self _ _
          · exact List.mem_cons_of_mem _
              (splitChar_mem h0 (heq ▸ List.mem_cons_self h0 t0) c hc2)
        · exact List.mem_cons_of_mem _
            (splitChar_mem pt (heq ▸ List.mem_cons_of_mem h0 hpt2) c hc)

theorem joinChar_noWs {sep : Char} (hsep : isPyWs sep = false) :
    ∀ {parts : List (List Char)}, (∀ pt ∈ parts, NoWs pt) → NoWs (joinChar sep parts)
  | [], _ => by intro c hc; simp [joinChar] at hc
  | [x], h => by
    simpa only [joinChar] using h x (List.mem_cons_self x [])
  | x :: y :: rest, h => by
    show NoWs (x ++ sep :: joinChar sep (y :: rest))
    refine noWs_append (h x (List.mem_cons_self _ _)) (noWs_cons hsep ?_)
    exact joinChar_noWs hsep (fun pt hpt => h pt (List.mem_cons_of_mem _ hpt))

theorem filterMiddle_mem {l : List (List Char)} :
    ∀ x ∈ filterMiddle l, x ∈ l ∨ x = [] := by
  intro x hx
  match l, hx with
  | [y], hx =>
    simp only [filterMiddle, List.mem_singleton] at hx
    exact Or.inl (hx ▸ List.mem_singleton.mpr rfl)
  | y :: z :: rest, hx =>
    simp only [filterMiddle] at hx
    rcases List.mem_cons.mp hx with rfl | hx2
    · exact Or.inl (List.mem_cons_self _ _)
    · rcases List.mem_append.mp hx2 with hx3 | hx3
      · exact Or.inl (List.mem_cons_of_mem _
          ((List.dropLast_sublist _).mem (List.mem_of_mem_filter hx3)))
      · rw [List.mem_singleton] at hx3
        subst hx3
        cases hgl : (z :: rest).getLast? with
        | none => simp at hgl
        | some w =>
          rw [List.getLastD_eq_getLast?, hgl]
          exact Or.inl (List.mem_cons_of_mem _ (List.mem_of_getLast?_eq_some hgl))

theorem resolve_mem (P : List Char → Prop) :
    ∀ (segs : List (List Char)) (acc : List (List Char)),
      (∀ s ∈ segs, P s) → (∀ x ∈ acc, P x) →
      ∀ x ∈ segs.foldl (fun a seg =>
          if seg = ['.', '.'] then a.dropLast
          else if seg = ['.'] then a else a ++ [seg]) acc, P x
  | [], acc, _, hacc, x, hx => hacc x hx
  | seg :: rest, acc, hsegs, hacc, x, hx => by
    refine resolve_mem P rest _ (fun s hs => hsegs s (List.mem_cons_of_mem _ hs)) ?_ x hx
    intro y hy
    dsimp only at hy
    by_cases h1 : seg = ['.', '.']
    · rw [if_pos h1] at hy
      exact hacc y ((List.dropLast_sublist _).mem hy)
    · rw [if_neg h1] at hy
      by_cases h2 : seg = ['.']
      · rw [if_pos h2] at hy
        exact hacc y hy
      · rw [if_neg h2] at hy
        rcases List.mem_append.mp hy with hy2 | hy2
        · exact hacc y hy2
        · rw [List.mem_singleton] at hy2
          subst hy2
          exact hsegs y (List.mem_cons_self _ _)

/-! ### Component values of `urlsplit` on the shapes produced by the loader -/

theorem urlsplit_netloc_ds (ds url : List Char) :
    (urlsplitL ds url).netloc = (urlsplitL [] url).netloc := rfl

theorem urlsplit_path_ds (ds url : List Char) :
    (urlsplitL ds url).path = (urlsplitL [] url).path := rfl

theorem urlparse_scheme_eq (ds url : List Char) :
    (urlparseL ds url).scheme = (urlsplitL ds url).scheme := by
  simp only [urlparseL]
  split <;> rfl

theorem urlparse_netloc_eq (ds url : List Char) :
    (urlparseL ds url).netloc = (urlsplitL ds url).netloc := by
  simp only [urlparseL]
  split <;> rfl

theorem urlsplit_scheme_slash {ds url : List Char} (hh : url.head? = some '/')
    (hw : NoWs url) : (urlsplitL ds url).scheme = ds := by
  obtain ⟨t, rfl⟩ : ∃ t, url = '/' :: t := by
    cases url with
    | nil => simp at hh
    | cons a t =>
      simp only [List.head?_cons, Option.some.injEq] at hh
      exact ⟨t, by rw [hh]⟩
  have hfilter : ('/' :: t).filter (fun c => !isUnsafeUrlChar c) = '/' :: t := by
    rw [List.filter_eq_self]
    intro c hc
    simpa using noWs_unsafe hw c hc
  have hdrop : ('/' :: t).dropWhile isC0OrSpace = '/' :: t :=
    dropWhile_eq_self_of_head (by intro c hc; simp at hc; subst hc; decide)
  have hds : detectScheme ('/' :: t) = ([], '/' :: t) :=
    detectScheme_of_head_not_alpha (by intro c hc; simp at hc; subst hc; decide)
  simp only [urlsplitL, hfilter, hdrop, hds]
  simp

/-- `urlsplit` of `https://netloc<T>` where the netloc is nonempty and free of
`/`, `?`, `#`, and `T` is empty or begins with one of `/`, `?`, `#`:
the scheme and netloc components are recovered exactly. -/
theorem urlsplit_https_T {netloc T : List Char} (hn : netloc ≠ [])
    (hnc : ∀ c ∈ netloc, c ≠ '/' ∧ c ≠ '?' ∧ c ≠ '#' ∧ isUnsafeUrlChar c = false)
    (hwT : NoWs T)
    (hT : T = [] ∨ T.head? = some '/' ∨ T.head? = some '?' ∨ T.head? = some '#') :
    (urlsplitL [] (("https".data) ++ ':' :: '/' :: '/' :: (netloc ++ T))).scheme
        = "https".data ∧
    (urlsplitL [] (("https".data) ++ ':' :: '/' :: '/' :: (netloc ++ T))).netloc
        = netloc := by
  have hfilter : (("https".data) ++ ':' :: '/' :: '/' :: (netloc ++ T)).filter
      (fun c => !isUnsafeUrlChar c)
      = ("https".data) ++ ':' :: '/' :: '/' :: (netloc ++ T) := by
    rw [List.filter_eq_self]
    intro c hc
    simp only [Bool.not_eq_true']
    rcases List.mem_append.mp hc with hc1 | hc1
    · exact (by decide : ∀ c ∈ "https".data, isUnsafeUrlChar c = false) c hc1
    · rcases List.mem_cons.mp hc1 with rfl | hc2
      · decide
      · rcases List.mem_cons.mp hc2 with rfl | hc3
        · decide
        · rcases List.mem_cons.mp hc3 with rfl | hc4
          · decide
          · rcases List.mem_append.mp hc4 with hc5 | hc5
            · exact (hnc c hc5).2.2.2
            · exact noWs_unsafe hwT c hc5
  have hdrop : (("https".data) ++ ':' :: '/' :: '/' :: (netloc ++ T)).dropWhile
      isC0OrSpace = ("https".data) ++ ':' :: '/' :: '/' :: (netloc ++ T) := by
    apply dropWhile_eq_self_of_head
    intro c hc
    simp only [List.cons_append, List.head?_cons, Option.mem_def, Option.some.injEq] at hc
    · subst hc
      decide
  have htake : (("https".data) ++ ':' :: '/' :: '/' :: (netloc ++ T)).takeWhile (· ≠ ':')
      = "https".data := by
    rw [takeWhile_append_all _ (by decide : ∀ c ∈ "https".data, (c ≠ ':' : Bool) = true)]
    rw [List.takeWhile_cons_of_neg (by simp)]
    simp
  have hdw : (("https".data) ++ ':' :: '/' :: '/' :: (netloc ++ T)).dropWhile (· ≠ ':')
      = ':' :: '/' :: '/' :: (netloc ++ T) := by
    rw [dropWhile_append_all _ (by decide : ∀ c ∈ "https".data, (c ≠ ':' : Bool) = true)]
    rw [List.dropWhile_cons_of_neg (by simp)]
  have hds : detectScheme (("https".data) ++ ':' :: '/' :: '/' :: (netloc ++ T))
      = ("https".data, '/' :: '/' :: (netloc ++ T)) := by
    unfold detectScheme
    rw [hdw, htake]
    show (if ('h'.isAlpha && ("https".data).all isSchemeChar) = true
      then (List.map Char.toLower ("https".data), '/' :: '/' :: (netloc ++ T))
      else ([], ("https".data) ++ ':' :: '/' :: '/' :: (netloc ++ T)))
      = ("https".data, '/' :: '/' :: (netloc ++ T))
    rw [if_pos (by decide)]
    rw [(by decide : List.map Char.toLower ("https".data) = "https".data)]
  have hnetpred : ∀ c ∈ netloc, (fun c => c ≠ '/' && c ≠ '?' && c ≠ '#') c = true := by
    intro c hc
    have hcp := hnc c hc
    simp [hcp.1, hcp.2.1, hcp.2.2.1]
  have htT : T.takeWhile (fun c => c ≠ '/' && c ≠ '?' && c ≠ '#') = [] := by
    cases T with
    | nil => rfl
    | cons a t' =>
      rcases hT with hT1 | hT1 | hT1 | hT1
      · simp at hT1
      all_goals {
        simp only [List.head?_cons, Option.some.injEq] at hT1
        subst hT1
        rw [List.takeWhile_cons_of_neg (by simp)]
      }
  have hnl : splitNetlocL ('/' :: '/' :: (netloc ++ T)) = (netloc,
      (netloc ++ T).dropWhile (fun c => c ≠ '/' && c ≠ '?' && c ≠ '#')) := by
    show (if ('/' : Char) = '/' ∧ ('/' : Char) = '/' then
        ((netloc ++ T).takeWhile (fun c => c ≠ '/' && c ≠ '?' && c ≠ '#'),
         (netloc ++ T).dropWhile (fun c => c ≠ '/' && c ≠ '?' && c ≠ '#'))
      else ([], '/' :: '/' :: (netloc ++ T))) = _
    rw [if_pos ⟨rfl, rfl⟩]
    rw [takeWhile_append_all _ hnetpred, htT]
    simp
  constructor
  · simp only [urlsplitL, hfilter, hdrop, hds]
    simp
  · simp only [urlsplitL, hfilter, hdrop, hds, hnl]

/-- `normalize_url` of `https://netloc<T>` (same hypotheses): some result that
is nonempty and begins with `https://`. -/
theorem normalize_https_T {netloc T : List Char} (hn : netloc ≠ [])
    (hnc : ∀ c ∈ netloc, c ≠ '/' ∧ c ≠ '?' ∧ c ≠ '#' ∧ isUnsafeUrlChar c = false)
    (hwN : NoWs netloc) (hwT : NoWs T)
    (hT : T = [] ∨ T.head? = some '/' ∨ T.head? = some '?' ∨ T.head? = some '#') :
    ∃ s, normalizeUrlL (("https".data) ++ ':' :: '/' :: '/' :: (netloc ++ T)) = some s ∧
      s ≠ [] ∧ ("https://".data).isPrefixOf s = true := by
  obtain ⟨n0, nt, rfl⟩ : ∃ n0 nt, netloc = n0 :: nt := by
    cases netloc with
    | nil => exact absurd rfl hn
    | cons n0 nt => exact ⟨n0, nt, rfl⟩
  have hn0 : n0 ≠ '/' := (hnc n0 (List.mem_cons_self n0 nt)).1
  have hwS : NoWs (("https".data) ++ ':' :: '/' :: '/' :: ((n0 :: nt) ++ T)) := by
    refine noWs_append (show ∀ c ∈ ("https".data), isPyWs c = false by decide)
      (noWs_cons (by decide) (noWs_cons (by decide)
      (noWs_cons (by decide) (noWs_append hwN hwT))))
  have hstrip : pyStripL (("https".data) ++ ':' :: '/' :: '/' :: ((n0 :: nt) ++ T))
      = ("https".data) ++ ':' :: '/' :: '/' :: ((n0 :: nt) ++ T) :=
    pyStripL_eq_self_of_noWs hwS
  have hdw2 : (('/' :: '/' :: ((n0 :: nt) ++ T)).dropWhile (· = '/'))
      = (n0 :: nt) ++ T := by
    rw [List.dropWhile_cons_of_pos (by simp), List.dropWhile_cons_of_pos (by simp)]
    rw [List.cons_append, List.dropWhile_cons_of_neg (by simpa using hn0)]
  have hfix : schemeFixL (("https".data) ++ ':' :: '/' :: '/' :: ((n0 :: nt) ++ T))
      = ("https".data) ++ ':' :: '/' :: '/' :: ((n0 :: nt) ++ T) := by
    unfold schemeFixL
    rw [if_pos (show httpsColon.isPrefixOf
        (("https".data) ++ ':' :: '/' :: '/' :: ((n0 :: nt) ++ T)) = true
      from isPrefixOf_iff_exists.mpr ⟨'/' :: '/' :: ((n0 :: nt) ++ T), rfl⟩)]
    show httpsColon ++ '/' :: '/' ::
        (('/' :: '/' :: ((n0 :: nt) ++ T)).dropWhile (· = '/'))
      = ("https".data) ++ ':' :: '/' :: '/' :: ((n0 :: nt) ++ T)
    rw [hdw2]
    rfl
  obtain ⟨hsch, hnlc⟩ := urlsplit_https_T hn hnc hwT hT
  obtain ⟨hpath, _, hnetclause⟩ :=
    urlsplitL_nil_shape (("https".data) ++ ':' :: '/' :: '/' :: ((n0 :: nt) ++ T))
  set q := urlsplitL [] (("https".data) ++ ':' :: '/' :: '/' :: ((n0 :: nt) ++ T))
    with hq
  have hqn : q.netloc ≠ [] := by
    rw [hnlc]
    exact hn
  have hphead : (normPath q.path).head? = some '/' := by
    by_cases he : q.path.isEmpty = true
    · rw [normPath_of_isEmpty he]
      rfl
    · rw [normPath_head he]
      cases hh : q.path.head? with
      | none =>
        rw [List.head?_eq_none_iff] at hh
        rw [hh] at he
        simp at he
      | some c =>
        have hcs := (hnetclause hqn).2 c (Option.mem_def.mpr hh)
        rw [hcs]
  simp only [normalizeUrlL, hstrip, hfix, ← hq, hsch, hnlc]
  rw [if_pos (show (!("https".data).isEmpty && !(n0 :: nt).isEmpty) = true from rfl)]
  rw [urlunsplit_canonical (show ("https".data) ≠ [] by decide) hn hphead]
  refine ⟨_, rfl, by simp, ?_⟩
  exact isPrefixOf_iff_exists.mpr ⟨(n0 :: nt) ++ normPath q.path, rfl⟩

theorem noWs_concrete_https : NoWs ("https".data) := by
  intro c hc
  fin_cases hc <;> decide

/-- `urlunsplit` with scheme `https` and a nonempty netloc produces
`https://netloc<T>` where `T` is empty or begins with `/`, `?` or `#`. -/
theorem urlunsplit_https_shape {netloc pth q f : List Char} (hn : netloc ≠ [])
    (hwP : NoWs pth) (hwQ : NoWs q) (hwF : NoWs f) :
    ∃ T, urlunsplitL ("https".data) netloc pth q f =
        ("https".data) ++ ':' :: '/' :: '/' :: (netloc ++ T) ∧
      NoWs T ∧
      (T = [] ∨ T.head? = some '/' ∨ T.head? = some '?' ∨ T.head? = some '#') := by
  have hqT : NoWs (if q ≠ [] then '?' :: q else []) := by
    split
    · exact noWs_cons (by decide) hwQ
    · intro c hc
      simp at hc
  have hfT : NoWs (if f ≠ [] then '#' :: f else []) := by
    split
    · exact noWs_cons (by decide) hwF
    · intro c hc
      simp at hc
  cases pth with
  | nil =>
    refine ⟨(if q ≠ [] then '?' :: q else []) ++ (if f ≠ [] then '#' :: f else []),
      ?_, noWs_append hqT hfT, ?_⟩
    · simp only [urlunsplitL]
      rw [if_pos (Or.inl hn)]
      rw [if_pos (show ("https".data) ≠ [] by decide)]
      split <;> split <;> simp [List.append_assoc, List.cons_append]
    · by_cases hq : q ≠ []
      · rw [if_pos hq]
        exact Or.inr (Or.inr (Or.inl rfl))
      · rw [if_neg hq]
        simp only [List.nil_append]
        by_cases hf : f ≠ []
        · rw [if_pos hf]
          exact Or.inr (Or.inr (Or.inr rfl))
        · rw [if_neg hf]
          exact Or.inl rfl
  | cons c r =>
    by_cases hc : c ≠ '/'
    · refine ⟨('/' :: c :: r) ++ (if q ≠ [] then '?' :: q else []) ++
        (if f ≠ [] then '#' :: f else []),
        ?_, noWs_append (noWs_append (noWs_cons (by decide) hwP) hqT) hfT,
        Or.inr (Or.inl rfl)⟩
      simp only [urlunsplitL]
      rw [if_pos hc]
      rw [if_pos (Or.inl hn)]
      rw [if_pos (show ("https".data) ≠ [] by decide)]
      split <;> split <;> simp [List.append_assoc, List.cons_append]
    · rw [not_not] at hc
      subst hc
      refine ⟨('/' :: r) ++ (if q ≠ [] then '?' :: q else []) ++
        (if f ≠ [] then '#' :: f else []),
        ?_, noWs_append (noWs_append hwP hqT) hfT,
        Or.inr (Or.inl rfl)⟩
      simp only [urlunsplitL]
      rw [if_neg (show ¬('/' : Char) ≠ '/' by simp)]
      rw [if_pos (Or.inl hn)]
      rw [if_pos (show ("https".data) ≠ [] by decide)]
      split <;> split <;> simp [List.append_assoc, List.cons_append]

/-- `urlunparse` with scheme `https` and a nonempty netloc: same shape. -/
theorem urlunparse_https_shape {netloc p ps q f : List Char} (hn : netloc ≠ [])
    (hwP : NoWs p) (hwPs : NoWs ps) (hwQ : NoWs q) (hwF : NoWs f) :
    ∃ T, urlunparseL ("https".data) netloc p ps q f =
        ("https".data) ++ ':' :: '/' :: '/' :: (netloc ++ T) ∧
      NoWs T ∧
      (T = [] ∨ T.head? = some '/' ∨ T.head? = some '?' ∨ T.head? = some '#') := by
  have hw2 : NoWs (if ps ≠ [] then p ++ ';' :: ps else p) := by
    split
    · exact noWs_append hwP (noWs_cons (by decide) hwPs)
    · exact hwP
  simp only [urlunparseL]
  exact urlunsplit_https_shape hn hw2 hwQ hwF

/-- `normalize_url` of `urlunparse https netloc ...` under the loader's
conditions: a nonempty result beginning with `https://`. -/
theorem normalize_unparse_https {netloc p ps q f : List Char} (hn : netloc ≠ [])
    (hnc : ∀ c ∈ netloc, c ≠ '/' ∧ c ≠ '?' ∧ c ≠ '#' ∧ isUnsafeUrlChar c = false)
    (hwN : NoWs netloc) (hwP : NoWs p) (hwPs : NoWs ps) (hwQ : NoWs q) (hwF : NoWs f) :
    ∃ s, normalizeUrlL (urlunparseL ("https".data) netloc p ps q f) = some s ∧
      s ≠ [] ∧ ("https://".data).isPrefixOf s = true := by
  obtain ⟨T, hT, hwT, hTshape⟩ := urlunparse_https_shape hn hwP hwPs hwQ hwF
  rw [hT]
  exact normalize_https_T hn hnc hwN hwT hTshape

theorem noWs_slash_or (l : List Char) (h : NoWs l) :
    NoWs (if l = [] then ['/'] else l) := by
  split
  · intro c hc
    rcases List.mem_singleton.mp hc with rfl
    decide
  · exact h

theorem resolved2_noWs {segs : List (List Char)} (hsegs : ∀ s ∈ segs, NoWs s) :
    ∀ pt ∈ (if segs.getLast? = some ['.'] ∨ segs.getLast? = some ['.', '.'] then
        segs.foldl (fun acc seg => if seg = ['.', '.'] then acc.dropLast
          else if seg = ['.'] then acc else acc ++ [seg]) [] ++ [[]]
      else segs.foldl (fun acc seg => if seg = ['.', '.'] then acc.dropLast
        else if seg = ['.'] then acc else acc ++ [seg]) []), NoWs pt := by
  intro pt hpt
  split at hpt
  · rcases List.mem_append.mp hpt with h1 | h1
    · exact resolve_mem NoWs segs [] hsegs
        (fun x hx => absurd hx (List.not_mem_nil x)) pt h1
    · rcases List.mem_singleton.mp h1 with rfl
      exact fun c hc => absurd hc (List.not_mem_nil c)
  · exact resolve_mem NoWs segs [] hsegs
      (fun x hx => absurd hx (List.not_mem_nil x)) pt hpt

theorem noWs_docs : NoWs ("docs.nginx.com".data) := by
  intro c hc
  fin_cases hc <;> decide

theorem docs_netloc_chars :
    ∀ c ∈ ("docs.nginx.com".data),
      c ≠ '/' ∧ c ≠ '?' ∧ c ≠ '#' ∧ isUnsafeUrlChar c = false := by
  decide

/-- `urljoin` of the fixed base URL with a `/`-initial whitespace-free URL is
an `urlunparse` with scheme `https`, a nonempty netloc free of `/ ? #` and
unsafe bytes, and whitespace-free remaining components. -/
theorem urljoin_slash_shape {t0 : List Char} (hw : NoWs ('/' :: t0)) :
    ∃ netloc p ps q f,
      urljoinL baseUrlL ('/' :: t0) = urlunparseL ("https".data) netloc p ps q f ∧
      netloc ≠ [] ∧
      (∀ c ∈ netloc, c ≠ '/' ∧ c ≠ '?' ∧ c ≠ '#' ∧ isUnsafeUrlChar c = false) ∧
      NoWs netloc ∧ NoWs p ∧ NoWs ps ∧ NoWs q ∧ NoWs f := by
  have hb : urlparseL [] baseUrlL =
      ⟨"https".data, "docs.nginx.com".data, [], [], [], []⟩ := rfl
  have hbne : ¬(baseUrlL = []) := by decide
  have hscheme_r : (urlparseL ("https".data) ('/' :: t0)).scheme = "https".data := by
    rw [urlparse_scheme_eq]
    exact urlsplit_scheme_slash rfl hw
  obtain ⟨hwN', hwP', hwPs', hwQ', hwF'⟩ :=
    @urlparse_noWs ("https".data) ('/' :: t0) hw
  simp only [urljoinL]
  rw [if_neg hbne]
  rw [if_neg (show ¬('/' :: t0 = []) by simp)]
  rw [hb]
  dsimp only
  rw [hscheme_r]
  rw [if_neg (show ¬("https".data ≠ "https".data ∨ "https".data ∉ usesRelative)
    by decide)]
  by_cases hnl : (urlparseL ("https".data) ('/' :: t0)).netloc = []
  · rw [if_neg (fun hcond => hcond.2 hnl)]
    rw [if_pos (show ("https".data) ∈ usesNetloc by decide)]
    by_cases hpe : (urlparseL ("https".data) ('/' :: t0)).path = [] ∧
        (urlparseL ("https".data) ('/' :: t0)).params = []
    · rw [if_pos hpe]
      refine ⟨_, _, _, _, _, rfl, by decide, docs_netloc_chars, noWs_docs,
        fun c hc => absurd hc (List.not_mem_nil c),
        fun c hc => absurd hc (List.not_mem_nil c), ?_, hwF'⟩
      split
      · intro c hc
        exact absurd hc (List.not_mem_nil c)
      · exact hwQ'
    · rw [if_neg hpe]
      refine ⟨_, _, _, _, _, rfl, by decide, docs_netloc_chars, noWs_docs,
        ?_, hwPs', hwQ', hwF'⟩
      have hsegs : ∀ pt ∈ (if (urlparseL ("https".data) ('/' :: t0)).path.head?
            = some '/'
          then splitChar '/' (urlparseL ("https".data) ('/' :: t0)).path
          else filterMiddle
            ((if (splitChar '/' ([] : List Char)).getLast? ≠ some [] then
                (splitChar '/' ([] : List Char)).dropLast
              else splitChar '/' ([] : List Char)) ++
              splitChar '/' (urlparseL ("https".data) ('/' :: t0)).path)),
          NoWs pt := by
        intro pt hpt
        split at hpt
        · exact fun c hc => hwP' c (splitChar_mem pt hpt c hc)
        · rcases filterMiddle_mem pt hpt with hpt2 | rfl
          · rcases List.mem_append.mp hpt2 with hpt3 | hpt3
            · have hpt4 : pt ∈ splitChar '/' ([] : List Char) := by
                revert hpt3
                split
                · exact fun hpt3 => (List.dropLast_sublist _).mem hpt3
                · exact fun hpt3 => hpt3
              exact fun c hc => absurd (splitChar_mem pt hpt4 c hc)
                (List.not_mem_nil c)
            · exact fun c hc => hwP' c (splitChar_mem pt hpt3 c hc)
          · exact fun c hc => absurd hc (List.not_mem_nil c)
      exact noWs_slash_or _ (joinChar_noWs (by decide) (resolved2_noWs hsegs))
  · rw [if_pos ⟨by decide, hnl⟩]
    refine ⟨_, _, _, _, _, rfl, hnl, ?_, hwN', hwP', hwPs', hwQ', hwF'⟩
    have hnl2 : (urlsplitL [] ('/' :: t0)).netloc ≠ [] := by
      rw [← urlsplit_netloc_ds ("https".data), ← urlparse_netloc_eq]
      exact hnl
    have hfacts := (urlsplitL_nil_shape ('/' :: t0)).2.2 hnl2
    intro c hc
    rw [urlparse_netloc_eq, urlsplit_netloc_ds] at hc
    exact hfacts.1 c hc

/-- `ensure_absolute_and_normalize` of a `/`-initial whitespace-free path:
some nonempty result beginning with `https://`. -/
theorem ensureAbs_slash {old : List Char} (hh : old.head? = some '/')
    (hw : NoWs old) :
    ∃ s, ensureAbsoluteL old = some s ∧ s ≠ [] ∧
      ("https://".data).isPrefixOf s = true := by
  obtain ⟨t0, rfl⟩ : ∃ t0, old = '/' :: t0 := by
    cases old with
    | nil => simp at hh
    | cons a t =>
      simp only [List.head?_cons, Option.some.injEq] at hh
      exact ⟨t, by rw [hh]⟩
  have hstrip : pyStripL ('/' :: t0) = '/' :: t0 := pyStripL_eq_self_of_noWs hw
  have hfix : schemeFixL ('/' :: t0) = '/' :: t0 := by
    unfold schemeFixL
    rw [if_neg (show ¬(httpsColon.isPrefixOf ('/' :: t0) = true) by
      intro hpre
      obtain ⟨t2, ht⟩ := isPrefixOf_iff_exists.mp hpre
      simp [httpsColon] at ht)]
    rw [if_neg (show ¬(httpColon.isPrefixOf ('/' :: t0) = true) by
      intro hpre
      obtain ⟨t2, ht⟩ := isPrefixOf_iff_exists.mp hpre
      simp [httpColon] at ht)]
  have hsch : (urlsplitL [] ('/' :: t0)).scheme = [] :=
    urlsplit_scheme_slash rfl hw
  simp only [ensureAbsoluteL, hstrip, hfix]
  rw [if_neg (show ¬(('/' :: t0).isEmpty = true) by simp)]
  rw [if_neg (show ¬((urlsplitL [] ('/' :: t0)).scheme ≠ [] ∧
      (urlsplitL [] ('/' :: t0)).netloc ≠ []) from fun hcond => hcond.1 hsch)]
  obtain ⟨netloc, pp, pps, qq, ff, hjoin, hnn, hnc, hwN, hwPp, hwPps, hwQq, hwFf⟩ :=
    urljoin_slash_shape hw
  rw [hjoin]
  exact normalize_unparse_https hnn hnc hwN hwPp hwPps hwQq hwFf

/-! ### Every emitted rule is nonempty and absolute -/

theorem truthy_getD {x : Option (List Char)} (h : truthyOpt x = true) :
    x.getD [] ≠ [] := by
  cases x with
  | none => exact absurd h (by decide)
  | some t =>
    simp only [truthyOpt, Bool.not_eq_true'] at h
    simp only [Option.getD_some]
    intro hq
    rw [hq] at h
    simp at h

/-- Every pair the parser loop emits has a nonempty old path beginning with
`https://` and a nonempty target. -/
theorem loadLoop_emission (fuel : Nat) : ∀ (lines : List String),
    ∀ p ∈ loadLoop fuel lines,
      p.1 ≠ [] ∧ ("https://".data).isPrefixOf p.1 = true ∧ p.2 ≠ [] := by
  induction fuel with
  | zero =>
    intro lines p hp
    simp only [loadLoop] at hp
    exact absurd hp (List.not_mem_nil p)
  | succ fuel ih =>
    intro lines p hp
    cases lines with
    | nil =>
      simp only [loadLoop] at hp
      exact absurd hp (List.not_mem_nil p)
    | cons line rest =>
      simp only [loadLoop] at hp
      split at hp
      · exact ih rest p hp
      · split at hp
        · next old0 hm =>
          obtain ⟨hhd, hnw⟩ := matchLocOld_shape hm
          have hstrip : pyStripL old0 = old0 := pyStripL_eq_self_of_noWs hnw
          obtain ⟨s, hs, hsne, hspre⟩ := ensureAbs_slash hhd hnw
          rw [hstrip] at hp
          split at hp
          · split at hp
            · next hguard =>
              rcases List.mem_cons.mp hp with rfl | hp2
              · simp only [hs, Option.getD_some]
                refine ⟨hsne, hspre, ?_⟩
                refine truthy_getD ?_
                simp only [Bool.and_eq_true] at hguard
                exact hguard.2
              · exact ih rest p hp2
            · exact ih rest p hp
          · split at hp
            · next tgt hsr =>
              split at hp
              · next hguard =>
                rcases List.mem_cons.mp hp with rfl | hp2
                · simp only [hs, Option.getD_some]
                  refine ⟨hsne, hspre, ?_⟩
                  refine truthy_getD ?_
                  simp only [Bool.and_eq_true] at hguard
                  exact hguard.2
                · exact ih _ p hp2
              · exact ih _ p hp
            · exact ih _ p hp
        · split at hp
          · next pq hm2 =>
            obtain ⟨hhd, hnw⟩ := matchTwoPaths_shape hm2
            obtain ⟨s, hs, hsne, hspre⟩ := ensureAbs_slash hhd hnw
            split at hp
            · next hguard =>
              rcases List.mem_cons.mp hp with rfl | hp2
              · simp only [hs, Option.getD_some]
                refine ⟨hsne, hspre, ?_⟩
                refine truthy_getD ?_
                simp only [Bool.and_eq_true] at hguard
                exact hguard.2
              · exact ih rest p hp2
            · exact ih rest p hp
          · exact ih rest p hp

/-! ### Deduplication and ordering of the final table -/

theorem dedupAux_subset : ∀ (l : List (List Char × List Char))
    (seen : List (List Char)), ∀ p ∈ dedupAux seen l, p ∈ l := by
  intro l
  induction l with
  | nil =>
    intro seen p hp
    exact absurd hp (List.not_mem_nil p)
  | cons q rest ihl =>
    intro seen p hp
    obtain ⟨o, n⟩ := q
    simp only [dedupAux] at hp
    split at hp
    · exact List.mem_cons_of_mem _ (ihl seen p hp)
    · rcases List.mem_cons.mp hp with rfl | hp2
      · exact List.mem_cons_self _ _
      · exact List.mem_cons_of_mem _ (ihl (o :: seen) p hp2)

/-- Elements of the deduplicated list are not in `seen`, and each one is the
first entry of the raw list with its old path (`seen[old] = new` of the first
occurrence). -/
theorem dedupAux_mem_facts : ∀ (l : List (List Char × List Char))
    (seen : List (List Char)), (∀ p ∈ l, p.1 ≠ [] ∧ p.2 ≠ []) →
    ∀ p ∈ dedupAux seen l,
      ¬p.1 ∈ seen ∧ l.find? (fun q => q.1 == p.1) = some p := by
  intro l
  induction l with
  | nil =>
    intro seen _ p hp
    exact absurd hp (List.not_mem_nil p)
  | cons q rest ihl =>
    intro seen hne p hp
    obtain ⟨o, n⟩ := q
    have hone : o ≠ [] ∧ n ≠ [] := hne (o, n) (List.mem_cons_self _ _)
    have hnetail : ∀ r ∈ rest, r.1 ≠ [] ∧ r.2 ≠ [] :=
      fun r hr => hne r (List.mem_cons_of_mem _ hr)
    simp only [dedupAux] at hp
    split at hp
    · next hguard =>
      have hos : o ∈ seen := by
        simp only [Bool.or_eq_true, List.isEmpty_iff, decide_eq_true_eq] at hguard
        rcases hguard with (h1 | h1) | h1
        · exact absurd h1 hone.1
        · exact absurd h1 hone.2
        · exact h1
      obtain ⟨hns, hfind⟩ := ihl seen hnetail p hp
      refine ⟨hns, ?_⟩
      rw [List.find?_cons_of_neg, hfind]
      simp only [beq_iff_eq]
      intro he
      exact hns (he ▸ hos)
    · next hguard =>
      have hguard2 : ¬o ∈ seen := by
        intro hmem
        exact hguard (by simp [hmem])
      rcases List.mem_cons.mp hp with rfl | hp2
      · refine ⟨hguard2, ?_⟩
        rw [List.find?_cons_of_pos]
        simp
      · obtain ⟨hns, hfind⟩ := ihl (o :: seen) hnetail p hp2
        have hpo : p.1 ≠ o := fun he => hns (he ▸ List.mem_cons_self o seen)
        refine ⟨fun hmem => hns (List.mem_cons_of_mem _ hmem), ?_⟩
        rw [List.find?_cons_of_neg, hfind]
        simp only [beq_iff_eq]
        exact fun he => hpo he.symm

theorem dedupAux_pairwise_keys : ∀ (l : List (List Char × List Char))
    (seen : List (List Char)), (∀ p ∈ l, p.1 ≠ [] ∧ p.2 ≠ []) →
    (dedupAux seen l).Pairwise (fun p q => p.1 ≠ q.1) := by
  intro l
  induction l with
  | nil =>
    intro seen _
    exact List.Pairwise.nil
  | cons q rest ihl =>
    intro seen hne
    obtain ⟨o, n⟩ := q
    have hnetail : ∀ r ∈ rest, r.1 ≠ [] ∧ r.2 ≠ [] :=
      fun r hr => hne r (List.mem_cons_of_mem _ hr)
    simp only [dedupAux]
    split
    · exact ihl seen hnetail
    · rw [List.pairwise_cons]
      refine ⟨?_, ihl (o :: seen) hnetail⟩
      intro p hp
      have hns := (dedupAux_mem_facts rest (o :: seen) hnetail p hp).1
      exact fun he => hns (List.mem_cons.mpr (Or.inl he.symm))

theorem insertByLenDesc_perm (p : List Char × List Char) :
    ∀ l, (insertByLenDesc p l).Perm (p :: l)
  | [] => List.Perm.refl _
  | q :: rest => by
    rw [insertByLenDesc]
    split
    · exact ((insertByLenDesc_perm p rest).cons q).trans (List.Perm.swap p q rest)
    · exact List.Perm.refl _

theorem foldl_insert_perm : ∀ (l acc : List (List Char × List Char)),
    (l.foldl (fun acc p => insertByLenDesc p acc) acc).Perm (l ++ acc)
  | [], acc => by simp
  | p :: rest, acc => by
    show (rest.foldl (fun acc p => insertByLenDesc p acc)
      (insertByLenDesc p acc)).Perm ((p :: rest) ++ acc)
    refine (foldl_insert_perm rest (insertByLenDesc p acc)).trans ?_
    exact (List.Perm.append_left rest (insertByLenDesc_perm p acc)).trans
      List.perm_middle

theorem sortByLenDesc_perm (l : List (List Char × List Char)) :
    (sortByLenDesc l).Perm l := by
  have h := foldl_insert_perm l []
  rw [List.append_nil] at h
  exact h

theorem insertByLenDesc_pairwise {l : List (List Char × List Char)}
    (hl : l.Pairwise (fun p q => q.1.length ≤ p.1.length))
    (p : List Char × List Char) :
    (insertByLenDesc p l).Pairwise (fun p q => q.1.length ≤ p.1.length) := by
  induction l with
  | nil => exact List.pairwise_singleton _ p
  | cons q rest ihl =>
    rw [List.pairwise_cons] at hl
    rw [insertByLenDesc]
    split
    · next hle =>
      rw [List.pairwise_cons]
      constructor
      · intro x hx
        rcases List.mem_cons.mp ((insertByLenDesc_perm p rest).mem_iff.mp hx)
          with rfl | hx2
        · exact hle
        · exact hl.1 x hx2
      · exact ihl hl.2
    · next hgt =>
      rw [List.pairwise_cons]
      constructor
      · intro x hx
        rcases List.mem_cons.mp hx with rfl | hx2
        · omega
        · have := hl.1 x hx2
          omega
      · rw [List.pairwise_cons]
        exact ⟨hl.1, hl.2⟩

theorem sortByLenDesc_pairwise (l : List (List Char × List Char)) :
    (sortByLenDesc l).Pairwise (fun p q => q.1.length ≤ p.1.length) := by
  have haux : ∀ (m acc : List (List Char × List Char)),
      acc.Pairwise (fun p q => q.1.length ≤ p.1.length) →
      (m.foldl (fun acc p => insertByLenDesc p acc) acc).Pairwise
        (fun p q => q.1.length ≤ p.1.length) := by
    intro m
    induction m with
    | nil => exact fun acc h => h
    | cons p rest ihm =>
      intro acc hacc
      exact ihm (insertByLenDesc p acc) (insertByLenDesc_pairwise hacc p)
  exact haux l [] List.Pairwise.nil

/-- C4: for every redirect-rule file, every rule in the table returned by the
parser has a nonempty absolute old path (an absolute URL, produced by joining
against the fixed base host and beginning with `https://`), and the table is
sorted by descending old-path length. -/
theorem c4_rules_nonempty_absolute_sorted (lines : List String) :
    (∀ p ∈ load_redirects_lines lines,
        p.1 ≠ [] ∧ ("https://".data).isPrefixOf p.1 = true) ∧
    (load_redirects_lines lines).Pairwise (fun p q => q.1.length ≤ p.1.length) := by
  constructor
  · intro p hp
    simp only [load_redirects_lines] at hp
    have hp2 : p ∈ dedupAux [] (loadLoop (lines.length + 1) lines) :=
      (sortByLenDesc_perm _).mem_iff.mp hp
    have hp3 := dedupAux_subset _ [] p hp2
    have hem := loadLoop_emission (lines.length + 1) lines p hp3
    exact ⟨hem.1, hem.2.1⟩
  · simp only [load_redirects_lines]
    exact sortByLenDesc_pairwise _

theorem c4_rules_nonempty_absolute_sorted_witness :
    (("https://docs.nginx.com/a/".data, "https://docs.nginx.com/b/".data)) ∈
        load_redirects_lines [("/a /b")] ∧
      (("https://docs.nginx.com/a/".data) ≠ [] ∧
        ("https://".data).isPrefixOf ("https://docs.nginx.com/a/".data) = true) :=
  ⟨by decide, (c4_rules_nonempty_absolute_sorted [("/a /b")]).1
    (("https://docs.nginx.com/a/".data, "https://docs.nginx.com/b/".data))
    (by decide)⟩

/-- C5: the parser deduplicates rules by old path (the final table's old
paths are pairwise distinct), and each rule kept is the first entry of the
raw parse with its old path, so the first occurrence's new path wins. -/
theorem c5_first_occurrence_wins (lines : List String) :
    (load_redirects_lines lines).Pairwise (fun p q => p.1 ≠ q.1) ∧
    ∀ p ∈ load_redirects_lines lines,
      (loadLoop (lines.length + 1) lines).find? (fun q => q.1 == p.1) = some p := by
  have hne : ∀ p ∈ loadLoop (lines.length + 1) lines, p.1 ≠ [] ∧ p.2 ≠ [] := by
    intro p hp
    have hem := loadLoop_emission (lines.length + 1) lines p hp
    exact ⟨hem.1, hem.2.2⟩
  constructor
  · simp only [load_redirects_lines]
    refine ((sortByLenDesc_perm _).pairwise_iff ?_).mpr
      (dedupAux_pairwise_keys _ [] hne)
    exact fun h he => h he.symm
  · intro p hp
    simp only [load_redirects_lines] at hp
    exact (dedupAux_mem_facts _ [] hne p ((sortByLenDesc_perm _).mem_iff.mp hp)).2

theorem c5_first_occurrence_wins_witness :
    (("https://docs.nginx.com/a/".data, "https://docs.nginx.com/b/".data)) ∈
        load_redirects_lines [("/a /b"), ("/a /c")] ∧
      (loadLoop ((2 : Nat) + 1) [("/a /b"), ("/a /c")]).find?
        (fun q => q.1 == ("https://docs.nginx.com/a/".data)) =
        some (("https://docs.nginx.com/a/".data, "https://docs.nginx.com/b/".data)) :=
  ⟨by decide, (c5_first_occurrence_wins [("/a /b"), ("/a /c")]).2
    (("https://docs.nginx.com/a/".data, "https://docs.nginx.com/b/".data))
    (by decide)⟩

/-! ### Front-matter pruning (`remove_metadata_keys.py`)

Front matter is modelled as a flat dictionary of string keys and string or
string-list values (the YAML subset these files use; YAML itself is delegated
to a library by the script and is out of the specification's scope).  The
dump writes `k: v`, `k:` followed by `- item` lines, `k: []`, or `{}` for the
empty dictionary, mirroring `yaml.safe_dump(..., sort_keys=False).strip()`
on that subset (the dump of this subset has no boundary whitespace, so the
`.strip()` is absorbed).  `content.split("---")` and `"---".join` are
modelled by `splitDashes` and `joinDashes`. -/

/-- A front-matter value: a scalar string or a list of strings. -/
inductive YVal where
  | s (v : List Char)
  | l (items : List (List Char))
deriving DecidableEq

/-- A front-matter dictionary in insertion order. -/
abbrev FMDict := List (List Char × YVal)

/-- Python `d[k] = v`: update in place, else append. -/
def setKey : FMDict → List Char → YVal → FMDict
  | [], k, v => [(k, v)]
  | (k', v') :: rest, k, v =>
    if k' = k then (k', v) :: rest else (k', v') :: setKey rest k v

/-- Python `d.get(k)` / `k in d`. -/
def getKey : FMDict → List Char → Option YVal
  | [], _ => none
  | (k', v') :: rest, k => if k' = k then some v' else getKey rest k

/-- Python `del d[k]` / `d.pop(k, None)`'s removal. -/
def delKey : FMDict → List Char → FMDict
  | [], _ => []
  | (k', v') :: rest, k =>
    if k' = k then delKey rest k else (k', v') :: delKey rest k

/-- `content.split("---")`: leftmost non-overlapping occurrences. -/
def splitAux : List Char → List Char → List (List Char)
  | acc, [] => [acc.reverse]
  | acc, [c] => [(c :: acc).reverse]
  | acc, [c, d] => [(d :: c :: acc).reverse]
  | acc, c :: d :: e :: rest2 =>
    if c = '-' ∧ d = '-' ∧ e = '-' then acc.reverse :: splitAux [] rest2
    else splitAux (c :: acc) (d :: e :: rest2)

def splitDashes (l : List Char) : List (List Char) := splitAux [] l

/-- `"---".join(parts)`. -/
def joinDashes : List (List Char) → List Char
  | [] => []
  | [x] => x
  | x :: y :: rest => x ++ '-' :: '-' :: '-' :: joinDashes (y :: rest)

/-- Leading `- ` item lines for an open list key. -/
def takeItems : List (List Char) → List (List Char) × List (List Char)
  | [] => ([], [])
  | line :: rest =>
    if line.take 2 = ['-', ' '] then
      let r := takeItems rest
      (line.drop 2 :: r.1, r.2)
    else ([], line :: rest)

/-- Line-oriented parse of the flat YAML subset (fuel-structural; the fuel
`lines.length + 1` always suffices).  Empty lines and a `{}` line are
skipped; a `- ` line outside a list, a missing colon, an empty key or an
indented key is a parse failure (the script then skips the file). -/
def parseLinesAux : Nat → FMDict → List (List Char) → Option FMDict
  | 0, _, _ => none
  | _ + 1, d, [] => some d
  | fuel + 1, d, line :: rest =>
    if line.isEmpty then parseLinesAux fuel d rest
    else if line = ('{' :: '}' :: []) then parseLinesAux fuel d rest
    else if line.take 2 = ['-', ' '] then none
    else
      let key := line.takeWhile (· ≠ ':')
      match line.dropWhile (· ≠ ':') with
      | ':' :: after =>
        if key.isEmpty ∨ key.head? = some ' ' then none
        else
          let v := if after.head? = some ' ' then after.drop 1 else after
          if v.isEmpty then
            let its := takeItems rest
            parseLinesAux fuel (setKey d key (.l its.1)) its.2
          else if v = ('[' :: ']' :: []) then
            parseLinesAux fuel (setKey d key (.l [])) rest
          else parseLinesAux fuel (setKey d key (.s v)) rest
      | _ => none

/-- `yaml.safe_load` on the modelled subset (`None`/non-dict results and
parse errors are all `none`: the script skips the file in each case). -/
def parseFM (text : List Char) : Option FMDict :=
  let lines := splitChar '\n' text
  parseLinesAux (lines.length + 1) [] lines

/-- The dump lines of one entry. -/
def dumpLine : List Char × YVal → List (List Char)
  | (k, .s v) => [k ++ ':' :: ' ' :: v]
  | (k, .l []) => [k ++ (": []").data]
  | (k, .l items) => (k ++ [':']) :: items.map (fun it => '-' :: ' ' :: it)

/-- `yaml.safe_dump(d, sort_keys=False).strip()` on the subset. -/
def dumpFM : FMDict → List Char
  | [] => ('{' :: '}' :: [])
  | d => joinChar '\n' (d.flatMap dumpLine)

/-- `UNNEEDED_KEYS`. -/
def UNNEEDED_KEYS : List (List Char) :=
  [("_build").data, ("aliases").data, ("display_breadcrumb").data,
   ("linkTitle").data, ("menu").data, ("catalog").data, ("catalogType").data,
   ("journeys").data, ("tags").data, ("authors").data, ("date").data,
   ("versions").data]

/-- `VALID_TYPE_VALUES`. -/
def VALID_TYPE_VALUES : List (List Char) :=
  [("tutorial").data, ("how-to").data, ("concept").data, ("reference").data,
   ("getting-started").data, ("redoc").data]

/-- `to_list`. -/
def to_list : YVal → List (List Char)
  | .l items => items
  | .s v => [v]

/-- Iterating a value with a `for` loop: a list yields its items, a string
yields its one-character substrings. -/
def iterStrings : YVal → List (List Char)
  | .l items => items
  | .s v => v.map (fun c => [c])

/-- The `task`/`tasks` → `how-to`, `concepts` → `concept` remapping. -/
def convertItem (it : List Char) : List Char :=
  if it = ("task").data ∨ it = ("tasks").data then ("how-to").data
  else if it = ("concepts").data then ("concept").data
  else it

/-- `merge_categories_and_doctypes` (both keys are popped first; if neither
was present the dictionary is returned unchanged). -/
def merge_categories_and_doctypes (d : FMDict) : FMDict :=
  let cat := getKey d (("categories").data)
  let doc := getKey d (("doctypes").data)
  let d1 := delKey (delKey d (("categories").data)) (("doctypes").data)
  match cat, doc with
  | none, none => d1
  | _, _ =>
    let combined := (cat.elim [] to_list) ++ (doc.elim [] to_list)
    setKey d1 (("type").data) (.l (combined.map convertItem))

/-- `filter_type_values` (not tracked by the `changed` flag). -/
def filter_type_values (d : FMDict) : FMDict :=
  match getKey d (("type").data) with
  | none => d
  | some v =>
    setKey d (("type").data)
      (.l ((iterStrings v).filter (fun x => x ∈ VALID_TYPE_VALUES)))

/-- `remove_unneeded_keys`: the removed keys (in deny-list order) and the
pruned dictionary. -/
def remove_unneeded_keys (d : FMDict) : List (List Char) × FMDict :=
  (UNNEEDED_KEYS.filter (fun k => (getKey d k).isSome),
   UNNEEDED_KEYS.foldl (fun d k => delKey d k) d)

/-- `process_file` on the file's content; `some c₂` means the file was
rewritten with content `c₂`, `none` means no write happened. -/
def process_file (content : List Char) : Option (List Char) :=
  match splitDashes content with
  | p0 :: p1 :: p2 :: ps =>
    match parseFM p1 with
    | none => none
    | some d =>
      let had_categories := (getKey d (("categories").data)).isSome
      let had_doctypes := (getKey d (("doctypes").data)).isSome
      let d1 := merge_categories_and_doctypes d
      let d2 := filter_type_values d1
      let rk := remove_unneeded_keys d2
      if rk.1 ≠ [] ∨ had_categories = true ∨ had_doctypes = true then
        some (p0 ++ ('-' :: '-' :: '-' :: '\n' :: []) ++ dumpFM rk.2 ++
          ('\n' :: '-' :: '-' :: '-' :: '\n' :: []) ++ joinDashes (p2 :: ps))
      else none
  | _ => none

/-! ### Occurrences of `---` and the splitter -/

/-- Whether `---` occurs as a substring. -/
def hasTriple : List Char → Bool
  | [] => false
  | c :: rest =>
    match rest with
    | d :: e :: _ => (c = '-' && d = '-' && e = '-') || hasTriple rest
    | _ => false

theorem hasTriple_nil : hasTriple [] = false := rfl

theorem hasTriple_one (c : Char) : hasTriple [c] = false := rfl

theorem hasTriple_two (c d : Char) : hasTriple [c, d] = false := rfl

theorem hasTriple_cons3 (c d e : Char) (rest : List Char) :
    hasTriple (c :: d :: e :: rest)
      = ((c = '-' && d = '-' && e = '-') || hasTriple (d :: e :: rest)) := rfl

theorem hasTriple_iff : ∀ {l : List Char},
    hasTriple l = true ↔ ∃ a b, l = a ++ '-' :: '-' :: '-' :: b := by
  intro l
  match l with
  | [] =>
    rw [hasTriple_nil]
    constructor
    · intro h
      exact absurd h (by simp)
    · rintro ⟨a, b, h⟩
      exact absurd h.symm (List.append_ne_nil_of_right_ne_nil a (by simp))
  | [c] =>
    rw [hasTriple_one]
    constructor
    · intro h
      exact absurd h (by simp)
    · rintro ⟨a, b, h⟩
      cases a with
      | nil => simp at h
      | cons x xs =>
        simp only [List.cons_append, List.cons.injEq] at h
        exact absurd h.2.symm (List.append_ne_nil_of_right_ne_nil xs (by simp))
  | [c, d] =>
    rw [hasTriple_two]
    constructor
    · intro h
      exact absurd h (by simp)
    · rintro ⟨a, b, h⟩
      cases a with
      | nil => simp at h
      | cons x xs =>
        cases xs with
        | nil => simp at h
        | cons y ys =>
          simp only [List.cons_append, List.cons.injEq] at h
          exact absurd h.2.2.symm (List.append_ne_nil_of_right_ne_nil ys (by simp))
  | c :: d :: e :: rest =>
    rw [hasTriple_cons3]
    constructor
    · intro h
      rcases (by simpa using h :
          ((c = '-' ∧ d = '-') ∧ e = '-') ∨ hasTriple (d :: e :: rest) = true)
        with ⟨⟨rfl, rfl⟩, rfl⟩ | h2
      · exact ⟨[], rest, rfl⟩
      · obtain ⟨a, b, hab⟩ := hasTriple_iff.mp h2
        exact ⟨c :: a, b, by rw [List.cons_append, hab]⟩
    · rintro ⟨a, b, h⟩
      cases a with
      | nil =>
        simp only [List.nil_append, List.cons.injEq] at h
        obtain ⟨rfl, rfl, rfl, _⟩ := h
        simp
      | cons x xs =>
        simp only [List.cons_append, List.cons.injEq] at h
        obtain ⟨rfl, h2⟩ := h
        rw [hasTriple_iff.mpr ⟨xs, b, h2⟩]
        simp

theorem hasTriple_reverse {l : List Char} :
    hasTriple l.reverse = hasTriple l := by
  by_cases h : hasTriple l = true
  · obtain ⟨a, b, rfl⟩ := hasTriple_iff.mp h
    rw [h]
    refine hasTriple_iff.mpr ⟨b.reverse, a.reverse, ?_⟩
    simp
  · rw [Bool.not_eq_true] at h
    rw [h, ← Bool.not_eq_true]
    intro hr
    obtain ⟨a, b, hab⟩ := hasTriple_iff.mp hr
    have hl : l = b.reverse ++ '-' :: '-' :: '-' :: a.reverse := by
      have h2 := congrArg List.reverse hab
      simpa using h2
    rw [hasTriple_iff.mpr ⟨b.reverse, a.reverse, hl⟩] at h
    simp at h

theorem hasTriple_tail {c : Char} {rest : List Char}
    (h : hasTriple (c :: rest) = false) : hasTriple rest = false := by
  match rest with
  | [] => rfl
  | [d] => rfl
  | [d, e] => rfl
  | d :: e :: f :: r2 =>
    rw [hasTriple_cons3] at h
    rw [Bool.or_eq_false_iff] at h
    exact h.2

/-- The leftmost `---`: a decomposition whose left part has no `---` and
does not end in `-`. -/
theorem hasTriple_leftmost : ∀ {l : List Char}, hasTriple l = true →
    ∃ a b, l = a ++ '-' :: '-' :: '-' :: b ∧ hasTriple a = false ∧
      a.getLast? ≠ some '-' := by
  intro l
  match l with
  | [] => intro h; exact absurd h (by simp [hasTriple_nil])
  | [c] => intro h; exact absurd h (by simp [hasTriple_one])
  | [c, d] => intro h; exact absurd h (by simp [hasTriple_two])
  | c :: d :: e :: rest =>
    intro h
    by_cases hh : c = '-' ∧ d = '-' ∧ e = '-'
    · obtain ⟨rfl, rfl, rfl⟩ := hh
      exact ⟨[], rest, rfl, rfl, by simp⟩
    · have hrest : hasTriple (d :: e :: rest) = true := by
        rw [hasTriple_cons3] at h
        rcases (by simpa using h :
            ((c = '-' ∧ d = '-') ∧ e = '-') ∨ hasTriple (d :: e :: rest) = true)
          with hc | h2
        · exact absurd ⟨hc.1.1, hc.1.2, hc.2⟩ hh
        · exact h2
      obtain ⟨a, b, hab, hna, hlast⟩ := hasTriple_leftmost hrest
      refine ⟨c :: a, b, by rw [List.cons_append, hab], ?_, ?_⟩
      · cases a with
        | nil => exact hasTriple_one c
        | cons y ys =>
          cases ys with
          | nil => exact hasTriple_two c y
          | cons z ys2 =>
            rw [hasTriple_cons3, Bool.or_eq_false_iff]
            refine ⟨?_, hna⟩
            simp only [List.cons_append, List.cons.injEq] at hab
            obtain ⟨rfl, rfl, _⟩ := hab
            simp only [Bool.and_eq_false_iff, decide_eq_false_iff_not]
            by_contra hcon
            push_neg at hcon
            exact hh ⟨hcon.1.1, hcon.1.2, hcon.2⟩
      · cases a with
        | nil =>
          show ([c].getLast? ≠ some '-')
          simp only [List.getLast?_singleton]
          intro hc
          injection hc with hc
          subst hc
          simp only [List.nil_append, List.cons.injEq] at hab
          exact hh ⟨rfl, hab.1, hab.2.1⟩
        | cons y ys =>
          rw [List.getLast?_cons_cons]
          exact hlast

theorem splitAux_ne_nil : ∀ (l acc : List Char), splitAux acc l ≠ []
  | [], acc => by simp [splitAux]
  | [c], acc => by simp [splitAux]
  | [c, d], acc => by simp [splitAux]
  | c :: d :: e :: rest2, acc => by
    simp only [splitAux]
    split
    · simp
    · exact splitAux_ne_nil (d :: e :: rest2) (c :: acc)

/-- Splitting a string of the form `p0 ++ "---" ++ X` where `p0` has no
`---` and does not end in `-`: the first part is `p0` (prefixed by the
pending accumulator) and the rest is the split of `X`. -/
theorem splitAux_resplit : ∀ (p0 acc X : List Char),
    hasTriple p0 = false → p0.getLast? ≠ some '-' →
    splitAux acc (p0 ++ '-' :: '-' :: '-' :: X)
      = (acc.reverse ++ p0) :: splitAux [] X
  | [], acc, X, _, _ => by
    show (if ('-' : Char) = '-' ∧ ('-' : Char) = '-' ∧ ('-' : Char) = '-'
        then acc.reverse :: splitAux [] X
        else splitAux ('-' :: acc) ('-' :: '-' :: X))
      = (acc.reverse ++ []) :: splitAux [] X
    rw [if_pos ⟨rfl, rfl, rfl⟩, List.append_nil]
  | [c], acc, X, _, hlast => by
    have hc : ¬(c = '-') := by
      intro hc
      subst hc
      exact hlast (by simp)
    show (if c = '-' ∧ ('-' : Char) = '-' ∧ ('-' : Char) = '-'
        then acc.reverse :: splitAux [] ('-' :: X)
        else splitAux (c :: acc) ('-' :: '-' :: '-' :: X))
      = (acc.reverse ++ [c]) :: splitAux [] X
    rw [if_neg (fun hcon => hc hcon.1)]
    show (if ('-' : Char) = '-' ∧ ('-' : Char) = '-' ∧ ('-' : Char) = '-'
        then (c :: acc).reverse :: splitAux [] X
        else splitAux ('-' :: c :: acc) ('-' :: '-' :: X))
      = (acc.reverse ++ [c]) :: splitAux [] X
    rw [if_pos ⟨rfl, rfl, rfl⟩]
    simp
  | c :: y :: p0'', acc, X, htrip, hlast => by
    cases p0'' with
    | nil =>
      have hy : ¬(y = '-') := by
        intro hy
        subst hy
        exact hlast (by simp)
      show (if c = '-' ∧ y = '-' ∧ ('-' : Char) = '-'
          then acc.reverse :: splitAux [] ('-' :: '-' :: X)
          else splitAux (c :: acc) (y :: '-' :: '-' :: '-' :: X))
        = (acc.reverse ++ [c, y]) :: splitAux [] X
      rw [if_neg (fun hcon => hy hcon.2.1)]
      rw [show (y :: '-' :: '-' :: '-' :: X) = [y] ++ '-' :: '-' :: '-' :: X from rfl]
      rw [splitAux_resplit [y] (c :: acc) X (hasTriple_one y) (by simpa using hy)]
      simp
    | cons z p03 =>
      have hcond : ¬(c = '-' ∧ y = '-' ∧ z = '-') := by
        rintro ⟨rfl, rfl, rfl⟩
        rw [hasTriple_cons3] at htrip
        simp at htrip
      show (if c = '-' ∧ y = '-' ∧ z = '-'
          then acc.reverse :: splitAux [] (p03 ++ '-' :: '-' :: '-' :: X)
          else splitAux (c :: acc) (y :: z :: (p03 ++ '-' :: '-' :: '-' :: X)))
        = (acc.reverse ++ (c :: y :: z :: p03)) :: splitAux [] X
      rw [if_neg hcond]
      rw [show (y :: z :: (p03 ++ '-' :: '-' :: '-' :: X))
        = (y :: z :: p03) ++ '-' :: '-' :: '-' :: X from rfl]
      rw [splitAux_resplit (y :: z :: p03) (c :: acc) X (hasTriple_tail htrip)
        (by rw [← List.getLast?_cons_cons (a := c)]; exact hlast)]
      simp

/-- When the split produces at least two parts, the first part contains no
`---` and does not end in `-`. -/
theorem splitAux_head_clean : ∀ (l acc : List Char),
    hasTriple acc = false →
    ¬(acc.take 2 = ['-', '-'] ∧ l.take 1 = ['-']) →
    ¬(acc.take 1 = ['-'] ∧ l.take 2 = ['-', '-']) →
    ∀ p ps, splitAux acc l = p :: ps → ps ≠ [] →
      hasTriple p = false ∧ p.getLast? ≠ some '-'
  | [], acc, _, _, _ => by
    intro p ps hsplit hps
    simp only [splitAux, List.cons.injEq] at hsplit
    exact absurd hsplit.2.symm hps
  | [c], acc, _, _, _ => by
    intro p ps hsplit hps
    simp only [splitAux, List.cons.injEq] at hsplit
    exact absurd hsplit.2.symm hps
  | [c, d], acc, _, _, _ => by
    intro p ps hsplit hps
    simp only [splitAux, List.cons.injEq] at hsplit
    exact absurd hsplit.2.symm hps
  | c :: d :: e :: rest2, acc, h1, h2, h3 => by
    intro p ps hsplit hps
    rw [show splitAux acc (c :: d :: e :: rest2)
      = (if c = '-' ∧ d = '-' ∧ e = '-'
         then acc.reverse :: splitAux [] rest2
         else splitAux (c :: acc) (d :: e :: rest2)) from rfl] at hsplit
    split at hsplit
    · next hcond =>
      obtain ⟨rfl, rfl, rfl⟩ := hcond
      injection hsplit with hp hps2
      subst hp
      constructor
      · rw [hasTriple_reverse]
        exact h1
      · rw [List.getLast?_reverse]
        intro hhd
        cases acc with
        | nil => simp at hhd
        | cons a0 at0 =>
          simp only [List.head?_cons, Option.some.injEq] at hhd
          subst hhd
          exact h3 ⟨rfl, rfl⟩
    · next hcond =>
      refine splitAux_head_clean (d :: e :: rest2) (c :: acc) ?_ ?_ ?_ p ps hsplit hps
      · cases acc with
        | nil => exact hasTriple_one c
        | cons a0 at0 =>
          cases at0 with
          | nil => exact hasTriple_two c a0
          | cons a1 at1 =>
            rw [hasTriple_cons3, Bool.or_eq_false_iff]
            refine ⟨?_, h1⟩
            simp only [Bool.and_eq_false_iff, decide_eq_false_iff_not]
            by_contra hcon
            push_neg at hcon
            obtain ⟨⟨rfl, rfl⟩, rfl⟩ := hcon
            exact h2 ⟨rfl, rfl⟩
      · intro hcon
        obtain ⟨ht2, ht1⟩ := hcon
        have hd : d = '-' := by simpa using ht1
        have hc2 : c = '-' ∧ acc.take 1 = ['-'] := by
          rw [List.take_succ_cons] at ht2
          simpa using ht2
        refine h3 ⟨hc2.2, ?_⟩
        rw [List.take_succ_cons, List.take_succ_cons, List.take_zero, hc2.1, hd]
      · intro hcon
        obtain ⟨ht1, ht2⟩ := hcon
        have hc2 : c = '-' := by simpa using ht1
        have hde : d = '-' ∧ e = '-' := by simpa using ht2
        exact hcond ⟨hc2, hde.1, hde.2⟩

theorem splitChar_no_sep {sep : Char} : ∀ {l : List Char},
    (∀ c ∈ l, c ≠ sep) → splitChar sep l = [l] := by
  intro l
  induction l with
  | nil => intro _; rfl
  | cons c rest ih =>
    intro h
    simp only [splitChar]
    rw [if_neg (h c (List.mem_cons_self c rest))]
    rw [ih (fun x hx => h x (List.mem_cons_of_mem c hx))]

theorem splitChar_append_sep {sep : Char} : ∀ {x : List Char},
    (∀ c ∈ x, c ≠ sep) → ∀ (r : List Char),
    splitChar sep (x ++ sep :: r) = x :: splitChar sep r := by
  intro x
  induction x with
  | nil =>
    intro _ r
    simp [splitChar]
  | cons c x' ih =>
    intro h r
    rw [List.cons_append]
    simp only [splitChar]
    rw [if_neg (h c (List.mem_cons_self c x'))]
    rw [ih (fun d hd => h d (List.mem_cons_of_mem c hd)) r]

theorem splitChar_append_last {sep : Char} : ∀ (l : List Char),
    splitChar sep (l ++ [sep]) = splitChar sep l ++ [[]] := by
  intro l
  induction l with
  | nil => simp [splitChar]
  | cons c rest ih =>
    rw [List.cons_append]
    simp only [splitChar]
    by_cases hc : c = sep
    · rw [if_pos hc, if_pos hc, ih]
      rfl
    · rw [if_neg hc, if_neg hc, ih]
      cases hsc : splitChar sep rest with
      | nil => exact absurd hsc (splitChar_ne_nil rest)
      | cons h t => rfl

theorem joinChar_split_roundtrip {sep : Char} : ∀ (L : List (List Char)),
    L ≠ [] → (∀ l ∈ L, ∀ c ∈ l, c ≠ sep) →
    splitChar sep (joinChar sep L) = L
  | [], h, _ => absurd rfl h
  | [x], _, hc => by
    simp only [joinChar]
    exact splitChar_no_sep (hc x (List.mem_cons_self x []))
  | x :: y :: rest, _, hc => by
    show splitChar sep (x ++ sep :: joinChar sep (y :: rest)) = _
    rw [splitChar_append_sep (hc x (List.mem_cons_self _ _))]
    rw [joinChar_split_roundtrip (y :: rest) (by simp)
      (fun l hl => hc l (List.mem_cons_of_mem x hl))]

theorem splitChar_not_mem {sep : Char} : ∀ {l : List Char} {pt : List Char},
    pt ∈ splitChar sep l → sep ∉ pt := by
  intro l
  induction l with
  | nil =>
    intro pt hpt
    simp only [splitChar, List.mem_singleton] at hpt
    subst hpt
    simp
  | cons c rest ih =>
    intro pt hpt
    simp only [splitChar] at hpt
    split at hpt
    · rcases List.mem_cons.mp hpt with rfl | hpt2
      · simp
      · exact ih hpt2
    · next hc =>
      revert hpt
      split
      · next heq => exact fun hpt => absurd heq (splitChar_ne_nil rest)
      · next h0 t0 heq =>
        intro hpt
        rcases List.mem_cons.mp hpt with rfl | hpt2
        · intro hmem
          rcases List.mem_cons.mp hmem with hdc | hmem2
          · exact hc hdc.symm
          · exact ih (heq ▸ List.mem_cons_self h0 t0) hmem2
        · exact ih (heq ▸ List.mem_cons_of_mem h0 hpt2)

/-- Splitting a prefix of a `sep`-join: full lines then a prefix of the next
line. -/
theorem prefix_of_join_split {sep : Char} : ∀ (L : List (List Char)),
    L ≠ [] → (∀ l ∈ L, ∀ c ∈ l, c ≠ sep) →
    ∀ P t, joinChar sep L = P ++ t →
    ∃ n pl, n < L.length ∧ splitChar sep P = L.take n ++ [pl] ∧
      ∃ u, L.getD n [] = pl ++ u
  | [], h, _ => absurd rfl h
  | [x], _, hc => by
    intro P t hPt
    simp only [joinChar] at hPt
    refine ⟨0, P, by simp, ?_, t, by simpa using hPt⟩
    have hPx : ∀ c ∈ P, c ≠ sep := by
      intro c hcm
      exact hc x (List.mem_cons_self x []) c (hPt ▸ List.mem_append.mpr (Or.inl hcm))
    rw [splitChar_no_sep hPx]
    rfl
  | x :: y :: rest, _, hc => by
    intro P t hPt
    have hxfree : ∀ c ∈ x, c ≠ sep := hc x (List.mem_cons_self _ _)
    have hPt2 : x ++ sep :: joinChar sep (y :: rest) = P ++ t := hPt
    rcases List.append_eq_append_iff.mp hPt2 with ⟨u, hu1, hu2⟩ | ⟨u, hu1, hu2⟩
    · cases u with
      | nil =>
        rw [List.append_nil] at hu1
        refine ⟨0, P, by simp, ?_, [], ?_⟩
        · rw [splitChar_no_sep (fun c hcm => hxfree c (by rw [← hu1]; exact hcm))]
          rfl
        · rw [List.getD_cons_zero, hu1, List.append_nil]
      | cons u0 u' =>
        have hu0 : u0 = sep := by
          have h2 := congrArg List.head? hu2
          simpa using h2.symm
        rw [hu0] at hu1
        have hju : joinChar sep (y :: rest) = u' ++ t := by
          have h2 := congrArg List.tail hu2
          simpa using h2
        obtain ⟨n, pl, hn, hsplit, v, hv⟩ := prefix_of_join_split (y :: rest)
          (by simp) (fun l hl => hc l (List.mem_cons_of_mem x hl)) u' t hju
        refine ⟨n + 1, pl, by simpa using hn, ?_, v, by simpa using hv⟩
        rw [hu1, splitChar_append_sep hxfree, hsplit]
        rfl
    · refine ⟨0, P, by simp, ?_, u, ?_⟩
      · have hPfree : ∀ c ∈ P, c ≠ sep := by
          intro c hcm
          exact hxfree c (by rw [hu1]; exact List.mem_append.mpr (Or.inl hcm))
        rw [splitChar_no_sep hPfree]
        rfl
      · rw [List.getD_cons_zero, hu1]

theorem hasTriple_cons_ne {c : Char} {l : List Char} (hc : c ≠ '-')
    (h : hasTriple l = false) : hasTriple (c :: l) = false := by
  match l with
  | [] => exact hasTriple_one c
  | [d] => exact hasTriple_two c d
  | d :: e :: r =>
    rw [hasTriple_cons3, Bool.or_eq_false_iff]
    refine ⟨?_, h⟩
    simp [hc]

theorem hasTriple_append_single {l : List Char} {c : Char}
    (h : hasTriple l = false) (hc : c ≠ '-') : hasTriple (l ++ [c]) = false := by
  have h2 : l ++ [c] = (c :: l.reverse).reverse := by simp
  rw [h2, hasTriple_reverse]
  rw [hasTriple_cons_ne hc (by rw [hasTriple_reverse]; exact h)]

theorem getKey_mem_isSome : ∀ {d : FMDict} {k : List Char} {v : YVal},
    (k, v) ∈ d → (getKey d k).isSome = true := by
  intro d
  induction d with
  | nil =>
    intro k v h
    exact absurd h (List.not_mem_nil _)
  | cons kv rest ih =>
    intro k v h
    obtain ⟨k', v'⟩ := kv
    show (if k' = k then some v' else getKey rest k).isSome = true
    by_cases hk : k' = k
    · rw [if_pos hk]
      rfl
    · rw [if_neg hk]
      rcases List.mem_cons.mp h with heq | h2
      · injection heq with h1 _
        exact absurd h1.symm hk
      · exact ih h2

theorem getKey_setKey_isSome : ∀ (d : FMDict) (k k' : List Char) (v : YVal),
    (getKey (setKey d k v) k').isSome = true →
    k' = k ∨ (getKey d k').isSome = true := by
  intro d
  induction d with
  | nil =>
    intro k k' v h
    simp only [setKey, getKey] at h
    split at h
    · next hk => exact Or.inl hk.symm
    · exact absurd h (by simp)
  | cons kv rest ih =>
    intro k k' v h
    obtain ⟨k1, v1⟩ := kv
    simp only [setKey] at h
    split at h
    · next hk =>
      subst hk
      show _ ∨ (if k1 = k' then some v1 else getKey rest k').isSome = true
      by_cases hq : k1 = k'
      · exact Or.inl hq.symm
      · simp only [getKey, if_neg hq] at h
        exact Or.inr (by rw [if_neg hq]; exact h)
    · next hk =>
      show _ ∨ (if k1 = k' then some v1 else getKey rest k').isSome = true
      simp only [getKey] at h
      split at h
      · next hq => exact Or.inr (by rw [if_pos hq]; rfl)
      · next hq =>
        rcases ih k k' v h with h2 | h2
        · exact Or.inl h2
        · exact Or.inr (by rw [if_neg hq]; exact h2)

theorem getKey_setKey_ne : ∀ (d : FMDict) (k k' : List Char) (v : YVal),
    k' ≠ k → getKey (setKey d k v) k' = getKey d k' := by
  intro d
  induction d with
  | nil =>
    intro k k' v h
    simp only [setKey, getKey]
    rw [if_neg (fun hq => h hq.symm)]
  | cons kv rest ih =>
    intro k k' v h
    obtain ⟨k1, v1⟩ := kv
    simp only [setKey]
    split
    · next hk =>
      subst hk
      show (if k1 = k' then some v else getKey rest k')
        = (if k1 = k' then some v1 else getKey rest k')
      rw [if_neg (fun hq => h hq.symm), if_neg (fun hq => h hq.symm)]
    · next hk =>
      show (if k1 = k' then some v1 else getKey (setKey rest k v) k')
        = (if k1 = k' then some v1 else getKey rest k')
      by_cases hq : k1 = k'
      · rw [if_pos hq, if_pos hq]
      · rw [if_neg hq, if_neg hq, ih k k' v h]

theorem getKey_delKey : ∀ (d : FMDict) (k k' : List Char),
    getKey (delKey d k) k' = if k' = k then none else getKey d k' := by
  intro d
  induction d with
  | nil =>
    intro k k'
    simp [delKey, getKey]
  | cons kv rest ih =>
    intro k k'
    obtain ⟨k1, v1⟩ := kv
    simp only [delKey]
    split
    · next hk =>
      subst hk
      rw [ih]
      show (if k' = k1 then none else getKey rest k')
        = (if k' = k1 then none else if k1 = k' then some v1 else getKey rest k')
      by_cases hq : k' = k1
      · rw [if_pos hq, if_pos hq]
      · rw [if_neg hq, if_neg hq, if_neg (fun h2 => hq h2.symm)]
    · next hk =>
      show (if k1 = k' then some v1 else getKey (delKey rest k) k')
        = (if k' = k then none else if k1 = k' then some v1 else getKey rest k')
      by_cases hq : k1 = k'
      · rw [if_pos hq, if_pos hq]
        rw [if_neg (fun h2 => hk (hq.trans h2))]
      · rw [if_neg hq, if_neg hq, ih]

theorem foldl_delKey_none : ∀ (ks : List (List Char)) (d : FMDict) (k : List Char),
    getKey d k = none →
    getKey (ks.foldl (fun d k => delKey d k) d) k = none
  | [], d, k, h => h
  | k0 :: ks, d, k, h => by
    refine foldl_delKey_none ks (delKey d k0) k ?_
    rw [getKey_delKey]
    split
    · rfl
    · exact h

theorem foldl_delKey_mem : ∀ (ks : List (List Char)) (d : FMDict) (k : List Char),
    k ∈ ks → getKey (ks.foldl (fun d k => delKey d k) d) k = none
  | [], _, _, h => absurd h (List.not_mem_nil _)
  | k0 :: ks, d, k, h => by
    rcases List.mem_cons.mp h with rfl | h2
    · refine foldl_delKey_none ks (delKey d k) k ?_
      rw [getKey_delKey, if_pos rfl]
    · exact foldl_delKey_mem ks (delKey d k0) k h2

theorem takeItems_rest_sublist : ∀ (lines : List (List Char)),
    (takeItems lines).2.Sublist lines
  | [] => List.Sublist.refl _
  | line :: rest => by
    simp only [takeItems]
    split
    · exact (takeItems_rest_sublist rest).cons line
    · exact List.Sublist.refl _

theorem takeItems_items_chars : ∀ (lines : List (List Char)),
    ∀ it ∈ (takeItems lines).1, ∀ c ∈ it, ∃ line ∈ lines, c ∈ line
  | [] => by
    intro it hit
    simp [takeItems] at hit
  | line :: rest => by
    intro it hit c hc
    simp only [takeItems] at hit
    split at hit
    · rcases List.mem_cons.mp hit with rfl | hit2
      · exact ⟨line, List.mem_cons_self _ _, (List.drop_sublist _ _).mem hc⟩
      · obtain ⟨line', hl', hc'⟩ := takeItems_items_chars rest it hit2 c hc
        exact ⟨line', List.mem_cons_of_mem _ hl', hc'⟩
    · exact absurd hit (by simp at hit)

/-- Every key of a successful parse result either was already in the starting
dictionary or is the pre-colon prefix of one of the lines. -/
theorem parse_keys : ∀ (fuel : Nat) (lines : List (List Char)) (d0 dRes : FMDict),
    parseLinesAux fuel d0 lines = some dRes →
    ∀ k, (getKey dRes k).isSome = true →
      (getKey d0 k).isSome = true ∨
      ∃ line ∈ lines, ∃ t2, line = k ++ ':' :: t2 ∧ ∀ c ∈ k, c ≠ ':' := by
  intro fuel
  induction fuel with
  | zero =>
    intro lines d0 dRes h
    exact absurd h (by simp [parseLinesAux])
  | succ fuel ih =>
    intro lines d0 dRes h k hk
    cases lines with
    | nil =>
      simp only [parseLinesAux, Option.some.injEq] at h
      subst h
      exact Or.inl hk
    | cons line rest =>
      simp only [parseLinesAux] at h
      split at h
      · rcases ih rest d0 dRes h k hk with h2 | ⟨l2, hl2, ht⟩
        · exact Or.inl h2
        · exact Or.inr ⟨l2, List.mem_cons_of_mem _ hl2, ht⟩
      · split at h
        · rcases ih rest d0 dRes h k hk with h2 | ⟨l2, hl2, ht⟩
          · exact Or.inl h2
          · exact Or.inr ⟨l2, List.mem_cons_of_mem _ hl2, ht⟩
        · split at h
          · exact absurd h (by simp)
          · split at h
            · next after heq =>
              split at h
              · exact absurd h (by simp)
              · have hline : line = line.takeWhile (· ≠ ':') ++ ':' :: after := by
                  rw [← heq]
                  exact (List.takeWhile_append_dropWhile _ _).symm
                have hkeyfree : ∀ c ∈ line.takeWhile (· ≠ ':'), c ≠ ':' := by
                  intro c hc
                  simpa using List.mem_takeWhile_imp hc
                have main : ∀ (V : YVal) (ls : List (List Char)), ls.Sublist rest →
                    parseLinesAux fuel
                      (setKey d0 (line.takeWhile (· ≠ ':')) V) ls = some dRes →
                    (getKey d0 k).isSome = true ∨
                    ∃ l2 ∈ line :: rest, ∃ t2, l2 = k ++ ':' :: t2 ∧
                      ∀ c ∈ k, c ≠ ':' := by
                  intro V ls hsub hh
                  rcases ih ls _ dRes hh k hk with h2 | ⟨l2, hl2, ht⟩
                  · rcases getKey_setKey_isSome d0 _ k _ h2 with rfl | h3
                    · exact Or.inr ⟨line, List.mem_cons_self _ _, after,
                        hline, hkeyfree⟩
                    · exact Or.inl h3
                  · exact Or.inr ⟨l2, List.mem_cons_of_mem _ (hsub.mem hl2), ht⟩
                split at h <;>
                  (split at h
                   · exact main _ _ (takeItems_rest_sublist rest) h
                   · split at h
                     · exact main _ _ (List.Sublist.refl rest) h
                     · exact main _ _ (List.Sublist.refl rest) h)
            · exact absurd h (by simp)

/-- Wellformedness maintained by the script: keys free of `:` and newline,
all value strings free of newline (keys and values come from single lines of
the front-matter text). -/
def WFDict (d : FMDict) : Prop :=
  ∀ kv ∈ d, (∀ c ∈ kv.1, c ≠ ':' ∧ c ≠ '\n') ∧
    ∀ it ∈ to_list kv.2, ∀ c ∈ it, c ≠ '\n'

theorem wf_setKey : ∀ {d : FMDict} {k : List Char} {v : YVal}, WFDict d →
    (∀ c ∈ k, c ≠ ':' ∧ c ≠ '\n') → (∀ it ∈ to_list v, ∀ c ∈ it, c ≠ '\n') →
    WFDict (setKey d k v) := by
  intro d
  induction d with
  | nil =>
    intro k v _ hk hv kv hkv
    simp only [setKey, List.mem_singleton] at hkv
    subst hkv
    exact ⟨hk, hv⟩
  | cons kv0 rest ih =>
    intro k v hd hk hv kv hkv
    obtain ⟨k1, v1⟩ := kv0
    simp only [setKey] at hkv
    split at hkv
    · rcases List.mem_cons.mp hkv with rfl | hkv2
      · exact ⟨fun c hc => (hd (k1, v1) (List.mem_cons_self _ _)).1 c hc, hv⟩
      · exact hd kv (List.mem_cons_of_mem _ hkv2)
    · rcases List.mem_cons.mp hkv with rfl | hkv2
      · exact hd _ (List.mem_cons_self _ _)
      · exact ih (fun q hq => hd q (List.mem_cons_of_mem _ hq)) hk hv kv hkv2

theorem wf_delKey : ∀ {d : FMDict} {k : List Char}, WFDict d →
    WFDict (delKey d k) := by
  intro d
  induction d with
  | nil =>
    intro k _ kv hkv
    simp [delKey] at hkv
  | cons kv0 rest ih =>
    intro k hd kv hkv
    obtain ⟨k1, v1⟩ := kv0
    simp only [delKey] at hkv
    split at hkv
    · exact ih (fun q hq => hd q (List.mem_cons_of_mem _ hq)) kv hkv
    · rcases List.mem_cons.mp hkv with rfl | hkv2
      · exact hd _ (List.mem_cons_self _ _)
      · exact ih (fun q hq => hd q (List.mem_cons_of_mem _ hq)) kv hkv2

theorem wf_foldl_delKey : ∀ (ks : List (List Char)) {d : FMDict}, WFDict d →
    WFDict (ks.foldl (fun d k => delKey d k) d)
  | [], _, hd => hd
  | k0 :: ks, d, hd => wf_foldl_delKey ks (wf_delKey hd)

theorem getKey_mem_of_some : ∀ {d : FMDict} {k : List Char} {v : YVal},
    getKey d k = some v → (k, v) ∈ d := by
  intro d
  induction d with
  | nil =>
    intro k v h
    simp [getKey] at h
  | cons kv0 rest ih =>
    intro k v h
    obtain ⟨k1, v1⟩ := kv0
    simp only [getKey] at h
    split at h
    · next hk =>
      injection h with h
      subst h
      subst hk
      exact List.mem_cons_self _ _
    · exact List.mem_cons_of_mem _ (ih h)

/-- A successful parse of newline-free lines yields a wellformed dictionary. -/
theorem wf_parse : ∀ (fuel : Nat) (lines : List (List Char)) (d0 dRes : FMDict),
    (∀ line ∈ lines, ∀ c ∈ line, c ≠ '\n') → WFDict d0 →
    parseLinesAux fuel d0 lines = some dRes → WFDict dRes := by
  intro fuel
  induction fuel with
  | zero =>
    intro lines d0 dRes _ _ h
    exact absurd h (by simp [parseLinesAux])
  | succ fuel ih =>
    intro lines d0 dRes hnl hd0 h
    cases lines with
    | nil =>
      simp only [parseLinesAux, Option.some.injEq] at h
      subst h
      exact hd0
    | cons line rest =>
      have hnlrest : ∀ l ∈ rest, ∀ c ∈ l, c ≠ '\n' :=
        fun l hl => hnl l (List.mem_cons_of_mem _ hl)
      have hnlline : ∀ c ∈ line, c ≠ '\n' := hnl line (List.mem_cons_self _ _)
      simp only [parseLinesAux] at h
      split at h
      · exact ih rest d0 dRes hnlrest hd0 h
      · split at h
        · exact ih rest d0 dRes hnlrest hd0 h
        · split at h
          · exact absurd h (by simp)
          · split at h
            · next after heq =>
              split at h
              · exact absurd h (by simp)
              · have hkeywf : ∀ c ∈ line.takeWhile (· ≠ ':'), c ≠ ':' ∧ c ≠ '\n' := by
                  intro c hc
                  refine ⟨by simpa using List.mem_takeWhile_imp hc, ?_⟩
                  exact hnlline c ((List.takeWhile_sublist _).mem hc)
                have haftermem : ∀ c ∈ after, c ∈ line := by
                  intro c hc
                  have h2 : c ∈ line.dropWhile (· ≠ ':') := by
                    rw [heq]
                    exact List.mem_cons_of_mem _ hc
                  exact (List.dropWhile_sublist _).mem h2
                have main : ∀ (V : YVal) (ls : List (List Char)), ls.Sublist rest →
                    (∀ it ∈ to_list V, ∀ c ∈ it, c ≠ '\n') →
                    parseLinesAux fuel
                      (setKey d0 (line.takeWhile (· ≠ ':')) V) ls = some dRes →
                    WFDict dRes := by
                  intro V ls hsub hV hh
                  exact ih ls _ dRes (fun l hl => hnlrest l (hsub.mem hl))
                    (wf_setKey hd0 hkeywf hV) hh
                have hitems : ∀ it ∈ to_list (YVal.l (takeItems rest).1),
                    ∀ c ∈ it, c ≠ '\n' := by
                  intro it hit c hc
                  obtain ⟨l2, hl2, hc2⟩ := takeItems_items_chars rest it hit c hc
                  exact hnlrest l2 hl2 c hc2
                have hs1 : ∀ it ∈ to_list (YVal.s (after.drop 1)),
                    ∀ c ∈ it, c ≠ '\n' := by
                  intro it hit c hc
                  have h2 : it = after.drop 1 := by simpa [to_list] using hit
                  subst h2
                  exact hnlline c (haftermem c ((List.drop_sublist _ _).mem hc))
                have hs2 : ∀ it ∈ to_list (YVal.s after), ∀ c ∈ it, c ≠ '\n' := by
                  intro it hit c hc
                  have h2 : it = after := by simpa [to_list] using hit
                  subst h2
                  exact hnlline c (haftermem c hc)
                have hsnil : ∀ it ∈ to_list (YVal.l []), ∀ c ∈ it, c ≠ '\n' := by
                  intro it hit
                  simp [to_list] at hit
                split at h <;>
                  (split at h
                   · exact main _ _ (takeItems_rest_sublist rest) hitems h
                   · split at h
                     · exact main _ _ (List.Sublist.refl rest) hsnil h
                     · first
                       | exact main _ _ (List.Sublist.refl rest) hs1 h
                       | exact main _ _ (List.Sublist.refl rest) hs2 h)
            · exact absurd h (by simp)

theorem getKey_merge_other {d : FMDict} {k : List Char}
    (h1 : k ≠ ("type").data) (h2 : k ≠ ("categories").data)
    (h3 : k ≠ ("doctypes").data) :
    getKey (merge_categories_and_doctypes d) k = getKey d k := by
  simp only [merge_categories_and_doctypes]
  split
  · rw [getKey_delKey, if_neg h3, getKey_delKey, if_neg h2]
  · rw [getKey_setKey_ne _ _ _ _ h1]
    rw [getKey_delKey, if_neg h3, getKey_delKey, if_neg h2]

theorem getKey_filter_other {d : FMDict} {k : List Char}
    (h1 : k ≠ ("type").data) :
    getKey (filter_type_values d) k = getKey d k := by
  simp only [filter_type_values]
  split
  · rfl
  · rw [getKey_setKey_ne _ _ _ _ h1]

theorem merge_no_cats (d : FMDict) :
    getKey (merge_categories_and_doctypes d) (("categories").data) = none ∧
    getKey (merge_categories_and_doctypes d) (("doctypes").data) = none := by
  simp only [merge_categories_and_doctypes]
  split
  · constructor
    · rw [getKey_delKey, if_neg (by decide), getKey_delKey, if_pos rfl]
    · rw [getKey_delKey, if_pos rfl]
  · constructor
    · rw [getKey_setKey_ne _ _ _ _ (by decide),
        getKey_delKey, if_neg (by decide), getKey_delKey, if_pos rfl]
    · rw [getKey_setKey_ne _ _ _ _ (by decide), getKey_delKey, if_pos rfl]

set_option maxHeartbeats 1000000 in
/-- The pruned dictionary of a first pass contains none of the deny-listed
keys, nor `categories`, nor `doctypes`. -/
theorem pruned_forbidden_free (d : FMDict) :
    (∀ u ∈ UNNEEDED_KEYS,
      getKey (remove_unneeded_keys
        (filter_type_values (merge_categories_and_doctypes d))).2 u = none) ∧
    getKey (remove_unneeded_keys
      (filter_type_values (merge_categories_and_doctypes d))).2
      (("categories").data) = none ∧
    getKey (remove_unneeded_keys
      (filter_type_values (merge_categories_and_doctypes d))).2
      (("doctypes").data) = none := by
  simp only [remove_unneeded_keys]
  refine ⟨fun u hu => foldl_delKey_mem UNNEEDED_KEYS _ u hu, ?_, ?_⟩
  · refine foldl_delKey_none UNNEEDED_KEYS _ _ ?_
    rw [getKey_filter_other (by decide)]
    exact (merge_no_cats d).1
  · refine foldl_delKey_none UNNEEDED_KEYS _ _ ?_
    rw [getKey_filter_other (by decide)]
    exact (merge_no_cats d).2

/-- Every dump line that decomposes as `k ++ ':' ++ t` with a colon-free `k`
has `k` a key of the dictionary or `k` beginning with `-`. -/
theorem dump_line_key {d3 : FMDict} (hwf : WFDict d3) {line : List Char}
    (hl : line ∈ d3.flatMap dumpLine) {k t : List Char}
    (heq : line = k ++ ':' :: t) (hkfree : ∀ c ∈ k, c ≠ ':') :
    (getKey d3 k).isSome = true ∨ k.head? = some '-' := by
  obtain ⟨kv, hkv, hline⟩ := List.mem_flatMap.mp hl
  obtain ⟨k', v'⟩ := kv
  have hk'free : ∀ c ∈ k', c ≠ ':' := fun c hc => (hwf (k', v') hkv).1 c hc |>.1
  match v', hline with
  | .s v, hline =>
    simp only [dumpLine, List.mem_singleton] at hline
    rw [heq] at hline
    obtain ⟨hkk, _⟩ := append_colon_inj hkfree hk'free hline
    subst hkk
    exact Or.inl (getKey_mem_isSome hkv)
  | .l [], hline =>
    simp only [dumpLine, List.mem_singleton] at hline
    rw [heq] at hline
    have hline2 : k ++ ':' :: t = k' ++ ':' :: (' ' :: '[' :: ']' :: []) := by
      rw [hline]
    obtain ⟨hkk, _⟩ := append_colon_inj hkfree hk'free hline2
    subst hkk
    exact Or.inl (getKey_mem_isSome hkv)
  | .l (it0 :: its), hline =>
    simp only [dumpLine] at hline
    rcases List.mem_cons.mp hline with hline2 | hline2
    · have hline3 : k ++ ':' :: t = k' ++ ':' :: [] := by
        rw [heq] at hline2
        rw [hline2]
      obtain ⟨hkk, _⟩ := append_colon_inj hkfree hk'free hline3
      subst hkk
      exact Or.inl (getKey_mem_isSome hkv)
    · rw [List.mem_map] at hline2
      obtain ⟨it, _, hit⟩ := hline2
      rw [heq] at hit
      cases k with
      | nil => simp at hit
      | cons k0 kt =>
        right
        have hk0 : k0 = '-' := by
          have h2 := congrArg List.head? hit
          simpa using h2.symm
        rw [hk0]
        rfl

theorem dump_lines_nl_free {d3 : FMDict} (hwf : WFDict d3) :
    ∀ line ∈ d3.flatMap dumpLine, ∀ c ∈ line, c ≠ '\n' := by
  intro line hl c hc
  obtain ⟨kv, hkv, hline⟩ := List.mem_flatMap.mp hl
  obtain ⟨k', v'⟩ := kv
  obtain ⟨hkwf, hvwf⟩ := hwf (k', v') hkv
  match v', hline with
  | .s v, hline =>
    simp only [dumpLine, List.mem_singleton] at hline
    subst hline
    rcases List.mem_append.mp hc with hc2 | hc2
    · exact (hkwf c hc2).2
    · rcases List.mem_cons.mp hc2 with rfl | hc3
      · decide
      · rcases List.mem_cons.mp hc3 with rfl | hc4
        · decide
        · exact hvwf v (by simp [to_list]) c hc4
  | .l [], hline =>
    simp only [dumpLine, List.mem_singleton] at hline
    subst hline
    rcases List.mem_append.mp hc with hc2 | hc2
    · exact (hkwf c hc2).2
    · rcases (by simpa using hc2 : c = ':' ∨ c = ' ' ∨ c = '[' ∨ c = ']')
        with rfl | rfl | rfl | rfl <;> decide
  | .l (it0 :: its), hline =>
    simp only [dumpLine] at hline
    rcases List.mem_cons.mp hline with hline2 | hline2
    · subst hline2
      rcases List.mem_append.mp hc with hc2 | hc2
      · exact (hkwf c hc2).2
      · rcases (by simpa using hc2 : c = ':') with rfl
        decide
    · rw [List.mem_map] at hline2
      obtain ⟨it, hitm, hit⟩ := hline2
      subst hit
      rcases List.mem_cons.mp hc with rfl | hc2
      · decide
      · rcases List.mem_cons.mp hc2 with rfl | hc3
        · decide
        · exact hvwf it (by simpa [to_list] using hitm) c hc3

theorem dump_lines_ne_nil {d3 : FMDict} (h : d3 ≠ []) :
    d3.flatMap dumpLine ≠ [] := by
  cases d3 with
  | nil => exact absurd rfl h
  | cons kv rest =>
    obtain ⟨k', v'⟩ := kv
    match v' with
    | .s v => simp [dumpLine]
    | .l [] => simp [dumpLine]
    | .l (it0 :: its) => simp [dumpLine]

theorem wf_merge {d : FMDict} (hd : WFDict d) :
    WFDict (merge_categories_and_doctypes d) := by
  simp only [merge_categories_and_doctypes]
  split
  · exact wf_delKey (wf_delKey hd)
  · refine wf_setKey (wf_delKey (wf_delKey hd)) (by decide) ?_
    intro it hit c hc
    have hit2 : it ∈ ((getKey d (("categories").data)).elim [] to_list ++
        (getKey d (("doctypes").data)).elim [] to_list).map convertItem := by
      simpa [to_list] using hit
    rw [List.mem_map] at hit2
    obtain ⟨it0, hit0, rfl⟩ := hit2
    have hit0nl : ∀ ch ∈ it0, ch ≠ '\n' := by
      rcases List.mem_append.mp hit0 with hm | hm
      · cases hcat : getKey d (("categories").data) with
        | none =>
          rw [hcat] at hm
          simp at hm
        | some v =>
          rw [hcat] at hm
          exact (hd _ (getKey_mem_of_some hcat)).2 it0 hm
      · cases hdoc : getKey d (("doctypes").data) with
        | none =>
          rw [hdoc] at hm
          simp at hm
        | some v =>
          rw [hdoc] at hm
          exact (hd _ (getKey_mem_of_some hdoc)).2 it0 hm
    revert hc
    simp only [convertItem]
    split
    · intro hc
      rcases (by simpa using hc : c = 'h' ∨ c = 'o' ∨ c = 'w' ∨ c = '-' ∨
        c = 't' ∨ c = 'o') with rfl | rfl | rfl | rfl | rfl | rfl <;> decide
    · split
      · intro hc
        rcases (by simpa using hc : c = 'c' ∨ c = 'o' ∨ c = 'n' ∨ c = 'c' ∨
          c = 'e' ∨ c = 'p' ∨ c = 't') with rfl | rfl | rfl | rfl | rfl | rfl | rfl
          <;> decide
      · exact hit0nl c

theorem wf_filter {d : FMDict} (hd : WFDict d) :
    WFDict (filter_type_values d) := by
  simp only [filter_type_values]
  cases hty : getKey d (("type").data) with
  | none => exact hd
  | some v =>
    refine wf_setKey hd (by decide) ?_
    intro it hit c hc
    have hv := (hd _ (getKey_mem_of_some hty)).2
    have hit2 : it ∈ (iterStrings v).filter (fun x => x ∈ VALID_TYPE_VALUES) := by
      simpa [to_list] using hit
    have hit3 := List.mem_of_mem_filter hit2
    match v, hit3 with
    | .s w, hit3 =>
      simp only [iterStrings, List.mem_map] at hit3
      obtain ⟨ch, hch, rfl⟩ := hit3
      rcases List.mem_singleton.mp hc with rfl
      exact hv w (by simp [to_list]) c hch
    | .l items, hit3 =>
      exact hv it (by simpa [to_list] using hit3) c hc

/-- If the middle part of a file parses to a dictionary with no forbidden
keys (or does not parse), the file is not rewritten. -/
theorem process_file_no_forbidden {content p0 M q : List Char}
    {qs : List (List Char)}
    (hsp : splitDashes content = p0 :: M :: q :: qs)
    (hfb : ∀ dRes, parseFM M = some dRes →
       (getKey dRes (("categories").data)).isSome = false ∧
       (getKey dRes (("doctypes").data)).isSome = false ∧
       ∀ u ∈ UNNEEDED_KEYS, (getKey dRes u).isSome = false) :
    process_file content = none := by
  have huniq : ∀ u ∈ UNNEEDED_KEYS, u ≠ ("type").data ∧
      u ≠ ("categories").data ∧ u ≠ ("doctypes").data := by decide
  simp only [process_file, hsp]
  cases hpf : parseFM M with
  | none => rfl
  | some dRes =>
    obtain ⟨h1, h2, h3⟩ := hfb dRes hpf
    have hrem : (remove_unneeded_keys (filter_type_values
        (merge_categories_and_doctypes dRes))).1 = [] := by
      simp only [remove_unneeded_keys]
      rw [List.filter_eq_nil_iff]
      intro u hu
      obtain ⟨hu1, hu2, hu3⟩ := huniq u hu
      rw [getKey_filter_other hu1, getKey_merge_other hu1 hu2 hu3]
      rw [h3 u hu]
      simp
    dsimp only
    rw [if_neg]
    intro hcon
    rcases hcon with hcon | hcon | hcon
    · exact hcon hrem
    · rw [h1] at hcon
      exact absurd hcon (by simp)
    · rw [h2] at hcon
      exact absurd hcon (by simp)

/-- Keys parsed from lines that are empty, dump lines, or prefixes of dump
lines are keys of the dumped dictionary or begin with `-`. -/
theorem parse_M_keys {d3 : FMDict} (hwf : WFDict d3) {lines2 : List (List Char)}
    (hlines : ∀ line ∈ lines2, line = [] ∨ line ∈ d3.flatMap dumpLine ∨
       ∃ full ∈ d3.flatMap dumpLine, ∃ u, full = line ++ u)
    {dRes : FMDict} {fuel : Nat}
    (hparse : parseLinesAux fuel [] lines2 = some dRes) :
    ∀ k, (getKey dRes k).isSome = true →
      (getKey d3 k).isSome = true ∨ k.head? = some '-' := by
  intro k hk
  rcases parse_keys fuel lines2 [] dRes hparse k hk with h0 | ⟨line, hlm, t2, hlt, hkfree⟩
  · exact absurd h0 (by simp [getKey])
  · rcases hlines line hlm with rfl | hmem | ⟨full, hfm, u, hfu⟩
    · exact absurd hlt.symm (List.append_ne_nil_of_right_ne_nil k (by simp))
    · exact dump_line_key hwf hmem hlt hkfree
    · refine dump_line_key hwf hfm (t := t2 ++ u) ?_ hkfree
      rw [hfu, hlt]
      simp

theorem facts_of_keys {d3 dRes : FMDict}
    (hfree : (∀ u ∈ UNNEEDED_KEYS, getKey d3 u = none) ∧
      getKey d3 (("categories").data) = none ∧
      getKey d3 (("doctypes").data) = none)
    (hkeys : ∀ k, (getKey dRes k).isSome = true →
      (getKey d3 k).isSome = true ∨ k.head? = some '-') :
    (getKey dRes (("categories").data)).isSome = false ∧
    (getKey dRes (("doctypes").data)).isSome = false ∧
    ∀ u ∈ UNNEEDED_KEYS, (getKey dRes u).isSome = false := by
  refine ⟨?_, ?_, ?_⟩
  · by_contra hcon
    rw [Bool.not_eq_false] at hcon
    rcases hkeys _ hcon with hsome | hhead
    · rw [hfree.2.1] at hsome
      exact absurd hsome (by simp)
    · exact absurd hhead (by decide)
  · by_contra hcon
    rw [Bool.not_eq_false] at hcon
    rcases hkeys _ hcon with hsome | hhead
    · rw [hfree.2.2] at hsome
      exact absurd hsome (by simp)
    · exact absurd hhead (by decide)
  · intro u hu
    by_contra hcon
    rw [Bool.not_eq_false] at hcon
    rcases hkeys u hcon with hsome | hhead
    · rw [hfree.1 u hu] at hsome
      exact absurd hsome (by simp)
    · exact absurd hhead ((by decide :
        ∀ u ∈ UNNEEDED_KEYS, u.head? ≠ some '-') u hu)

/-- After a rewrite, the new content's second pass finds nothing to change:
the middle part is (a possibly truncated) dump of a forbidden-key-free
dictionary. -/
theorem pass2_after_rewrite {p0 : List Char} (d3 : FMDict) (A : List Char)
    (hp0t : hasTriple p0 = false) (hp0l : p0.getLast? ≠ some '-')
    (hwf3 : WFDict d3)
    (hfree : (∀ u ∈ UNNEEDED_KEYS, getKey d3 u = none) ∧
      getKey d3 (("categories").data) = none ∧
      getKey d3 (("doctypes").data) = none) :
    process_file (p0 ++ '-' :: '-' :: '-' :: ('\n' :: (dumpFM d3 ++
      '\n' :: '-' :: '-' :: '-' :: ('\n' :: A)))) = none := by
  obtain ⟨q, qs, hq⟩ : ∃ q qs, splitAux [] ('\n' :: A) = q :: qs := by
    cases hqq : splitAux [] ('\n' :: A) with
    | nil => exact absurd hqq (splitAux_ne_nil _ _)
    | cons q qs => exact ⟨q, qs, rfl⟩
  by_cases hnil : d3 = []
  · subst hnil
    have hD : dumpFM ([] : FMDict) = ('{' :: '}' :: []) := rfl
    rw [hD]
    have hsp2 : splitDashes (p0 ++ '-' :: '-' :: '-' :: ('\n' ::
        (('{' :: '}' :: []) ++ '\n' :: '-' :: '-' :: '-' :: ('\n' :: A))))
        = p0 :: ('\n' :: '{' :: '}' :: '\n' :: []) :: q :: qs := by
      have h2 := splitAux_resplit p0 [] ('\n' ::
        (('{' :: '}' :: []) ++ '\n' :: '-' :: '-' :: '-' :: ('\n' :: A)))
        hp0t hp0l
      have h3 := splitAux_resplit ('\n' :: '{' :: '}' :: '\n' :: []) []
        ('\n' :: A) (by decide) (by decide)
      show splitAux [] _ = _
      rw [h2]
      simp only [List.reverse_nil, List.nil_append]
      congr 1
      show splitAux [] (('\n' :: '{' :: '}' :: '\n' :: []) ++
        '-' :: '-' :: '-' :: ('\n' :: A)) = _
      rw [h3]
      simp only [List.reverse_nil, List.nil_append]
      rw [hq]
    refine process_file_no_forbidden hsp2 ?_
    intro dRes hpf
    have hpe : parseFM ('\n' :: '{' :: '}' :: '\n' :: []) = some [] := by decide
    rw [hpe] at hpf
    injection hpf with hpf
    subst hpf
    exact ⟨rfl, rfl, fun u _ => rfl⟩
  · have hDlines_ne : d3.flatMap dumpLine ≠ [] := dump_lines_ne_nil hnil
    have hDnl : ∀ l ∈ d3.flatMap dumpLine, ∀ c2 ∈ l, c2 ≠ '\n' :=
      dump_lines_nl_free hwf3
    have hDeq : dumpFM d3 = joinChar '\n' (d3.flatMap dumpLine) := by
      cases d3 with
      | nil => exact absurd rfl hnil
      | cons kv rest => rfl
    rw [hDeq]
    by_cases htrip : hasTriple (joinChar '\n' (d3.flatMap dumpLine)) = true
    · obtain ⟨D1, D2, hD12, hD1t, hD1l⟩ := hasTriple_leftmost htrip
      obtain ⟨q2, qs2, hq2⟩ : ∃ q2 qs2,
          splitAux [] (D2 ++ '\n' :: '-' :: '-' :: '-' :: ('\n' :: A))
            = q2 :: qs2 := by
        cases hqq : splitAux [] (D2 ++ '\n' :: '-' :: '-' :: '-' :: ('\n' :: A)) with
        | nil => exact absurd hqq (splitAux_ne_nil _ _)
        | cons q2 qs2 => exact ⟨q2, qs2, rfl⟩
      have hclean1 : hasTriple ('\n' :: D1) = false :=
        hasTriple_cons_ne (by decide) hD1t
      have hclean2 : ('\n' :: D1).getLast? ≠ some '-' := by
        cases D1 with
        | nil => decide
        | cons d1 dt =>
          rw [List.getLast?_cons_cons]
          exact hD1l
      have hXeq : '\n' :: (joinChar '\n' (d3.flatMap dumpLine) ++
          '\n' :: '-' :: '-' :: '-' :: ('\n' :: A))
          = ('\n' :: D1) ++ '-' :: '-' :: '-' ::
            (D2 ++ '\n' :: '-' :: '-' :: '-' :: ('\n' :: A)) := by
        rw [hD12]
        simp
      have hsp2 : splitDashes (p0 ++ '-' :: '-' :: '-' :: ('\n' ::
          (joinChar '\n' (d3.flatMap dumpLine) ++
            '\n' :: '-' :: '-' :: '-' :: ('\n' :: A))))
          = p0 :: ('\n' :: D1) :: q2 :: qs2 := by
        have h2 := splitAux_resplit p0 []
          ('\n' :: (joinChar '\n' (d3.flatMap dumpLine) ++
            '\n' :: '-' :: '-' :: '-' :: ('\n' :: A))) hp0t hp0l
        show splitAux [] _ = _
        rw [h2]
        simp only [List.reverse_nil, List.nil_append]
        congr 1
        rw [hXeq]
        have h3 := splitAux_resplit ('\n' :: D1) []
          (D2 ++ '\n' :: '-' :: '-' :: '-' :: ('\n' :: A)) hclean1 hclean2
        rw [h3]
        simp only [List.reverse_nil, List.nil_append]
        rw [hq2]
      refine process_file_no_forbidden hsp2 ?_
      intro dRes hpf
      obtain ⟨n, pl, hn, hsplitD1, u, hu⟩ := prefix_of_join_split
        (d3.flatMap dumpLine) hDlines_ne hDnl D1
        ('-' :: '-' :: '-' :: D2) hD12
      have hMsplit : splitChar '\n' ('\n' :: D1) = [] :: splitChar '\n' D1 := by
        simp [splitChar]
      have hparse : parseLinesAux ((splitChar '\n' ('\n' :: D1)).length + 1) []
          (splitChar '\n' ('\n' :: D1)) = some dRes := hpf
      rw [hMsplit, hsplitD1] at hparse
      have hlines : ∀ line ∈ ([] :: ((d3.flatMap dumpLine).take n ++ [pl])),
          line = [] ∨ line ∈ d3.flatMap dumpLine ∨
          ∃ full ∈ d3.flatMap dumpLine, ∃ u', full = line ++ u' := by
        intro line hl
        rcases List.mem_cons.mp hl with rfl | hl2
        · exact Or.inl rfl
        · rcases List.mem_append.mp hl2 with hl3 | hl3
          · exact Or.inr (Or.inl (List.take_subset n _ hl3))
          · rw [List.mem_singleton] at hl3
            subst hl3
            refine Or.inr (Or.inr ⟨(d3.flatMap dumpLine).getD n [], ?_, u, hu⟩)
            rw [List.getD_eq_getElem?_getD, List.getElem?_eq_getElem hn]
            exact List.getElem_mem hn
      exact facts_of_keys hfree (parse_M_keys hwf3 hlines hparse)
    · rw [Bool.not_eq_true] at htrip
      have hclean1 : hasTriple ('\n' :: (joinChar '\n' (d3.flatMap dumpLine) ++
          ['\n'])) = false :=
        hasTriple_cons_ne (by decide)
          (hasTriple_append_single htrip (by decide))
      have hclean2 : ('\n' :: (joinChar '\n' (d3.flatMap dumpLine) ++
          ['\n'])).getLast? ≠ some '-' := by
        rw [show ('\n' :: (joinChar '\n' (d3.flatMap dumpLine) ++ ['\n']))
          = ('\n' :: joinChar '\n' (d3.flatMap dumpLine)) ++ ['\n'] from by simp]
        rw [List.getLast?_concat]
        decide
      have hXeq : '\n' :: (joinChar '\n' (d3.flatMap dumpLine) ++
          '\n' :: '-' :: '-' :: '-' :: ('\n' :: A))
          = ('\n' :: (joinChar '\n' (d3.flatMap dumpLine) ++ ['\n'])) ++
            '-' :: '-' :: '-' :: ('\n' :: A) := by
        simp
      have hsp2 : splitDashes (p0 ++ '-' :: '-' :: '-' :: ('\n' ::
          (joinChar '\n' (d3.flatMap dumpLine) ++
            '\n' :: '-' :: '-' :: '-' :: ('\n' :: A))))
          = p0 :: ('\n' :: (joinChar '\n' (d3.flatMap dumpLine) ++ ['\n']))
            :: q :: qs := by
        have h2 := splitAux_resplit p0 []
          ('\n' :: (joinChar '\n' (d3.flatMap dumpLine) ++
            '\n' :: '-' :: '-' :: '-' :: ('\n' :: A))) hp0t hp0l
        show splitAux [] _ = _
        rw [h2]
        simp only [List.reverse_nil, List.nil_append]
        congr 1
        rw [hXeq]
        have h3 := splitAux_resplit
          ('\n' :: (joinChar '\n' (d3.flatMap dumpLine) ++ ['\n'])) []
          ('\n' :: A) hclean1 hclean2
        rw [h3]
        simp only [List.reverse_nil, List.nil_append]
        rw [hq]
      refine process_file_no_forbidden hsp2 ?_
      intro dRes hpf
      have hMsplit : splitChar '\n'
          ('\n' :: (joinChar '\n' (d3.flatMap dumpLine) ++ ['\n']))
          = [] :: (d3.flatMap dumpLine ++ [[]]) := by
        rw [show splitChar '\n'
            ('\n' :: (joinChar '\n' (d3.flatMap dumpLine) ++ ['\n']))
          = [] :: splitChar '\n'
              (joinChar '\n' (d3.flatMap dumpLine) ++ ['\n']) from by
          simp [splitChar]]
        rw [splitChar_append_last]
        rw [joinChar_split_roundtrip _ hDlines_ne hDnl]
      have hparse : parseLinesAux ((splitChar '\n'
          ('\n' :: (joinChar '\n' (d3.flatMap dumpLine) ++ ['\n']))).length + 1) []
          (splitChar '\n'
            ('\n' :: (joinChar '\n' (d3.flatMap dumpLine) ++ ['\n'])))
          = some dRes := hpf
      rw [hMsplit] at hparse
      have hlines : ∀ line ∈ ([] :: (d3.flatMap dumpLine ++ [[]])),
          line = [] ∨ line ∈ d3.flatMap dumpLine ∨
          ∃ full ∈ d3.flatMap dumpLine, ∃ u', full = line ++ u' := by
        intro line hl
        rcases List.mem_cons.mp hl with rfl | hl2
        · exact Or.inl rfl
        · rcases List.mem_append.mp hl2 with hl3 | hl3
          · exact Or.inr (Or.inl hl3)
          · rw [List.mem_singleton] at hl3
            exact Or.inl hl3
      exact facts_of_keys hfree (parse_M_keys hwf3 hlines hparse)

/-- C6: front-matter pruning is idempotent at the file level: whenever
`process_file` rewrites a file's content (returns `some c₂`), a second run on
the rewritten content `c₂` performs no rewrite (returns `none`) — after the
first pass the merged/filtered/pruned front matter contains no `categories`,
no `doctypes` and no deny-listed key, so nothing is left to change. -/
theorem c6_prune_idempotent_second_pass {c c₂ : List Char}
    (h : process_file c = some c₂) : process_file c₂ = none := by
  rcases hsp : splitDashes c with _ | ⟨p0, _ | ⟨p1, _ | ⟨p2, ps⟩⟩⟩
  · simp only [process_file, hsp] at h
    exact absurd h (by simp)
  · simp only [process_file, hsp] at h
    exact absurd h (by simp)
  · simp only [process_file, hsp] at h
    exact absurd h (by simp)
  · simp only [process_file, hsp] at h
    cases hpf : parseFM p1 with
    | none =>
      rw [hpf] at h
      exact absurd h (by simp)
    | some d =>
      rw [hpf] at h
      dsimp only at h
      split at h
      · rename_i hguard
        injection h with h
        subst h
        obtain ⟨hp0t, hp0l⟩ := splitAux_head_clean c [] (by decide)
          (by simp) (by simp) p0 (p1 :: p2 :: ps) hsp (by simp)
        have hpf' : parseLinesAux ((splitChar '\n' p1).length + 1) []
            (splitChar '\n' p1) = some d := hpf
        have hwfd : WFDict d := by
          refine wf_parse _ _ [] d ?_
            (fun kv hkv => absurd hkv (List.not_mem_nil _)) hpf'
          intro line hl c2 hc2 heq
          subst heq
          exact splitChar_not_mem hl hc2
        have hsh : p0 ++ ('-' :: '-' :: '-' :: '\n' :: []) ++
            dumpFM (remove_unneeded_keys (filter_type_values
              (merge_categories_and_doctypes d))).2 ++
            ('\n' :: '-' :: '-' :: '-' :: '\n' :: []) ++ joinDashes (p2 :: ps)
            = p0 ++ '-' :: '-' :: '-' :: ('\n' ::
              (dumpFM (remove_unneeded_keys (filter_type_values
                (merge_categories_and_doctypes d))).2 ++
               '\n' :: '-' :: '-' :: '-' :: ('\n' :: joinDashes (p2 :: ps)))) := by
          simp
        rw [hsh]
        refine pass2_after_rewrite _ _ hp0t hp0l ?_ (pruned_forbidden_free d)
        have hwf2 : WFDict (filter_type_values
            (merge_categories_and_doctypes d)) := wf_filter (wf_merge hwfd)
        simp only [remove_unneeded_keys]
        exact wf_foldl_delKey _ hwf2
      · exact absurd h (by simp)

theorem c6_prune_idempotent_second_pass_witness :
    process_file (("x\n---\ncategories: task\n---\nbody").data)
      = some (("x\n---\ntype:\n- how-to\n---\n\nbody").data) ∧
    process_file (("x\n---\ntype:\n- how-to\n---\n\nbody").data) = none :=
  ⟨by decide, @c6_prune_idempotent_second_pass
    (("x\n---\ncategories: task\n---\nbody").data)
    (("x\n---\ntype:\n- how-to\n---\n\nbody").data) (by decide)⟩

/-! ### archive-docs.py : shortcode matching, include expansion, per-file flow -/

/-- `c` is one of the two quote characters of the shortcode patterns. -/
def isQuoteCh (c : Char) : Bool := c = '"' || c = '\''

/-- Match the shortcode regex for keyword `kw`
(the source's patterns for `include` and `relref`:
open braces, optional whitespace, the keyword, optional whitespace, a quote,
one or more non-quote characters (the capture), a quote, optional whitespace,
close braces) at the beginning of `l`; on success return the capture and
the remainder after the match. -/
def matchShortcodeAt (kw : List Char) (l : List Char) :
    Option (List Char × List Char) :=
  match l with
  | '{' :: '{' :: '<' :: rest =>
    let r1 := rest.dropWhile isPyWs
    if kw.isPrefixOf r1 then
      let r2 := r1.drop kw.length
      let r3 := r2.dropWhile isPyWs
      match r3 with
      | q :: r4 =>
        if isQuoteCh q then
          let cap := r4.takeWhile (fun c => !(isQuoteCh c))
          if cap = [] then none
          else
            match r4.dropWhile (fun c => !(isQuoteCh c)) with
            | q2 :: r6 =>
              if isQuoteCh q2 then
                match r6.dropWhile isPyWs with
                | '>' :: '}' :: '}' :: r8 => some (cap, r8)
                | _ => none
              else none
            | [] => none
        else none
      | [] => none
    else none
  | _ => none

/-- Leftmost shortcode match: scan `l` position by position; on success
return the text before the match, the capture, and the remainder. -/
def findShortcode (kw : List Char) : List Char → List Char →
    Option (List Char × List Char × List Char)
  | pre, [] =>
    (matchShortcodeAt kw []).map (fun p => (pre.reverse, p.1, p.2))
  | pre, c :: t =>
    match matchShortcodeAt kw (c :: t) with
    | some (cap, rest) => some (pre.reverse, cap, rest)
    | none => findShortcode kw (c :: pre) t

/-- `"include"` as a character list. -/
def incKw : List Char := ('i' :: 'n' :: 'c' :: 'l' :: 'u' :: 'd' :: 'e' :: [])

/-- `"relref"` as a character list. -/
def relKw : List Char := ('r' :: 'e' :: 'l' :: 'r' :: 'e' :: 'f' :: [])

/-- The alternation `re.split` produces on one line: the text before the
first include match, then (capture, following text) pairs.  `fuel` bounds
the number of matches on the line; each match consumes characters, so
`l.length + 1` is always enough. -/
def lineParts : Nat → List Char → List Char × List (List Char × List Char)
  | 0, l => (l, [])
  | fuel + 1, l =>
    match findShortcode incKw [] l with
    | none => (l, [])
    | some (pre, cap, rest) =>
      let (t, ps) := lineParts fuel rest
      (pre, (cap, t) :: ps)

/-- The captures of the include tokens on one line. -/
def lineCaps (line : List Char) : List (List Char) :=
  match findShortcode incKw [] line with
  | none => []
  | some _ => ((lineParts (line.length + 1) line).2).map (fun p => p.1)

/-- `inc_file_path.lstrip('/')`. -/
def lstripSlash (p : List Char) : List Char := p.dropWhile (fun c => c = '/')

/-- `os.path.join(base, p)` for a non-absolute `p`. -/
def joinPath (base p : List Char) : List Char :=
  if base = [] then p
  else if base.getLast? = some '/' then base ++ p
  else base ++ '/' :: p

/-- `strip_front_matter`: drop `---` delimiter lines and every line inside
an open front-matter block. -/
def stripFMAux : Bool → List (List Char) → List (List Char)
  | _, [] => []
  | inFM, line :: rest =>
    if pyStripL line = ('-' :: '-' :: '-' :: []) then stripFMAux (!inFM) rest
    else if inFM then stripFMAux inFM rest
    else line :: stripFMAux inFM rest

/-- `strip_front_matter(lines)`. -/
def strip_front_matter (lines : List (List Char)) : List (List Char) :=
  stripFMAux false lines

/-- The logged message for a missing include (with the trailing newline
added by `log_messages.append(msg + "\n")`). -/
def missingMsg (cap : List Char) : List Char :=
  ("ERROR: Missing include: ").data ++ cap ++ ('\n' :: [])

/-- Accumulate the per-line results over a list of lines: expanded lines,
log messages in order, and the number of errors added. -/
def accLines (f : List Char → Option (List Char × List (List Char) × Nat)) :
    List (List Char) → Option (List (List Char) × List (List Char) × Nat)
  | [] => some ([], [], 0)
  | l :: ls =>
    match f l, accLines f ls with
    | some (l2, ms, es), some (ls2, ams, aes) =>
      some (l2 :: ls2, ms ++ ams, es + aes)
    | _, _ => none

/-- Walk the (capture, text) pairs of one line, substituting each capture's
expansion (`g`) and keeping the plain text. -/
def accParts (g : List Char → Option (List Char × List (List Char) × Nat)) :
    List (List Char × List Char) → Option (List Char × List (List Char) × Nat)
  | [] => some ([], [], 0)
  | (cap, t) :: ps =>
    match g cap, accParts g ps with
    | some (txt, ms, es), some (atxt, ams, aes) =>
      some (txt ++ t ++ atxt, ms ++ ams, es + aes)
    | _, _ => none

/-- Expand one line: if the include pattern does not occur the line is kept
unchanged; otherwise the line is split and each capture replaced. -/
def expandLineWith
    (g : List Char → Option (List Char × List (List Char) × Nat))
    (line : List Char) : Option (List Char × List (List Char) × Nat) :=
  match findShortcode incKw [] line with
  | none => some (line, [], 0)
  | some _ =>
    match accParts g (lineParts (line.length + 1) line).2 with
    | some (txt, ms, es) =>
      some ((lineParts (line.length + 1) line).1 ++ txt, ms, es)
    | none => none

/-- `expand_includes(lines, includes_path, log_messages, stats)`:
the filesystem is `fs` (path to lines); `depth` bounds the recursion depth
through include files, and `none` models a run that never returns (the
Python recursion has no such bound).  A missing include target appends one
error message and one error count and substitutes nothing; a found include
is read, its front matter stripped, its content expanded recursively and
joined into the line. -/
def expandIncludesD (fs : List Char → Option (List (List Char)))
    (incPath : List Char) :
    Nat → List (List Char) → Option (List (List Char) × List (List Char) × Nat)
  | 0, _ => none
  | depth + 1, lines =>
    accLines (expandLineWith (fun cap =>
      match fs (joinPath incPath (lstripSlash cap)) with
      | some incLines =>
        match expandIncludesD fs incPath depth (strip_front_matter incLines) with
        | some (el, ms, es) => some (el.flatten, ms, es)
        | none => none
      | none => some ([], [missingMsg cap], 1))) lines

/-- Scan for the closing `>}}` of the versions pattern after the keyword:
`allWs` records whether every consumed character was whitespace, `ok`
whether some split into `\s+` then non-newline text reaches the current
position. -/
def versScan : Bool → Bool → List Char → Bool
  | _, ok, [] => ok && ([] : List Char).take 3 = ('>' :: '}' :: '}' :: [])
  | allWs, ok, c :: t =>
    if ok ∧ (c :: t).take 3 = ('>' :: '}' :: '}' :: []) then true
    else
      versScan (allWs && isPyWs c)
        ((allWs && isPyWs c) || (ok && c ≠ '\n')) t

/-- Match the versions pattern (`open braces, \s*, versions, \s+, .*?, >}}`)
at the beginning of `l`. -/
def matchVersionsAt (l : List Char) : Bool :=
  match l with
  | '{' :: '{' :: '<' :: rest =>
    let r1 := rest.dropWhile isPyWs
    if (('v' :: 'e' :: 'r' :: 's' :: 'i' :: 'o' :: 'n' :: 's' :: []) :
        List Char).isPrefixOf r1 then
      versScan true false (r1.drop 8)
    else false
  | _ => false

/-- `pattern.search(line)` for the versions pattern: does it match at some
position? -/
def versSearch : List Char → Bool
  | [] => matchVersionsAt []
  | c :: t => matchVersionsAt (c :: t) || versSearch t

/-- `remove_versions_lines(lines)`. -/
def remove_versions_lines (lines : List (List Char)) : List (List Char) :=
  lines.filter (fun line => !(versSearch line))

/-- Leftmost occurrence of the literal `pat`: text before it and remainder
after it. -/
def splitOnceAux (pat : List Char) : List Char → List Char →
    Option (List Char × List Char)
  | pre, l =>
    if pat.isPrefixOf l then some (pre.reverse, l.drop pat.length)
    else
      match l with
      | [] => none
      | c :: t => splitOnceAux pat (c :: pre) t

/-- `re.sub(r'<!--.*?-->', '', text, flags=re.DOTALL)`: repeatedly drop the
leftmost `<!--` up to the nearest following `-->`; a `<!--` with no later
`-->` stays.  `fuel` bounds the number of removed comments
(`l.length + 1` always suffices since each removal consumes characters). -/
def removeCommentsAux : Nat → List Char → List Char
  | 0, l => l
  | fuel + 1, l =>
    match splitOnceAux ('<' :: '!' :: '-' :: '-' :: []) [] l with
    | none => l
    | some (pre, rest) =>
      match splitOnceAux ('-' :: '-' :: '>' :: []) [] rest with
      | none => l
      | some (_, rest2) => pre ++ removeCommentsAux fuel rest2

/-- `remove_html_comments(text)`. -/
def remove_html_comments (text : List Char) : List Char :=
  removeCommentsAux (text.length + 1) text

/-- The non-empty components of the normalized absolute path `/` ++ `p`
(`posixpath.normpath` from the root: `.` and empty components vanish, `..`
pops, `..` at the root vanishes). -/
def normParts (parts : List (List Char)) : List (List Char) :=
  parts.foldl (fun acc p =>
    if p = [] ∨ p = ('.' :: []) then acc
    else if p = ('.' :: '.' :: []) then acc.dropLast
    else acc ++ [p]) []

/-- Length of the longest common prefix of two component lists. -/
def commonLen : List (List Char) → List (List Char) → Nat
  | a :: as, b :: bs => if a = b then commonLen as bs + 1 else 0
  | _, _ => 0

/-- `os.path.relpath(path, start)` for the two relative paths of
`replace_relref`, with the working directory taken as the root (the result
is the same for any working directory as long as `..` components do not
climb out of it). -/
def relpathL (path start : List Char) : List Char :=
  let pl := normParts (splitChar '/' path)
  let sl := normParts (splitChar '/' start)
  let i := commonLen pl sl
  match (List.replicate (sl.length - i) ('.' :: '.' :: [])) ++ pl.drop i with
  | [] => ('.' :: [])
  | r :: rs => joinChar '/' (r :: rs)

/-- The replacement for one relref capture: strip the doc-set prefix or a
leading slash, then take the path relative to the current file's
directory. -/
def replRelref (curDir docSet cap : List Char) : List Char :=
  let tr :=
    if (('/' :: docSet) ++ ('/' :: [])).isPrefixOf cap then
      cap.drop (docSet.length + 2)
    else if cap.take 1 = ('/' :: []) then cap.drop 1
    else cap
  relpathL tr (if curDir = [] then ('.' :: []) else curDir)

/-- `replace_relref(text, current_file_dir, doc_set_name)`: substitute each
relref shortcode, left to right (`fuel` bounds the number of
substitutions; `text.length + 1` always suffices). -/
def relrefSubAux (curDir docSet : List Char) : Nat → List Char → List Char
  | 0, l => l
  | fuel + 1, l =>
    match findShortcode relKw [] l with
    | none => l
    | some (pre, cap, rest) =>
      pre ++ replRelref curDir docSet cap ++ relrefSubAux curDir docSet fuel rest

/-- `replace_relref`. -/
def replace_relref (text curDir docSet : List Char) : List Char :=
  relrefSubAux curDir docSet (text.length + 1) text

/-- `os.path.dirname` on a relative slash path. -/
def dirnameL (p : List Char) : List Char :=
  match splitChar '/' p with
  | [] => []
  | [_] => []
  | x :: y :: rest => joinChar '/' ((x :: y :: rest).dropLast)

/-- The log line appended after a file is written. -/
def processedMsg (src : List Char) : List Char :=
  ("Processed: ").data ++ src ++ ('\n' :: [])

/-- The log line of the `except` branch (the exception text is the part up
to the exception's own message). -/
def readErrMsg (src : List Char) : List Char :=
  ("ERROR while reading ").data ++ src ++ ('\n' :: [])

/-- The body of `main`'s per-file loop: read the source, strip front
matter, expand includes, drop versions lines, join, remove HTML comments,
replace relrefs, and write the result to the target (writing modelled as
returning the written text).  The result is `(written text if any, log
messages added, errors added)`; an unreadable source takes the `except`
branch: no write, one error.  `none` models a run that never returns. -/
def archive_one_file (fs : List Char → Option (List (List Char)))
    (incPath : List Char) (depth : Nat)
    (sourcePath relPath docSet : List Char) :
    Option (Option (List Char) × List (List Char) × Nat) :=
  match fs sourcePath with
  | none => some (none, [readErrMsg sourcePath], 1)
  | some lines =>
    match expandIncludesD fs incPath depth (strip_front_matter lines) with
    | none => none
    | some (el, ms, es) =>
      let fullText :=
        replace_relref
          (remove_html_comments ((remove_versions_lines el).flatten))
          (dirnameL relPath) docSet
      some (some fullText, ms ++ [processedMsg sourcePath], es)

theorem accLines_of_id
    {f : List Char → Option (List Char × List (List Char) × Nat)} :
    ∀ (ms : List (List Char)), (∀ m ∈ ms, f m = some (m, [], 0)) →
      accLines f ms = some (ms, [], 0) := by
  intro ms
  induction ms with
  | nil => intro _; rfl
  | cons m ms ih =>
    intro h
    simp only [accLines]
    rw [h m (List.mem_cons_self m ms),
      ih (fun x hx => h x (List.mem_cons_of_mem m hx))]
    simp

theorem expandLineWith_of_no_match
    {g : List Char → Option (List Char × List (List Char) × Nat)}
    {m : List Char} (h : findShortcode incKw [] m = none) :
    expandLineWith g m = some (m, [], 0) := by
  simp only [expandLineWith, h]

theorem accLines_prepend
    {f : List Char → Option (List Char × List (List Char) × Nat)} :
    ∀ (ms : List (List Char)) {rest : List (List Char)}
      {v : List (List Char)} {ams : List (List Char)} {n : Nat},
      (∀ m ∈ ms, f m = some (m, [], 0)) →
      accLines f rest = some (v, ams, n) →
      accLines f (ms ++ rest) = some (ms ++ v, ams, n) := by
  intro ms
  induction ms with
  | nil =>
    intro rest v ams n _ h2
    simpa using h2
  | cons m ms ih =>
    intro rest v ams n h1 h2
    have hih := ih (fun x hx => h1 x (List.mem_cons_of_mem m hx)) h2
    simp only [List.cons_append, accLines, List.append_eq]
    rw [h1 m (List.mem_cons_self m _), hih]
    simp

theorem lineParts_single {l t0 p t1 : List Char}
    (h : findShortcode incKw [] l = some (t0, p, t1))
    (ht : findShortcode incKw [] t1 = none) :
    ∀ fuel, lineParts (fuel + 1) l = (t0, [(p, t1)]) := by
  intro fuel
  cases fuel with
  | zero => simp [lineParts, h]
  | succ fuel => simp [lineParts, h, ht]

theorem expandLineWith_token
    {g : List Char → Option (List Char × List (List Char) × Nat)}
    {l t0 p t1 : List Char}
    (h : findShortcode incKw [] l = some (t0, p, t1))
    (ht : findShortcode incKw [] t1 = none)
    (hg : g p = some ([], [missingMsg p], 1)) :
    expandLineWith g l = some (t0 ++ t1, [missingMsg p], 1) := by
  have hp := lineParts_single h ht l.length
  simp only [expandLineWith, h, hp, accParts, hg]
  simp

theorem accLines_token
    {f : List Char → Option (List Char × List (List Char) × Nat)}
    {l newl : List Char} {ms1 : List (List Char)} {n : Nat}
    (pre post : List (List Char))
    (hpre : ∀ m ∈ pre, f m = some (m, [], 0))
    (hpost : ∀ m ∈ post, f m = some (m, [], 0))
    (htok : f l = some (newl, ms1, n)) :
    accLines f (pre ++ l :: post) = some (pre ++ newl :: post, ms1, n) := by
  refine accLines_prepend pre hpre ?_
  simp only [accLines]
  rw [htok, accLines_of_id post hpost]
  simp

theorem expand_missing_single (fs : List Char → Option (List (List Char)))
    (incPath : List Char) (d : Nat) {pre post : List (List Char)}
    {l t0 p t1 : List Char}
    (hline : findShortcode incKw [] l = some (t0, p, t1))
    (ht1 : findShortcode incKw [] t1 = none)
    (hpre : ∀ m ∈ pre, findShortcode incKw [] m = none)
    (hpost : ∀ m ∈ post, findShortcode incKw [] m = none)
    (hmiss : fs (joinPath incPath (lstripSlash p)) = none) :
    expandIncludesD fs incPath (d + 1) (pre ++ l :: post)
      = some (pre ++ (t0 ++ t1) :: post, [missingMsg p], 1) := by
  simp only [expandIncludesD]
  refine accLines_token pre post
    (fun m hm => expandLineWith_of_no_match (hpre m hm))
    (fun m hm => expandLineWith_of_no_match (hpost m hm))
    (expandLineWith_token hline ht1 ?_)
  simp only [hmiss]

/-- C7: for a Markdown file whose (front-matter-stripped) content has one
include token referencing a missing target, the per-file flow logs exactly
one missing-include error, does not abort (no exception path is taken), and
still writes the file's processed content — with the token dropped — to the
archive target. -/
theorem c7_missing_include_one_error_still_written
    (fs : List Char → Option (List (List Char)))
    (incPath sourcePath relPath docSet : List Char) (depth : Nat)
    {lines pre post : List (List Char)} {l t0 p t1 : List Char}
    (hd : 0 < depth)
    (hread : fs sourcePath = some lines)
    (hstrip : strip_front_matter lines = pre ++ l :: post)
    (hline : findShortcode incKw [] l = some (t0, p, t1))
    (ht1 : findShortcode incKw [] t1 = none)
    (hpre : ∀ m ∈ pre, findShortcode incKw [] m = none)
    (hpost : ∀ m ∈ post, findShortcode incKw [] m = none)
    (hmiss : fs (joinPath incPath (lstripSlash p)) = none) :
    archive_one_file fs incPath depth sourcePath relPath docSet
      = some (some (replace_relref
          (remove_html_comments
            ((remove_versions_lines (pre ++ (t0 ++ t1) :: post)).flatten))
          (dirnameL relPath) docSet),
        [missingMsg p, processedMsg sourcePath], 1) := by
  cases depth with
  | zero => exact absurd hd (by simp)
  | succ d =>
    simp only [archive_one_file, hread, hstrip,
      expand_missing_single fs incPath d hline ht1 hpre hpost hmiss]
    rfl

/-- A one-file filesystem whose only file holds one include token whose
target is absent. -/
def c7fs (p : List Char) : Option (List (List Char)) :=
  if p = ("d/f.md").data then
    some ((("x \x7b\x7b< include \"m.md\" >\x7d\x7d y\n").data) :: [])
  else none

theorem c7_missing_include_one_error_still_written_witness :
    c7fs (joinPath (("inc").data) (lstripSlash (("m.md").data))) = none ∧
    archive_one_file c7fs (("inc").data) 1 (("d/f.md").data)
        (("f.md").data) (("d").data)
      = some (some (("x  y\n").data),
          [missingMsg (("m.md").data), processedMsg (("d/f.md").data)], 1) := by
  refine ⟨by decide, ?_⟩
  have h := @c7_missing_include_one_error_still_written c7fs
    (("inc").data) (("d/f.md").data) (("f.md").data) (("d").data) 1
    ((("x \x7b\x7b< include \"m.md\" >\x7d\x7d y\n").data) :: []) [] []
    (("x \x7b\x7b< include \"m.md\" >\x7d\x7d y\n").data)
    (("x ").data) (("m.md").data) ((" y\n").data)
    (by decide) (by decide) (by decide) (by decide) (by decide)
    (by decide) (by decide) (by decide)
  simpa using h

theorem accLines_isSome
    {f : List Char → Option (List Char × List (List Char) × Nat)} :
    ∀ (ls : List (List Char)), (∀ l ∈ ls, (f l).isSome = true) →
      (accLines f ls).isSome = true := by
  intro ls
  induction ls with
  | nil => intro _; rfl
  | cons l ls ih =>
    intro h
    have h1 := h l (List.mem_cons_self l ls)
    have h2 := ih (fun x hx => h x (List.mem_cons_of_mem l hx))
    simp only [accLines]
    rcases hf : f l with _ | v
    · rw [hf] at h1
      exact absurd h1 (by simp)
    · rcases ha : accLines f ls with _ | w
      · rw [ha] at h2
        exact absurd h2 (by simp)
      · obtain ⟨l2, ms, es⟩ := v
        obtain ⟨ls2, ams, aes⟩ := w
        rfl

theorem accParts_isSome
    {g : List Char → Option (List Char × List (List Char) × Nat)} :
    ∀ (ps : List (List Char × List Char)),
      (∀ pr ∈ ps, (g pr.1).isSome = true) →
      (accParts g ps).isSome = true := by
  intro ps
  induction ps with
  | nil => intro _; rfl
  | cons pr ps ih =>
    intro h
    have h1 := h pr (List.mem_cons_self pr ps)
    have h2 := ih (fun x hx => h x (List.mem_cons_of_mem pr hx))
    obtain ⟨cap, t⟩ := pr
    simp only [accParts]
    rcases hf : g cap with _ | v
    · rw [hf] at h1
      exact absurd h1 (by simp)
    · rcases ha : accParts g ps with _ | w
      · rw [ha] at h2
        exact absurd h2 (by simp)
      · obtain ⟨txt, ms, es⟩ := v
        obtain ⟨atxt, ams, aes⟩ := w
        rfl

theorem cap_mem_lineCaps {line pre0 cap rest : List Char}
    (hf : findShortcode incKw [] line = some (pre0, cap, rest)) :
    cap ∈ lineCaps line := by
  simp only [lineCaps, hf, lineParts]
  simp

theorem expandLineWith_isSome
    {g : List Char → Option (List Char × List (List Char) × Nat)}
    {line : List Char}
    (h : ∀ cap ∈ lineCaps line, (g cap).isSome = true) :
    (expandLineWith g line).isSome = true := by
  rcases hf : findShortcode incKw [] line with _ | t
  · simp [expandLineWith, hf]
  · have hc : ∀ pr ∈ (lineParts (line.length + 1) line).2,
        (g pr.1).isSome = true := by
      intro pr hpr
      refine h pr.1 ?_
      simp only [lineCaps, hf]
      exact List.mem_map_of_mem _ hpr
    have hacc := accParts_isSome _ hc
    simp only [expandLineWith, hf]
    rcases ha : accParts g (lineParts (line.length + 1) line).2 with _ | w
    · rw [ha] at hacc
      exact absurd hacc (by simp)
    · obtain ⟨txt, ms, es⟩ := w
      rfl

/-- Include expansion succeeds at depth `B + 1` whenever a rank function
decreases along every include reference of the filesystem and bounds the
top-level references by `B` (the formal counterpart of an acyclic —
well-founded — include-reference graph). -/
theorem expand_terminates
    (fs : List Char → Option (List (List Char))) (incPath : List Char)
    (rank : List Char → Nat)
    (hfs : ∀ path content, fs path = some content →
      ∀ line ∈ strip_front_matter content, ∀ cap ∈ lineCaps line,
        rank (joinPath incPath (lstripSlash cap)) < rank path) :
    ∀ (B : Nat) (lines : List (List Char)),
      (∀ line ∈ lines, ∀ cap ∈ lineCaps line,
        rank (joinPath incPath (lstripSlash cap)) < B) →
      (expandIncludesD fs incPath (B + 1) lines).isSome = true := by
  intro B
  induction B with
  | zero =>
    intro lines hB
    simp only [expandIncludesD]
    refine accLines_isSome _ (fun line hl => ?_)
    rcases hf : findShortcode incKw [] line with _ | t
    · simp [expandLineWith, hf]
    · obtain ⟨pre0, cap, rest⟩ := t
      exact absurd (hB line hl cap (cap_mem_lineCaps hf)) (by simp)
  | succ B ih =>
    intro lines hB
    simp only [expandIncludesD]
    refine accLines_isSome _ (fun line hl => ?_)
    refine expandLineWith_isSome (fun cap hcap => ?_)
    have hrank := hB line hl cap hcap
    rcases hfsv : fs (joinPath incPath (lstripSlash cap)) with _ | content
    · simp [hfsv]
    · have hsub : (expandIncludesD fs incPath (B + 1)
          (strip_front_matter content)).isSome = true := by
        refine ih (strip_front_matter content) ?_
        intro line2 hl2 cap2 hcap2
        exact lt_of_lt_of_le (hfs _ _ hfsv line2 hl2 cap2 hcap2)
          (Nat.lt_succ_iff.mp hrank)
      simp only [expandIncludesD] at hsub
      simp only [hfsv]
      obtain ⟨w, hw⟩ := Option.isSome_iff_exists.mp hsub
      rw [hw]
      obtain ⟨el, ms, es⟩ := w
      rfl

theorem accLines_none_head
    {f : List Char → Option (List Char × List (List Char) × Nat)}
    {l : List Char} {ls : List (List Char)} (h : f l = none) :
    accLines f (l :: ls) = none := by
  cases ha : accLines f ls with
  | none => simp [accLines, h, ha]
  | some w =>
    obtain ⟨a, b, c⟩ := w
    simp [accLines, h, ha]

theorem accParts_none_head
    {g : List Char → Option (List Char × List (List Char) × Nat)}
    {cap t : List Char} {ps : List (List Char × List Char)}
    (h : g cap = none) :
    accParts g ((cap, t) :: ps) = none := by
  cases ha : accParts g ps with
  | none => simp [accParts, h, ha]
  | some w =>
    obtain ⟨a, b, c⟩ := w
    simp [accParts, h, ha]

theorem expandLineWith_none_of_first
    {g : List Char → Option (List Char × List (List Char) × Nat)}
    {l pre0 cap rest : List Char}
    (hf : findShortcode incKw [] l = some (pre0, cap, rest))
    (hparts : accParts g (lineParts (l.length + 1) l).2 = none) :
    expandLineWith g l = none := by
  simp [expandLineWith, hf, hparts]

/-- A filesystem with a single self-including file: `inc/a.md` includes
`a.md`. -/
def cycFs (p : List Char) : Option (List (List Char)) :=
  if p = ("inc/a.md").data then
    some ((("\x7b\x7b< include \"a.md\" >\x7d\x7d\n").data) :: [])
  else none

/-- C10: the include expansion terminates under an acyclicity precondition
and only under it.  First half: whenever a rank function decreases along
every include reference of the filesystem (the formal counterpart of an
acyclic, well-founded include-reference graph — the code has no cycle
detection to rely on instead), some recursion depth suffices and the
expansion returns.  Second half: on a self-including file the expansion
returns at no depth, i.e. the Python recursion never terminates. -/
theorem c10_expansion_terminates_iff_wf_includes :
    (∀ (fs : List Char → Option (List (List Char))) (incPath : List Char)
        (rank : List Char → Nat) (B : Nat) (lines : List (List Char)),
      (∀ path content, fs path = some content →
        ∀ line ∈ strip_front_matter content, ∀ cap ∈ lineCaps line,
          rank (joinPath incPath (lstripSlash cap)) < rank path) →
      (∀ line ∈ lines, ∀ cap ∈ lineCaps line,
        rank (joinPath incPath (lstripSlash cap)) < B) →
      ∃ d, (expandIncludesD fs incPath d lines).isSome = true) ∧
    (∀ d, expandIncludesD cycFs (("inc").data) d
        ((("\x7b\x7b< include \"a.md\" >\x7d\x7d\n").data) :: []) = none) := by
  constructor
  · intro fs incPath rank B lines hfs hB
    exact ⟨B + 1, expand_terminates fs incPath rank hfs B lines hB⟩
  · intro d
    induction d with
    | zero => rfl
    | succ d ih =>
      simp only [expandIncludesD]
      refine accLines_none_head ?_
      refine @expandLineWith_none_of_first _
        ((("\x7b\x7b< include \"a.md\" >\x7d\x7d\n").data)) [] (("a.md").data)
        (("\n").data) (by decide) ?_
      rw [show lineParts (((("\x7b\x7b< include \"a.md\" >\x7d\x7d\n").data)).length + 1)
          ((("\x7b\x7b< include \"a.md\" >\x7d\x7d\n").data))
          = ([], [((("a.md").data), (("\n").data))]) from by decide]
      refine accParts_none_head ?_
      simp only [show cycFs (joinPath (("inc").data)
          (lstripSlash (("a.md").data)))
          = some ((("\x7b\x7b< include \"a.md\" >\x7d\x7d\n").data) :: []) from by decide]
      rw [show strip_front_matter ((("\x7b\x7b< include \"a.md\" >\x7d\x7d\n").data) :: [])
          = (("\x7b\x7b< include \"a.md\" >\x7d\x7d\n").data) :: [] from by decide]
      rw [ih]

/-- A two-level filesystem: the top content includes `b.md`, which includes
nothing. -/
def c10fs (p : List Char) : Option (List (List Char)) :=
  if p = ("i/b.md").data then some ((("B\n").data) :: []) else none

/-- Rank function witnessing that `c10fs`'s include graph is acyclic. -/
def c10rank (p : List Char) : Nat :=
  if p = ("i/b.md").data then 0 else 1

theorem c10_expansion_terminates_iff_wf_includes_witness :
    ∃ d, (expandIncludesD c10fs (("i").data) d
      ((("\x7b\x7b< include \"b.md\" >\x7d\x7d\n").data) :: [])).isSome = true :=
  c10_expansion_terminates_iff_wf_includes.1 c10fs (("i").data) c10rank 1
    ((("\x7b\x7b< include \"b.md\" >\x7d\x7d\n").data) :: [])
    (fun path content h => by
      simp only [c10fs] at h
      split at h
      · rename_i hp
        subst hp
        injection h with h
        subst h
        decide
      · exact absurd h (by simp))
    (by decide)
